import Mathlib

/-!
Verification of the liga structure-determination program (diffpy/liga).

The development shallow-embeds the parts of the source needed by the
claims under scrutiny:

* `DistanceTable` operations `find_nearest`, `return_back` and positional
  erase (src/BGAlib.cpp, `DistanceTable` definitions), modelled on sorted
  lists of rationals (the C++ code works on `std::vector<double>`; exact
  rational arithmetic stands in for floating point).
* the `Molecule` state machine: `Add`, `Pop`, `Clear`, `recalculate` and
  `reassignPairs` with the symmetric matrices `pmx_partial_costs` and
  `pmx_used_distances`, the free-slot set and the badness bookkeeping
  (src/Molecule.cpp).
* the candidate generation of `push_good_distances` (line anchor) from
  src/Molecule.cpp and the guard structure of `push_good_triangles`
  (src/BGAlib.cpp and src/Molecule.cpp).
* the `Crystal::setDistReuse` error behaviour (src/src/Crystal.cpp).

Geometry: atom positions are kept abstract (a type `α` with a distance
function `α → α → ℚ`) for the bookkeeping claims, because the Euclidean
primitives are external to the specified core; the line-anchor claim uses
an explicit 3-vector type over ℚ with squared norms.
-/

namespace Liga

/-! ### DistanceTable (src/BGAlib.cpp)

`DistanceTable` derives from `std::vector<double>` and is kept sorted
ascending.  We model it as a `List ℚ` together with sortedness facts used
as hypotheses.
-/

/-- `std::lower_bound(begin(), end(), d)` on a sorted vector: index of the
first entry that is not less than `d`.  On a sorted list this linear scan
returns the same index as the C++ binary search. -/
def lowerBound : List ℚ → ℚ → ℕ
  | [], _ => 0
  | x :: xs, d => if x < d then lowerBound xs d + 1 else 0

/-- `DistanceTable::find_nearest` (src/BGAlib.cpp lines 354-362):
lower bound, then a conditional single decrement:
`if ((ii == end() && size() != 0) || (ii != begin() && (dfind - *(ii-1)) < (*ii - dfind))) --ii;`.
The short-circuit of `||` guarantees `*ii` is only read at a valid
position; out-of-range reads in the model use the `getD` default. -/
def find_nearest (t : List ℚ) (d : ℚ) : ℕ :=
  let i := lowerBound t d
  if i = t.length ∧ t.length ≠ 0 then i - 1
  else if i ≠ 0 ∧ d - t.getD (i - 1) 0 < t.getD i 0 - d then i - 1
  else i

/-- `std::vector::insert` at a numeric position
(used by `DistanceTable::return_back`). -/
def insertAt {β : Type _} : ℕ → β → List β → List β
  | 0, d, t => d :: t
  | _ + 1, d, [] => [d]
  | n + 1, d, x :: t => x :: insertAt n d t

/-- `std::vector::erase` at a numeric position. -/
def eraseAt {β : Type _} : ℕ → List β → List β
  | _, [] => []
  | 0, _ :: t => t
  | n + 1, x :: t => x :: eraseAt n t

/-- `DistanceTable::return_back` (src/BGAlib.cpp lines 364-368):
sorted insert at the lower-bound position. -/
def return_back (t : List ℚ) (d : ℚ) : List ℚ :=
  insertAt (lowerBound t d) d t

/-! #### lowerBound facts -/

theorem lowerBound_le_length (t : List ℚ) (d : ℚ) : lowerBound t d ≤ t.length := by
  induction t with
  | nil => simp [lowerBound]
  | cons x xs ih =>
      by_cases h : x < d <;> simp [lowerBound, h] <;> omega

theorem getD_lt_of_lt_lowerBound (t : List ℚ) (d : ℚ) :
    ∀ j, j < lowerBound t d → t.getD j 0 < d := by
  induction t with
  | nil => intro j hj; simp [lowerBound] at hj
  | cons x xs ih =>
      intro j hj
      by_cases h : x < d
      · cases j with
        | zero => simpa using h
        | succ j =>
            simp only [lowerBound, if_pos h] at hj
            exact ih j (by omega)
      · simp [lowerBound, h] at hj

theorem le_getD_lowerBound (t : List ℚ) (d : ℚ)
    (h : lowerBound t d < t.length) : d ≤ t.getD (lowerBound t d) 0 := by
  induction t with
  | nil => simp [lowerBound] at h
  | cons x xs ih =>
      by_cases hx : x < d
      · simp only [lowerBound, if_pos hx] at h ⊢
        simpa using ih (by simpa using Nat.lt_of_succ_lt_succ (by simpa using h))
      · simp only [lowerBound, if_neg hx]
        simpa using le_of_not_lt hx

/-- Characterisation of `lowerBound` from pointwise facts. -/
theorem lowerBound_eq_of (t : List ℚ) (d : ℚ) (k : ℕ) (hk : k ≤ t.length)
    (hlt : ∀ j, j < k → t.getD j 0 < d)
    (hge : k = t.length ∨ d ≤ t.getD k 0) : lowerBound t d = k := by
  induction t generalizing k with
  | nil =>
      simp only [lowerBound]
      simp only [List.length_nil] at hk
      omega
  | cons x xs ih =>
      cases k with
      | zero =>
          have hx : ¬ x < d := by
            rcases hge with h | h
            · simp at h
            · have hdx : d ≤ x := by simpa using h
              exact not_lt_of_le hdx
          simp [lowerBound, hx]
      | succ k =>
          have hx : x < d := by simpa using hlt 0 (Nat.succ_pos k)
          have : lowerBound xs d = k := by
            refine ih k (by simpa using Nat.le_of_succ_le_succ hk) ?_ ?_
            · intro j hj; simpa using hlt (j + 1) (by omega)
            · rcases hge with h | h
              · left; simpa using h
              · right; simpa using h
          simp [lowerBound, hx, this]

/-! #### insertAt / eraseAt facts -/

theorem length_insertAt (n : ℕ) (d : ℚ) (t : List ℚ) (h : n ≤ t.length) :
    (insertAt n d t).length = t.length + 1 := by
  induction t generalizing n with
  | nil =>
      have hn0 : n = 0 := by simpa using h
      subst hn0; simp [insertAt]
  | cons x xs ih =>
      cases n with
      | zero => simp [insertAt]
      | succ n => simp [insertAt, ih n (by simpa using Nat.le_of_succ_le_succ h)]

theorem getD_insertAt_lt (n : ℕ) (d : ℚ) (t : List ℚ) (j : ℕ)
    (hj : j < n) (hn : n ≤ t.length) :
    (insertAt n d t).getD j 0 = t.getD j 0 := by
  induction t generalizing n j with
  | nil => simp only [List.length_nil] at hn; omega
  | cons x xs ih =>
      cases n with
      | zero => omega
      | succ n =>
          cases j with
          | zero => simp [insertAt]
          | succ j =>
              simp only [insertAt, List.getD_cons_succ]
              exact ih n j (by omega) (by simpa using Nat.le_of_succ_le_succ hn)

theorem getD_insertAt_self (n : ℕ) (d : ℚ) (t : List ℚ) (hn : n ≤ t.length) :
    (insertAt n d t).getD n 0 = d := by
  induction t generalizing n with
  | nil =>
      have : n = 0 := by simpa using hn
      subst this; simp [insertAt]
  | cons x xs ih =>
      cases n with
      | zero => simp [insertAt]
      | succ n =>
          simp only [insertAt, List.getD_cons_succ]
          exact ih n (by simpa using Nat.le_of_succ_le_succ hn)

theorem getD_insertAt_ge (n : ℕ) (d : ℚ) (t : List ℚ) (j : ℕ)
    (hj : n ≤ j) (hn : n ≤ t.length) :
    (insertAt n d t).getD (j + 1) 0 = t.getD j 0 := by
  induction t generalizing n j with
  | nil =>
      have : n = 0 := by simpa using hn
      subst this; simp [insertAt]
  | cons x xs ih =>
      cases n with
      | zero => simp [insertAt]
      | succ n =>
          cases j with
          | zero => omega
          | succ j =>
              simp only [insertAt, List.getD_cons_succ]
              exact ih n j (by omega) (by simpa using Nat.le_of_succ_le_succ hn)

theorem multiset_insertAt (n : ℕ) (d : ℚ) (t : List ℚ) :
    ((insertAt n d t : List ℚ) : Multiset ℚ) = d ::ₘ (t : Multiset ℚ) := by
  induction t generalizing n with
  | nil => cases n <;> simp [insertAt]
  | cons x xs ih =>
      cases n with
      | zero => simp [insertAt]
      | succ n =>
          simp only [insertAt]
          have := ih n
          simp only [Multiset.cons_coe] at this ⊢
          rw [show ((x :: insertAt n d xs : List ℚ) : Multiset ℚ)
              = x ::ₘ (insertAt n d xs : Multiset ℚ) from rfl, this]
          exact Multiset.cons_swap x d (xs : Multiset ℚ)

theorem length_eraseAt {β : Type _} (n : ℕ) (t : List β) (h : n < t.length) :
    (eraseAt n t).length = t.length - 1 := by
  induction t generalizing n with
  | nil => simp at h
  | cons x xs ih =>
      cases n with
      | zero => simp [eraseAt]
      | succ n =>
          have hx : n < xs.length := by simpa using Nat.lt_of_succ_lt_succ h
          have hlen : 1 ≤ xs.length := by omega
          simp [eraseAt, ih n hx]
          omega

theorem getD_eraseAt_lt {β : Type _} (n : ℕ) (t : List β) (j : ℕ) (d : β) (hj : j < n) :
    (eraseAt n t).getD j d = t.getD j d := by
  induction t generalizing n j with
  | nil => simp [eraseAt]
  | cons x xs ih =>
      cases n with
      | zero => omega
      | succ n =>
          cases j with
          | zero => simp [eraseAt]
          | succ j => simpa [eraseAt] using ih n j (by omega)

theorem getD_eraseAt_ge {β : Type _} (n : ℕ) (t : List β) (j : ℕ) (d : β) (hj : n ≤ j) :
    (eraseAt n t).getD j d = t.getD (j + 1) d := by
  induction t generalizing n j with
  | nil => simp [eraseAt]
  | cons x xs ih =>
      cases n with
      | zero =>
          cases j <;> simp [eraseAt]
      | succ n =>
          cases j with
          | zero => omega
          | succ j => simpa [eraseAt] using ih n j (by omega)

theorem getD_mem {β : Type _} (l : List β) (n : ℕ) (d : β) (h : n < l.length) :
    l.getD n d ∈ l := by
  induction l generalizing n with
  | nil => simp at h
  | cons x xs ih =>
      cases n with
      | zero => simp
      | succ n =>
          simp only [List.getD_cons_succ]
          exact List.mem_cons_of_mem x (ih n (by simpa using Nat.lt_of_succ_lt_succ h))

theorem multiset_eraseAt (n : ℕ) (t : List ℚ) (h : n < t.length) :
    (t : Multiset ℚ) = t.getD n 0 ::ₘ ((eraseAt n t : List ℚ) : Multiset ℚ) := by
  induction t generalizing n with
  | nil => simp at h
  | cons x xs ih =>
      cases n with
      | zero => simp [eraseAt]
      | succ n =>
          have hx : n < xs.length := by simpa using Nat.lt_of_succ_lt_succ h
          simp only [List.getD_cons_succ, eraseAt]
          calc ((x :: xs : List ℚ) : Multiset ℚ) = x ::ₘ (xs : Multiset ℚ) := rfl
            _ = x ::ₘ (xs.getD n 0 ::ₘ ((eraseAt n xs : List ℚ) : Multiset ℚ)) := by
                  rw [← ih n hx]
            _ = xs.getD n 0 ::ₘ (x ::ₘ ((eraseAt n xs : List ℚ) : Multiset ℚ)) :=
                  Multiset.cons_swap _ _ _
            _ = xs.getD n 0 ::ₘ ((x :: eraseAt n xs : List ℚ) : Multiset ℚ) := rfl

theorem eraseAt_sublist {β : Type _} (n : ℕ) (t : List β) : (eraseAt n t).Sublist t := by
  induction t generalizing n with
  | nil => simp [eraseAt]
  | cons x xs ih =>
      cases n with
      | zero => simpa [eraseAt] using List.sublist_cons_self x xs
      | succ n => simpa [eraseAt] using (ih n).cons₂ x

theorem mem_of_mem_eraseAt {β : Type _} {n : ℕ} {t : List β} {x : β}
    (h : x ∈ eraseAt n t) : x ∈ t :=
  (eraseAt_sublist n t).mem h

theorem nodup_eraseAt {β : Type _} (n : ℕ) (t : List β) (h : t.Nodup) :
    (eraseAt n t).Nodup :=
  h.sublist (eraseAt_sublist n t)

theorem getD_not_mem_eraseAt {β : Type _} (n : ℕ) (t : List β) (d : β)
    (hnd : t.Nodup) (h : n < t.length) : t.getD n d ∉ eraseAt n t := by
  induction t generalizing n with
  | nil => simp at h
  | cons x xs ih =>
      cases n with
      | zero =>
          simpa [eraseAt] using (List.nodup_cons.mp hnd).1
      | succ n =>
          simp only [List.getD_cons_succ, eraseAt, List.mem_cons]
          rintro (hx | hmem)
          · exact (List.nodup_cons.mp hnd).1 (hx ▸ getD_mem xs n d
              (by simpa using Nat.lt_of_succ_lt_succ h))
          · exact ih n (List.nodup_cons.mp hnd).2
              (by simpa using Nat.lt_of_succ_lt_succ h) hmem

theorem mem_eraseAt_of_ne {β : Type _} (n : ℕ) (t : List β) (d : β) (x : β)
    (hx : x ∈ t) (hne : x ≠ t.getD n d) : x ∈ eraseAt n t := by
  induction t generalizing n with
  | nil => simp at hx
  | cons y xs ih =>
      cases n with
      | zero =>
          rcases List.mem_cons.mp hx with h | h
          · exact absurd (by simpa using h) hne
          · simpa [eraseAt] using h
      | succ n =>
          rcases List.mem_cons.mp hx with h | h
          · simp [eraseAt, h]
          · simp only [eraseAt, List.mem_cons]
            exact Or.inr (ih n h (by simpa using hne))

theorem perm_cons_eraseAt {β : Type _} (n : ℕ) (t : List β) (d : β)
    (h : n < t.length) : t.Perm (t.getD n d :: eraseAt n t) := by
  induction t generalizing n with
  | nil => simp at h
  | cons x xs ih =>
      cases n with
      | zero => simp [eraseAt]
      | succ n =>
          have hx : n < xs.length := by simpa using Nat.lt_of_succ_lt_succ h
          have h1 : (x :: xs).Perm (x :: (xs.getD n d :: eraseAt n xs)) :=
            (ih n hx).cons x
          have h2 : (x :: (xs.getD n d :: eraseAt n xs)).Perm
              (xs.getD n d :: (x :: eraseAt n xs)) :=
            List.Perm.swap (xs.getD n d) x (eraseAt n xs)
          simp only [List.getD_cons_succ, eraseAt]
          exact h1.trans h2

theorem map_eraseAt {β γ : Type _} (f : β → γ) (n : ℕ) (t : List β) :
    (eraseAt n t).map f = eraseAt n (t.map f) := by
  induction t generalizing n with
  | nil => simp [eraseAt]
  | cons x xs ih =>
      cases n with
      | zero => simp [eraseAt]
      | succ n => simp [eraseAt, ih n]

theorem sum_map_eraseAt (f : ℕ → ℚ) (t : List ℕ) (n : ℕ) (h : n < t.length) :
    (t.map f).sum = ((eraseAt n t).map f).sum + f (t.getD n 0) := by
  have hperm : (t.map f).Perm ((t.getD n 0 :: eraseAt n t).map f) :=
    (perm_cons_eraseAt n t 0 h).map f
  rw [hperm.sum_eq]
  simp [add_comm]

theorem sorted_eraseAt (n : ℕ) (t : List ℚ) (h : t.Sorted (· ≤ ·)) :
    (eraseAt n t).Sorted (· ≤ ·) :=
  h.sublist (eraseAt_sublist n t)

/-- Insertion via `return_back` keeps the table sorted. -/
theorem sorted_return_back (t : List ℚ) (d : ℚ) (h : t.Sorted (· ≤ ·)) :
    (return_back t d).Sorted (· ≤ ·) := by
  unfold return_back
  induction t with
  | nil => simp [insertAt, lowerBound]
  | cons x xs ih =>
      by_cases hx : x < d
      · have hxs : xs.Sorted (· ≤ ·) := (List.sorted_cons.mp h).2
        have hins := ih hxs
        simp only [lowerBound, if_pos hx, insertAt]
        refine List.sorted_cons.mpr ⟨?_, hins⟩
        intro b hb
        have hmem : b ∈ (insertAt (lowerBound xs d) d xs : List ℚ) := hb
        have : (b : ℚ) ∈ (d ::ₘ (xs : Multiset ℚ)) := by
          rw [← multiset_insertAt]
          simpa using hmem
        rcases Multiset.mem_cons.mp this with hbd | hbxs
        · subst hbd; exact le_of_lt hx
        · exact (List.sorted_cons.mp h).1 b (by simpa using hbxs)
      · simp only [lowerBound, if_neg hx, insertAt]
        refine List.sorted_cons.mpr ⟨?_, h⟩
        intro b hb
        have hd : d ≤ x := le_of_not_lt hx
        rcases List.mem_cons.mp hb with hbx | hbxs
        · exact hbx ▸ hd
        · exact le_trans hd ((List.sorted_cons.mp h).1 b hbxs)

/-- Sorted lists: `getD` is monotone in the index. -/
theorem getD_mono_of_sorted (t : List ℚ) (h : t.Sorted (· ≤ ·)) (i j : ℕ)
    (hij : i ≤ j) (hj : j < t.length) : t.getD i 0 ≤ t.getD j 0 := by
  rcases lt_or_eq_of_le hij with hlt | heq
  · have hi : i < t.length := lt_trans hlt hj
    have := List.pairwise_iff_get.mp h ⟨i, hi⟩ ⟨j, hj⟩ (by simpa using hlt)
    rw [List.getD_eq_getElem _ _ hi, List.getD_eq_getElem _ _ hj]
    simpa [List.get_eq_getElem] using this
  · subst heq; exact le_refl _

theorem getD_strictMono_of_sorted (t : List ℚ) (h : t.Sorted (· < ·)) (i j : ℕ)
    (hij : i < j) (hj : j < t.length) : t.getD i 0 < t.getD j 0 := by
  have hi : i < t.length := lt_trans hij hj
  have := List.pairwise_iff_get.mp h ⟨i, hi⟩ ⟨j, hj⟩ (by simpa using hij)
  rw [List.getD_eq_getElem _ _ hi, List.getD_eq_getElem _ _ hj]
  simpa [List.get_eq_getElem] using this

/-- Full specification of `DistanceTable::find_nearest` on a sorted
non-empty table: the returned position is in range, its value minimises
the distance to `d`, and every equally-close entry has a value not above
the returned one (so a tie between a smaller and a larger equally-close
value resolves to the larger value). -/
theorem find_nearest_spec (t : List ℚ) (d : ℚ) (hs : t.Sorted (· ≤ ·)) (hne : t ≠ []) :
    find_nearest t d < t.length ∧
    (∀ j, j < t.length → |t.getD (find_nearest t d) 0 - d| ≤ |t.getD j 0 - d|) ∧
    (∀ j, j < t.length → |t.getD j 0 - d| = |t.getD (find_nearest t d) 0 - d| →
        t.getD j 0 ≤ t.getD (find_nearest t d) 0) := by
  have hn : 0 < t.length := List.length_pos.mpr hne
  have hlb := lowerBound_le_length t d
  have hpre := getD_lt_of_lt_lowerBound t d
  unfold find_nearest
  by_cases hA : lowerBound t d = t.length ∧ t.length ≠ 0
  · simp only [if_pos hA]
    set r := lowerBound t d - 1 with hrdef
    have hr : r < t.length := by omega
    have hrd : t.getD r 0 < d := hpre r (by omega)
    have habsr : |t.getD r 0 - d| = d - t.getD r 0 := by
      rw [abs_of_nonpos (by linarith)]; ring
    refine ⟨hr, ?_, ?_⟩
    · intro j hj
      have hjr : t.getD j 0 ≤ t.getD r 0 := getD_mono_of_sorted t hs j r (by omega) hr
      have hjd : t.getD j 0 < d := hpre j (by omega)
      rw [habsr, abs_of_nonpos (by linarith)]
      linarith
    · intro j hj htie
      have hjd : t.getD j 0 < d := hpre j (by omega)
      rw [habsr, abs_of_nonpos (by linarith)] at htie
      have : t.getD j 0 = t.getD r 0 := by linarith
      exact le_of_eq this
  · simp only [if_neg hA]
    have hlt : lowerBound t d < t.length := by
      rcases Nat.lt_or_ge (lowerBound t d) t.length with h | h
      · exact h
      · exact absurd ⟨le_antisymm hlb h, by omega⟩ hA
    have hdlb : d ≤ t.getD (lowerBound t d) 0 := le_getD_lowerBound t d hlt
    by_cases hB : lowerBound t d ≠ 0 ∧
        d - t.getD (lowerBound t d - 1) 0 < t.getD (lowerBound t d) 0 - d
    · simp only [if_pos hB]
      set r := lowerBound t d - 1 with hrdef
      have hr : r < t.length := by omega
      have hrd : t.getD r 0 < d := hpre r (by omega)
      have habsr : |t.getD r 0 - d| = d - t.getD r 0 := by
        rw [abs_of_nonpos (by linarith)]; ring
      have hkey : d - t.getD r 0 < t.getD (lowerBound t d) 0 - d := hB.2
      refine ⟨hr, ?_, ?_⟩
      · intro j hj
        by_cases hjlb : j < lowerBound t d
        · have hjr : t.getD j 0 ≤ t.getD r 0 := getD_mono_of_sorted t hs j r (by omega) hr
          have hjd : t.getD j 0 < d := hpre j hjlb
          rw [habsr, abs_of_nonpos (by linarith)]
          linarith
        · have hjge : t.getD (lowerBound t d) 0 ≤ t.getD j 0 :=
            getD_mono_of_sorted t hs (lowerBound t d) j (by omega) hj
          rw [habsr, abs_of_nonneg (by linarith)]
          linarith
      · intro j hj htie
        by_cases hjlb : j < lowerBound t d
        · have hjd : t.getD j 0 < d := hpre j hjlb
          rw [habsr, abs_of_nonpos (by linarith)] at htie
          have : t.getD j 0 = t.getD r 0 := by linarith
          exact le_of_eq this
        · exfalso
          have hjge : t.getD (lowerBound t d) 0 ≤ t.getD j 0 :=
            getD_mono_of_sorted t hs (lowerBound t d) j (by omega) hj
          rw [habsr, abs_of_nonneg (by linarith)] at htie
          linarith
    · simp only [if_neg hB]
      have habsr : |t.getD (lowerBound t d) 0 - d| = t.getD (lowerBound t d) 0 - d :=
        abs_of_nonneg (by linarith)
      have hCle : lowerBound t d ≠ 0 →
          t.getD (lowerBound t d) 0 - d ≤ d - t.getD (lowerBound t d - 1) 0 := by
        intro h0
        by_contra hcon
        exact hB ⟨h0, by linarith⟩
      refine ⟨hlt, ?_, ?_⟩
      · intro j hj
        by_cases hjlb : j < lowerBound t d
        · have h0 : lowerBound t d ≠ 0 := by omega
          have hjd : t.getD j 0 < d := hpre j hjlb
          have hjr : t.getD j 0 ≤ t.getD (lowerBound t d - 1) 0 :=
            getD_mono_of_sorted t hs j (lowerBound t d - 1) (by omega) (by omega)
          rw [habsr, abs_of_nonpos (by linarith)]
          have := hCle h0
          linarith
        · have hjge : t.getD (lowerBound t d) 0 ≤ t.getD j 0 :=
            getD_mono_of_sorted t hs (lowerBound t d) j (by omega) hj
          rw [habsr, abs_of_nonneg (by linarith)]
          linarith
      · intro j hj htie
        by_cases hjlb : j < lowerBound t d
        · have hjd : t.getD j 0 < d := hpre j hjlb
          linarith
        · have hjge : t.getD (lowerBound t d) 0 ≤ t.getD j 0 :=
            getD_mono_of_sorted t hs (lowerBound t d) j (by omega) hj
          rw [habsr, abs_of_nonneg (by linarith)] at htie
          linarith

/-- Exact values are found at their own (first) position. -/
theorem find_nearest_self (t : List ℚ) (hst : t.Sorted (· < ·)) (k : ℕ)
    (hk : k < t.length) : find_nearest t (t.getD k 0) = k := by
  have hlbk : lowerBound t (t.getD k 0) = k := by
    refine lowerBound_eq_of t _ k (le_of_lt hk) ?_ (Or.inr (le_refl _))
    intro j hj
    exact getD_strictMono_of_sorted t hst j k hj hk
  unfold find_nearest
  rw [hlbk]
  have hA : ¬ (k = t.length ∧ t.length ≠ 0) := by omega
  rw [if_neg hA]
  have hB : ¬ (k ≠ 0 ∧ t.getD k 0 - t.getD (k - 1) 0 < t.getD k 0 - t.getD k 0) := by
    rintro ⟨h0, hcmp⟩
    have : t.getD (k - 1) 0 < t.getD k 0 :=
      getD_strictMono_of_sorted t hst (k - 1) k (by omega) hk
    simp only [sub_self] at hcmp
    linarith
  rw [if_neg hB]

theorem lowerBound_eraseAt (t : List ℚ) (hst : t.Sorted (· < ·)) (k : ℕ)
    (hk : k < t.length) : lowerBound (eraseAt k t) (t.getD k 0) = k := by
  have hlen : (eraseAt k t).length = t.length - 1 := length_eraseAt k t hk
  refine lowerBound_eq_of (eraseAt k t) _ k (by omega) ?_ ?_
  · intro j hj
    rw [getD_eraseAt_lt k t j 0 hj]
    exact getD_strictMono_of_sorted t hst j k hj hk
  · rcases Nat.lt_or_ge k ((eraseAt k t).length) with h | h
    · right
      rw [getD_eraseAt_ge k t k 0 (le_refl k)]
      exact le_of_lt (getD_strictMono_of_sorted t hst k (k + 1) (by omega) (by omega))
    · left; omega

theorem insertAt_eraseAt (k : ℕ) (t : List ℚ) (hk : k < t.length) :
    insertAt k (t.getD k 0) (eraseAt k t) = t := by
  induction t generalizing k with
  | nil => simp at hk
  | cons x xs ih =>
      cases k with
      | zero => simp [insertAt, eraseAt]
      | succ k =>
          simp only [eraseAt, List.getD_cons_succ, insertAt]
          rw [ih k (by simpa using Nat.lt_of_succ_lt_succ hk)]

theorem return_back_getD_find_nearest (t : List ℚ) (d : ℚ) :
    (return_back t d).getD (find_nearest (return_back t d) d) 0 = d := by
  have hlb := lowerBound_le_length t d
  have hpre := getD_lt_of_lt_lowerBound t d
  have hlen : (return_back t d).length = t.length + 1 := length_insertAt _ d t hlb
  have hself : (return_back t d).getD (lowerBound t d) 0 = d :=
    getD_insertAt_self _ d t hlb
  have hlb2 : lowerBound (return_back t d) d = lowerBound t d := by
    refine lowerBound_eq_of _ d (lowerBound t d) (by omega) ?_ (Or.inr (le_of_eq hself.symm))
    intro j hj
    rw [return_back, getD_insertAt_lt _ d t j hj hlb]
    exact hpre j hj
  have hfn : find_nearest (return_back t d) d = lowerBound t d := by
    unfold find_nearest
    rw [hlb2]
    have hA : ¬ (lowerBound t d = (return_back t d).length ∧
        (return_back t d).length ≠ 0) := by omega
    rw [if_neg hA]
    have hB : ¬ (lowerBound t d ≠ 0 ∧
        d - (return_back t d).getD (lowerBound t d - 1) 0 <
          (return_back t d).getD (lowerBound t d) 0 - d) := by
      rintro ⟨h0, hcmp⟩
      rw [hself] at hcmp
      rw [return_back, getD_insertAt_lt _ d t _ (by omega) hlb] at hcmp
      have := hpre (lowerBound t d - 1) (by omega)
      simp only [sub_self] at hcmp
      linarith
    rw [if_neg hB]
  rw [hfn, hself]

/-! ### Claims C5 and C6 -/

/-- C5: for a non-empty sorted `DistanceTable`, `find_nearest(d)` returns a
position whose value is numerically closest to `d` among all entries, but
the claimed tie-break toward the smaller index is wrong: the counterexample
shows the sorted table `[1, 3]` where, for `d = 2`, positions 0 and 1 are
equally close yet the code returns position 1. -/
theorem c5_counterexample :
    ([(1 : ℚ), 3].Sorted (· ≤ ·)) ∧
    |[(1 : ℚ), 3].getD 0 0 - 2| = |[(1 : ℚ), 3].getD 1 0 - 2| ∧
    find_nearest [(1 : ℚ), 3] 2 = 1 := by
  have h1 : |[(1 : ℚ), 3].getD 0 0 - 2| = 1 := by
    simp only [List.getD_cons_zero]
    rw [show (1 : ℚ) - 2 = -1 by norm_num, abs_neg, abs_one]
  have h2 : |[(1 : ℚ), 3].getD 1 0 - 2| = 1 := by
    simp only [List.getD_cons_succ, List.getD_cons_zero]
    rw [show (3 : ℚ) - 2 = 1 by norm_num, abs_one]
  exact ⟨by decide, by rw [h1, h2], by norm_num [find_nearest, lowerBound]⟩

/-- C5 (amended): for every non-empty sorted `DistanceTable` and value `d`,
`find_nearest(d)` returns an in-range position whose value is numerically
closest to `d` among all entries; when two entries are equally close the
returned position holds the larger (or equal) value — ties break toward the
larger value, not toward the smaller index. -/
theorem c5_find_nearest_closest (t : List ℚ) (d : ℚ)
    (hs : t.Sorted (· ≤ ·)) (hne : t ≠ []) :
    find_nearest t d < t.length ∧
    (∀ j, j < t.length → |t.getD (find_nearest t d) 0 - d| ≤ |t.getD j 0 - d|) ∧
    (∀ j, j < t.length → |t.getD j 0 - d| = |t.getD (find_nearest t d) 0 - d| →
        t.getD j 0 ≤ t.getD (find_nearest t d) 0) :=
  find_nearest_spec t d hs hne

/-- Witness for `c5_find_nearest_closest` at the concrete table `[1, 3]`
and value `2`. -/
theorem c5_witness :
    (([(1 : ℚ), 3].Sorted (· ≤ ·)) ∧ [(1 : ℚ), 3] ≠ []) ∧
    (find_nearest [(1 : ℚ), 3] 2 < [(1 : ℚ), 3].length ∧
     (∀ j, j < [(1 : ℚ), 3].length →
        |[(1 : ℚ), 3].getD (find_nearest [(1 : ℚ), 3] 2) 0 - 2| ≤
          |[(1 : ℚ), 3].getD j 0 - 2|) ∧
     (∀ j, j < [(1 : ℚ), 3].length →
        |[(1 : ℚ), 3].getD j 0 - 2| =
            |[(1 : ℚ), 3].getD (find_nearest [(1 : ℚ), 3] 2) 0 - 2| →
        [(1 : ℚ), 3].getD j 0 ≤ [(1 : ℚ), 3].getD (find_nearest [(1 : ℚ), 3] 2) 0)) :=
  ⟨⟨by decide, by decide⟩, c5_find_nearest_closest [(1 : ℚ), 3] 2 (by decide) (by decide)⟩

/-- C6: (i) for a strictly sorted table and any entry position `k`,
`p = find_nearest(d_k); erase(p); return_back(d_k)` restores the table
exactly; (ii) for every table and value `d`, `find_nearest` applied after
`return_back(d)` points at an entry equal to `d`. -/
theorem c6_roundtrip :
    (∀ t : List ℚ, t.Sorted (· < ·) → ∀ k, k < t.length →
        return_back (eraseAt (find_nearest t (t.getD k 0)) t) (t.getD k 0) = t) ∧
    (∀ (t : List ℚ) (d : ℚ),
        (return_back t d).getD (find_nearest (return_back t d) d) 0 = d) := by
  constructor
  · intro t hst k hk
    rw [find_nearest_self t hst k hk]
    unfold return_back
    rw [lowerBound_eraseAt t hst k hk]
    exact insertAt_eraseAt k t hk
  · exact return_back_getD_find_nearest

/-- Witness for `c6_roundtrip` at the concrete strictly sorted table
`[1, 2, 4]`, position `1` and inserted value `3`. -/
theorem c6_witness :
    (([(1 : ℚ), 2, 4].Sorted (· < ·)) ∧ 1 < [(1 : ℚ), 2, 4].length) ∧
    return_back (eraseAt (find_nearest [(1 : ℚ), 2, 4] ([(1 : ℚ), 2, 4].getD 1 0))
        [(1 : ℚ), 2, 4]) ([(1 : ℚ), 2, 4].getD 1 0) = [(1 : ℚ), 2, 4] ∧
    (return_back [(1 : ℚ), 2, 4] 3).getD
        (find_nearest (return_back [(1 : ℚ), 2, 4] 3) 3) 0 = 3 :=
  ⟨⟨by decide, by decide⟩,
    c6_roundtrip.1 [(1 : ℚ), 2, 4] (by decide) 1 (by decide),
    c6_roundtrip.2 [(1 : ℚ), 2, 4] 3⟩

/-! ### Error kinds (src/Exceptions.hpp interface, §7 of the design) -/

inductive LigaErr where
  | invalidMolecule
  | invalidDistanceTable
  | rangeError
  | assertViolation
  | tableUnderflow
deriving DecidableEq

/-! ### Line-anchor candidate generation: `push_good_distances` (C7)

Source: src/Molecule.cpp lines 823-887 (the spec's design notes fix the
evident `(nrx, nrz, nrz)` typo of the oldest src/BGAlib.cpp version in
favour of this one).  Euclidean geometry enters only through
`R3::norm(direction)`; the square-root value is passed as a parameter
`nm` constrained by `nm * nm = normSq direction` and `0 ≤ nm` in the
theorems, everything else is exact rational vector algebra.
-/

/-- 3-component rational vector standing in for `R3::Vector`. -/
structure V3 where
  x : ℚ
  y : ℚ
  z : ℚ
deriving DecidableEq

instance : Add V3 := ⟨fun a b => ⟨a.x + b.x, a.y + b.y, a.z + b.z⟩⟩
instance : Sub V3 := ⟨fun a b => ⟨a.x - b.x, a.y - b.y, a.z - b.z⟩⟩
instance : Neg V3 := ⟨fun a => ⟨-a.x, -a.y, -a.z⟩⟩
instance : SMul ℚ V3 := ⟨fun c a => ⟨c * a.x, c * a.y, c * a.z⟩⟩
instance : Zero V3 := ⟨⟨0, 0, 0⟩⟩

/-- Squared Euclidean norm (`R3::norm` squared). -/
theorem V3.add_def (a b : V3) : a + b = ⟨a.x + b.x, a.y + b.y, a.z + b.z⟩ := rfl

theorem V3.sub_def (a b : V3) : a - b = ⟨a.x - b.x, a.y - b.y, a.z - b.z⟩ := rfl

theorem V3.neg_def (a : V3) : -a = ⟨-a.x, -a.y, -a.z⟩ := rfl

theorem V3.smul_def (c : ℚ) (a : V3) : c • a = ⟨c * a.x, c * a.y, c * a.z⟩ := rfl

/-- Squared Euclidean norm (`R3::norm` squared). -/
def normSq (a : V3) : ℚ := a.x ^ 2 + a.y ^ 2 + a.z ^ 2

/-- Squared Euclidean distance (`R3::distance` squared). -/
def distSq (a b : V3) : ℚ := normSq (a - b)

/-- The z axis, the default direction of a one-atom line anchor. -/
def zAxis : V3 := ⟨0, 0, 1⟩

/-- The unnormalised direction of a line anchor: `B1 - B0` when the anchor
has two atoms, otherwise the zero vector (src/Molecule.cpp lines 846-848). -/
def lineDirection (B0 B1 : V3) (anchCount : ℕ) : V3 :=
  if 1 < anchCount then B1 - B0 else 0

/-- The candidate positions pushed by one trial of
`Molecule::push_good_distances` (src/Molecule.cpp lines 844-884): when the
direction is longer than `eps_distance` it is normalised and the trial
pushes the front atom `B0 + direction*radius` and the back atom
`B0 - direction*radius`; otherwise the direction defaults to the z axis
and only the front atom is pushed.  `nm` stands for the value
`R3::norm(direction)` computed by the source. -/
def lineTrialCandidates (B0 B1 : V3) (anchCount : ℕ) (nm radius epsd : ℚ) : List V3 :=
  let direction0 := lineDirection B0 B1 anchCount
  if epsd < nm then
    let direction := (1 / nm) • direction0
    [B0 + radius • direction, B0 - radius • direction]
  else
    [B0 + radius • zAxis]

theorem normSq_smul (c : ℚ) (a : V3) : normSq (c • a) = c ^ 2 * normSq a := by
  show (c * a.x) ^ 2 + (c * a.y) ^ 2 + (c * a.z) ^ 2 = c ^ 2 * (a.x ^ 2 + a.y ^ 2 + a.z ^ 2)
  ring

theorem normSq_neg (a : V3) : normSq (-a) = normSq a := by
  show (-a.x) ^ 2 + (-a.y) ^ 2 + (-a.z) ^ 2 = a.x ^ 2 + a.y ^ 2 + a.z ^ 2
  ring

theorem distSq_add_sub (B0 v : V3) : distSq (B0 + v) B0 = normSq v := by
  show ((B0.x + v.x) - B0.x) ^ 2 + ((B0.y + v.y) - B0.y) ^ 2 + ((B0.z + v.z) - B0.z) ^ 2
      = v.x ^ 2 + v.y ^ 2 + v.z ^ 2
  ring

theorem sub_smul_eq_add_neg (B0 : V3) (r : ℚ) (u : V3) :
    B0 - r • u = B0 + r • (-u) := by
  show V3.mk (B0.x - r * u.x) (B0.y - r * u.y) (B0.z - r * u.z)
      = V3.mk (B0.x + r * (-u.x)) (B0.y + r * (-u.y)) (B0.z + r * (-u.z))
  simp only [V3.mk.injEq]
  refine ⟨by ring, by ring, by ring⟩

theorem normSq_zAxis : normSq zAxis = 1 := by
  show (0 : ℚ) ^ 2 + 0 ^ 2 + 1 ^ 2 = 1
  norm_num

/-- C7: every candidate produced by the line-anchor push lies at Euclidean
distance exactly `radius` from the anchor atom `B0` (stated on squares:
squared distance equals `radius ^ 2` with `radius ≥ 0`), and has the form
`B0 + radius • u` for a unit direction `u`. -/
theorem c7_line_candidates (B0 B1 : V3) (anchCount : ℕ) (nm radius epsd : ℚ)
    (hrad : 0 ≤ radius) (hnm0 : 0 ≤ nm) (hepsd : 0 < epsd)
    (hnm : nm * nm = normSq (lineDirection B0 B1 anchCount)) :
    ∀ c ∈ lineTrialCandidates B0 B1 anchCount nm radius epsd,
      distSq c B0 = radius ^ 2 ∧ ∃ u : V3, normSq u = 1 ∧ c = B0 + radius • u := by
  intro c hc
  unfold lineTrialCandidates at hc
  by_cases hdir : epsd < nm
  · have hnmpos : 0 < nm := lt_trans hepsd hdir
    have hnmne : nm ≠ 0 := ne_of_gt hnmpos
    set u : V3 := (1 / nm) • lineDirection B0 B1 anchCount with hu
    have hunit : normSq u = 1 := by
      rw [hu, normSq_smul, ← hnm]
      field_simp
      ring
    simp only [if_pos hdir, List.mem_cons, List.mem_singleton, List.not_mem_nil,
      or_false] at hc
    rcases hc with hc | hc
    · subst hc
      refine ⟨?_, ⟨u, hunit, rfl⟩⟩
      rw [distSq_add_sub, normSq_smul, hunit]
      ring
    · subst hc
      rw [sub_smul_eq_add_neg]
      refine ⟨?_, ⟨-u, by rw [normSq_neg, hunit], rfl⟩⟩
      rw [distSq_add_sub, normSq_smul, normSq_neg, hunit]
      ring
  · simp only [if_neg hdir, List.mem_singleton] at hc
    subst hc
    refine ⟨?_, ⟨zAxis, normSq_zAxis, rfl⟩⟩
    rw [distSq_add_sub, normSq_smul, normSq_zAxis]
    ring

/-- Witness for `c7_line_candidates`: anchor `B0 = 0`, `B1 = (3,4,0)`,
direction length `nm = 5`, radius `2`. -/
theorem c7_witness :
    ((0 : ℚ) ≤ 2 ∧ (0 : ℚ) ≤ 5 ∧ (0 : ℚ) < 1/2 ∧
      (5 : ℚ) * 5 = normSq (lineDirection ⟨0,0,0⟩ ⟨3,4,0⟩ 2)) ∧
    (∀ c ∈ lineTrialCandidates ⟨0,0,0⟩ ⟨3,4,0⟩ 2 5 2 (1/2),
      distSq c ⟨0,0,0⟩ = 2 ^ 2 ∧ ∃ u : V3, normSq u = 1 ∧ c = ⟨0,0,0⟩ + (2 : ℚ) • u) :=
  ⟨⟨by norm_num, by norm_num, by norm_num,
      by norm_num [normSq, lineDirection, V3.sub_def]⟩,
    c7_line_candidates ⟨0,0,0⟩ ⟨3,4,0⟩ 2 5 2 (1/2) (by norm_num) (by norm_num)
      (by norm_num) (by norm_num [normSq, lineDirection, V3.sub_def])⟩

/-! ### `push_good_triangles` on a too-small structure (C9) -/

/-- The guards of the oldest `Molecule::push_good_triangles`
(src/BGAlib.cpp lines 847-927), reached before any trial: a full molecule
and a molecule with fewer than 2 atoms both throw `InvalidMolecule`; the
generation loop that follows is irrelevant to the size errors and is
abstracted as a success. -/
def push_good_trianglesGuardOld (natoms maxNAtoms ntrials : ℕ) :
    Except LigaErr Unit :=
  if natoms = maxNAtoms then .error .invalidMolecule
  else if natoms < 2 then .error .invalidMolecule
  else .ok ()

/-- The guards of the newer `Molecule::push_good_triangles`
(src/Molecule.cpp lines 889-978): zero trials return immediately, a full
molecule throws `InvalidMolecule`, and otherwise the first trial calls
`Molecule::getPlaneAnchor` (src/Molecule.cpp lines 1113-1125) whose
`assert(countAtoms() >= 2)` fails on a smaller molecule. -/
def push_good_trianglesGuardNew (natoms maxNAtoms ntrials : ℕ) :
    Except LigaErr Unit :=
  if ntrials = 0 then .ok ()
  else if natoms = maxNAtoms then .error .invalidMolecule
  else if natoms < 2 then .error .assertViolation
  else .ok ()

/-- C9: calling `push_good_triangles` on a one-atom structure raises for
every positive number of trials: the oldest version always throws
`InvalidMolecule` (the "too small" error unless the molecule is also at
capacity, in which case the "too large" `InvalidMolecule` fires first);
the newer version also always fails, through `InvalidMolecule` at
capacity and through the plane-anchor size assertion otherwise. -/
theorem c9_one_atom_raises (maxNAtoms ntrials : ℕ) (hpos : 0 < ntrials) :
    push_good_trianglesGuardOld 1 maxNAtoms ntrials = .error .invalidMolecule ∧
    ∃ e : LigaErr, push_good_trianglesGuardNew 1 maxNAtoms ntrials = .error e := by
  constructor
  · unfold push_good_trianglesGuardOld
    by_cases h : 1 = maxNAtoms <;> simp [h]
  · unfold push_good_trianglesGuardNew
    rw [if_neg (by omega)]
    by_cases h : 1 = maxNAtoms
    · exact ⟨.invalidMolecule, by simp [h]⟩
    · exact ⟨.assertViolation, by simp [h]⟩

/-- Witness for `c9_one_atom_raises` at capacity 5 and 3 trials. -/
theorem c9_witness :
    0 < 3 ∧
    (push_good_trianglesGuardOld 1 5 3 = .error .invalidMolecule ∧
     ∃ e : LigaErr, push_good_trianglesGuardNew 1 5 3 = .error e) :=
  ⟨by decide, c9_one_atom_raises 5 3 (by decide)⟩

/-! ### `Crystal::setDistReuse` (C10) -/

/-- The Crystal state fields touched by `Crystal::init`
(src/src/Crystal.cpp lines 439-450) that matter to the reuse flag. -/
structure CrystalReuseState where
  rmin : ℚ
  rmax : ℚ
  distreuse : Bool
deriving DecidableEq

/-- `Crystal::setDistReuse` (src/src/Crystal.cpp lines 92-100): a `false`
argument throws `range_error` before any mutation (so the caller's state
is left unchanged); otherwise the base `Molecule::setDistReuse`
(src/Molecule.cpp lines 164-167) stores the flag. -/
def crystalSetDistReuse (c : CrystalReuseState) (flag : Bool) :
    Except LigaErr CrystalReuseState :=
  if !flag then .error .rangeError
  else .ok { c with distreuse := flag }

/-- `Crystal::init` (src/src/Crystal.cpp lines 439-450): `_rmin = _rmax = 0`
and a final `setDistReuse(true)` on the `Molecule`-default state (whose
`init` sets `_distreuse = false`, src/Molecule.cpp lines 134-139). -/
def crystalInitState : CrystalReuseState :=
  let c0 : CrystalReuseState := { rmin := 0, rmax := 0, distreuse := false }
  match crystalSetDistReuse c0 true with
  | .ok c => c
  | .error _ => c0

/-- C10: Crystal construction enables distance reuse; `setDistReuse true`
succeeds changing nothing but the flag; `setDistReuse false` throws
`range_error`, producing no successor state (the crystal, including its
reuse flag, is untouched). -/
theorem c10_crystal_distreuse :
    crystalInitState.distreuse = true ∧
    (∀ c : CrystalReuseState,
        crystalSetDistReuse c true = .ok { c with distreuse := true }) ∧
    (∀ c : CrystalReuseState,
        crystalSetDistReuse c false = .error .rangeError) :=
  ⟨rfl, fun _ => rfl, fun _ => rfl⟩

/-! ### The Molecule state machine (src/Molecule.cpp)

Atom positions stay abstract: a type `α` with a distance map
`dist : α → α → ℚ` (the Euclidean primitives `R3::distance` etc. are
external to the specified core, §1).  All bookkeeping is embedded from
src/Molecule.cpp; only the AtomCost evaluation internals are modelled
from the spec (its sources are not in the repository snapshot).
-/

/-- Canonical unordered index pair addressing a `SymmetricMatrix` entry
(accessing `(i,j)` and `(j,i)` hits the same stored element). -/
def pidx (i j : ℕ) : ℕ × ℕ := if i ≤ j then (i, j) else (j, i)

/-- A symmetric matrix as a total map on canonical index pairs. -/
def SymMat := ℕ × ℕ → ℚ

/-- Symmetric read. -/
def mget (m : SymMat) (i j : ℕ) : ℚ := m (pidx i j)

/-- Symmetric write. -/
def mset (m : SymMat) (i j : ℕ) (v : ℚ) : SymMat :=
  fun p => if p = pidx i j then v else m p

/-- `Atom_t` restricted to the fields the claims touch: position, stable
pair-matrix index, and badness accumulator. -/
structure AtomM (α : Type) where
  pos : α
  pmxidx : ℕ
  abad : ℚ

/-- The `Molecule` state (src/Molecule.hpp data members). -/
structure Mol (α : Type) where
  atoms : List (AtomM α)
  pmx_partial_costs : SymMat
  pmx_used_distances : SymMat
  free_pmx_slots : List ℕ
  dtable : List ℚ
  badness : ℚ
  distreuse : Bool
  maxAtomCount : ℕ

/-- The live pair-matrix indices in atom sequence order. -/
def molIdxs {α : Type} (s : Mol α) : List ℕ := s.atoms.map (·.pmxidx)

/-- Sum of a symmetric matrix over the ordered pairs of an index list —
the two nested `AtomSequence` loops of `Molecule::recalculate`. -/
def pairSum (m : SymMat) : List ℕ → ℚ
  | [] => 0
  | i :: t => (t.map (fun j => mget m i j)).sum + pairSum m t

/-- Sum of an atom's row of pair costs over the other live atoms. -/
def rowSum (m : SymMat) (i : ℕ) (l : List ℕ) : ℚ :=
  (l.map (fun j => if j = i then 0 else mget m i j)).sum

/-- The ordered index pairs of the two nested `AtomSequence` loops. -/
def seqIdxPairs : List ℕ → List (ℕ × ℕ)
  | [] => []
  | i :: t => t.map (fun j => (i, j)) ++ seqIdxPairs t

/-- The round-off snap `if (Badness() < eps_cost) ResetBadness();` of
`addNewAtomPairs` and `removeAtomPairs`.  The numeric value of
`NS_LIGA::eps_cost` lives in LigaUtils.hpp, which is not among the
sources; it is threaded through as a parameter `eps`. -/
def snapBad (eps b : ℚ) : ℚ := if b < eps then 0 else b

/-- Modelled from the spec: the default `pow2` pair penalty of the cost
evaluator (§4.2); AtomCost.cpp is not among the sources. -/
def penalty (dd : ℚ) : ℚ := dd ^ 2

/-- Modelled from the spec: the molecule-mode AtomCost evaluation of §4.2
(AtomCost.cpp is not among the sources; `Molecule::addNewAtomPairs` uses
its outputs `partialCosts`, `usedTargetDistanceIndices` and
`usedTargetAtomIndices`).  For the candidate's distance `dc` to each
existing atom, the nearest value in a *local copy* of the working table
is found; the pair penalty is `penalty(d_nearest - dc)`; when
`|dd| < tol_dd` that entry is marked used in the local copy so a single
distance cannot satisfy two pairs.  The local copy is represented by the
list `avail` of still-available positions of the unchanged working table
`tbl`, so the recorded use indices refer to `tbl` as `addNewAtomPairs`
expects.  An empty local copy would make the C++ dereference of
`find_nearest`'s result undefined; the model signals that as `none`.
Returns the partial costs (parallel to the atom sequence) and the
(atom index, table index) use records. -/
def evalAtoms (tol : ℚ) (tbl : List ℚ) :
    List ℚ → List ℕ → ℕ → Option (List ℚ × List (ℕ × ℕ))
  | [], _, _ => some ([], [])
  | dc :: ds, avail, k =>
      if avail.isEmpty then none else
      let sub := avail.map (fun i => tbl.getD i 0)
      let p := find_nearest sub dc
      let ti := avail.getD p 0
      let dd := sub.getD p 0 - dc
      let used := decide (|dd| < tol)
      let avail' := if used then eraseAt p avail else avail
      match evalAtoms tol tbl ds avail' (k + 1) with
      | none => none
      | some (ps, us) =>
          some (penalty dd :: ps, if used then (k, ti) :: us else us)

/-- `Molecule::getPairMatrixIndex` (src/Molecule.cpp lines 1450-1467):
take the smallest free slot, else append at the current atom count (the
accompanying matrix resize is capacity management without functional
content).  Returns the picked slot and the remaining free slots;
`free_pmx_slots` models the `std::set` as a sorted duplicate-free list. -/
def getPairMatrixIndex {α : Type} (s : Mol α) : ℕ × List ℕ :=
  match s.free_pmx_slots with
  | [] => (s.atoms.length, [])
  | i :: rest => (i, rest)

/-- `std::set<int>::insert` on the sorted duplicate-free list model. -/
def insertSlot (i : ℕ) : List ℕ → List ℕ
  | [] => [i]
  | j :: t => if i < j then i :: j :: t else if i = j then j :: t else j :: insertSlot i t

/-- `Molecule::recalculate` (src/Molecule.cpp lines 186-216) without its
size guard: badness is reset and re-summed from the *stored* pair costs
(the costs are not recomputed from positions), and each atom's badness is
reset and rebuilt as half the costs of its pairs.  The per-atom value is
the closed form of the double loop, which adds `paircost/2` to both
endpoints of every pair; the loop form agrees with it whenever the live
pair-matrix indices are duplicate-free, which well-formedness
guarantees. -/
def recalcCore {α : Type} (s : Mol α) : Mol α :=
  { s with
    badness := pairSum s.pmx_partial_costs (molIdxs s),
    atoms := s.atoms.map (fun a =>
      { a with abad := rowSum s.pmx_partial_costs a.pmxidx (molIdxs s) / 2 }) }

/-- `Molecule::recalculate` with its "molecule too large" guard. -/
def recalculateM {α : Type} (s : Mol α) : Except LigaErr (Mol α) :=
  if s.maxAtomCount < s.atoms.length then .error .invalidMolecule
  else .ok (recalcCore s)

/-- The ordered pair traversal of `Molecule::reassignPairs`
(src/Molecule.cpp lines 249-261): pmx index pair and realised distance
`R3::distance(seq0->r, seq1->r)` for every pair seq0 < seq1. -/
def seqPairs {α : Type} (dist : α → α → ℚ) : List (AtomM α) → List ((ℕ × ℕ) × ℚ)
  | [] => []
  | a :: t => t.map (fun b => ((a.pmxidx, b.pmxidx), dist a.pos b.pos)) ++ seqPairs dist t

/-- `Molecule::reassignPairs` (src/Molecule.cpp lines 241-277): on a
non-reusing molecule, collect every pair's realised distance and used
distance (asserting the latter non-negative), sort both lists, re-pair
them by rank, write the reassigned used distances back, `recalculate`,
and assert `Badness() < (1 + 1e-6)*orgbadness + 1e-6`.  `std::sort` with
the strict `compareDistance` is determinised as a stable insertion sort;
assertion failures abort the program and are modelled as errors. -/
def reassignPairsM {α : Type} (dist : α → α → ℚ) (s : Mol α) : Except LigaErr (Mol α) :=
  if s.distreuse then .ok s else
  let prs := seqPairs dist s.atoms
  if !(prs.all (fun p => decide (0 ≤ mget s.pmx_used_distances p.1.1 p.1.2))) then
    .error .assertViolation
  else
    let used := prs.map (fun p => mget s.pmx_used_distances p.1.1 p.1.2)
    let orgbadness := s.badness
    let sortedP := List.insertionSort (fun p q => p.2 ≤ q.2) prs
    let sortedU := List.insertionSort (· ≤ ·) used
    let used' := (sortedP.zip sortedU).foldl
        (fun m pu => mset m pu.1.1.1 pu.1.1.2 pu.2) s.pmx_used_distances
    match recalculateM { s with pmx_used_distances := used' } with
    | .error e => .error e
    | .ok s1 =>
        if s1.badness < (1 + 1/1000000) * orgbadness + 1/1000000 then .ok s1
        else .error .assertViolation

/-- `Molecule::addNewAtomPairs` (src/Molecule.cpp lines 746-789) together
with the slot allocation and the final `atoms.push_back` of `Add`: cost
evaluation against the existing atoms; pair costs stored symmetrically,
half added to each endpoint atom, the total added to badness with the
`eps_cost` snap; when distances are not reused, the consumed target
distances are recorded in `pmx_used_distances` (reading the values before
any erasure, as the source does) and then erased from the working table
in descending index order. -/
def addNewAtomPairsM {α : Type} (dist : α → α → ℚ) (eps tol : ℚ) (s : Mol α)
    (apos : α) : Except LigaErr (Mol α) :=
  let slot := (getPairMatrixIndex s).1
  let ds := s.atoms.map (fun b => dist b.pos apos)
  match evalAtoms tol s.dtable ds (List.range s.dtable.length) 0 with
  | none => .error .tableUnderflow
  | some (ps, us) =>
      let cost' := (s.atoms.zip ps).foldl
          (fun m bc => mset m slot bc.1.pmxidx bc.2) s.pmx_partial_costs
      let atomsUpd := s.atoms.zipWith (fun b c => { b with abad := b.abad + c / 2 }) ps
      let pa : AtomM α := ⟨apos, slot, ps.sum / 2⟩
      let b1 := snapBad eps (s.badness + ps.sum)
      let used' := if s.distreuse then s.pmx_used_distances else
        us.foldl (fun m ati =>
            mset m slot ((molIdxs s).getD ati.1 0) (s.dtable.getD ati.2 0))
          s.pmx_used_distances
      let tbl' := if s.distreuse then s.dtable else
        (List.insertionSort (· ≥ ·) (us.map (·.2))).foldl
          (fun t i => eraseAt i t) s.dtable
      .ok { s with
        atoms := atomsUpd ++ [pa],
        pmx_partial_costs := cost',
        pmx_used_distances := used',
        free_pmx_slots := (getPairMatrixIndex s).2,
        dtable := tbl',
        badness := b1 }

/-- `Molecule::Add(const Atom_t&)` (src/Molecule.cpp lines 481-498):
capacity guard, `addNewAtomPairs`, and — when the molecule became full —
`reassignPairs`. -/
def AddM {α : Type} (dist : α → α → ℚ) (eps tol : ℚ) (s : Mol α) (apos : α) :
    Except LigaErr (Mol α) :=
  if s.atoms.length = s.maxAtomCount then .error .invalidMolecule else
  match addNewAtomPairsM dist eps tol s apos with
  | .error e => .error e
  | .ok s1 =>
      if s1.maxAtomCount ≤ s1.atoms.length then reassignPairsM dist s1 else .ok s1

/-- `Molecule::Pop(const int)` together with `Molecule::removeAtomPairs`
(src/Molecule.cpp lines 420-435, 791-821): range guard; each of the
atom's pair costs is subtracted (half from each endpoint, whole from the
molecule badness, with the `eps_cost` snap at the end); when distances
are not reused, every positive used entry of the atom's pairs is
returned to the working table via `return_back` and zeroed; the slot is
freed and the atom removed. -/
def PopM {α : Type} (eps : ℚ) (s : Mol α) (aidx : ℕ) : Except LigaErr (Mol α) :=
  if h : aidx < s.atoms.length then
    let pa := s.atoms.get ⟨aidx, h⟩
    let m := s.pmx_partial_costs
    let others := eraseAt aidx s.atoms
    let popTotal := (others.map (fun b => mget m pa.pmxidx b.pmxidx)).sum
    let atoms' := others.map (fun b =>
        { b with abad := b.abad - mget m pa.pmxidx b.pmxidx / 2 })
    let tbl' := if s.distreuse then s.dtable else
      others.foldl (fun t b =>
        let u := mget s.pmx_used_distances pa.pmxidx b.pmxidx
        if 0 < u then return_back t u else t) s.dtable
    let used' := if s.distreuse then s.pmx_used_distances else
      others.foldl (fun m2 b => mset m2 pa.pmxidx b.pmxidx 0) s.pmx_used_distances
    .ok { s with
      atoms := atoms',
      pmx_used_distances := used',
      free_pmx_slots := insertSlot pa.pmxidx s.free_pmx_slots,
      dtable := tbl',
      badness := snapBad eps (s.badness - popTotal) }
  else .error .rangeError

/-- `Molecule::returnUsedDistances` (src/Molecule.cpp lines 1485-1506):
positive used entries of live pairs are pushed onto the working table,
zeroed, and the table re-sorted. -/
def returnUsedDistancesM {α : Type} (s : Mol α) : Mol α :=
  if s.distreuse then s else
  let prs := seqIdxPairs (molIdxs s)
  let pos := (prs.map (fun p => mget s.pmx_used_distances p.1 p.2)).filter
      (fun u => decide (0 < u))
  { s with
    dtable := List.insertionSort (· ≤ ·) (s.dtable ++ pos),
    pmx_used_distances := prs.foldl (fun m p => mset m p.1 p.2 0) s.pmx_used_distances }

/-- `Molecule::Clear` (src/Molecule.cpp lines 445-456): return the used
distances, delete all atoms, clear the free-slot set, reset badness. -/
def ClearM {α : Type} (s : Mol α) : Mol α :=
  let s0 := returnUsedDistancesM s
  { s0 with atoms := [], free_pmx_slots := [], badness := 0 }

/-- A molecule freshly built from a distance table
(`Molecule::Molecule(const DistanceTable&)`: `init()` zeroes badness and
disables distance reuse; the `DistanceTable` constructor sorts its
input).  `maxc` stands for the value of `getMaxAtomCount()`. -/
def mkMol {α : Type} (T : List ℚ) (maxc : ℕ) : Mol α :=
  { atoms := [], pmx_partial_costs := fun _ => 0, pmx_used_distances := fun _ => 0,
    free_pmx_slots := [], dtable := List.insertionSort (· ≤ ·) T,
    badness := 0, distreuse := false, maxAtomCount := maxc }

/-- The public mutating operations of the claims. -/
inductive MolOp (α : Type) where
  | add (apos : α)
  | pop (aidx : ℕ)
  | clear
  | recalc

/-- Apply one public operation.  A thrown exception leaves the state
unchanged (every guard of `Add`, `Pop` and `recalculate` fires before any
mutation); an assertion failure aborts the program, so no mutated state
is observable either; the model keeps the prior state in both cases. -/
def stepOp {α : Type} (dist : α → α → ℚ) (eps tol : ℚ) (s : Mol α) : MolOp α → Mol α
  | .add a => match AddM dist eps tol s a with | .ok s' => s' | .error _ => s
  | .pop i => match PopM eps s i with | .ok s' => s' | .error _ => s
  | .clear => ClearM s
  | .recalc => match recalculateM s with | .ok s' => s' | .error _ => s

/-- Apply a sequence of public operations. -/
def runOps {α : Type} (dist : α → α → ℚ) (eps tol : ℚ) (s : Mol α) :
    List (MolOp α) → Mol α
  | [] => s
  | op :: ops => runOps dist eps tol (stepOp dist eps tol s op) ops

/-- The multiset of positive `pmx_used_distances` entries over live
pairs. -/
def usedMS {α : Type} (s : Mol α) : Multiset ℚ :=
  Multiset.filter (fun u => 0 < u)
    (((seqIdxPairs (molIdxs s)).map
        (fun p => mget s.pmx_used_distances p.1 p.2) : List ℚ) : Multiset ℚ)

/-! ### Symmetric matrix infrastructure -/

theorem pidx_comm (i j : ℕ) : pidx i j = pidx j i := by
  unfold pidx
  split_ifs <;> first | rfl | (simp [Prod.ext_iff]; omega)

theorem mget_comm (m : SymMat) (i j : ℕ) : mget m i j = mget m j i := by
  unfold mget; rw [pidx_comm]

theorem pidx_eq_iff (a b i j : ℕ) :
    pidx a b = pidx i j ↔ (a = i ∧ b = j) ∨ (a = j ∧ b = i) := by
  unfold pidx
  split_ifs <;> simp [Prod.ext_iff] <;> omega

theorem mget_mset_self (m : SymMat) (i j : ℕ) (v : ℚ) :
    mget (mset m i j v) i j = v := by
  unfold mget mset; simp

theorem mget_mset_of_ne (m : SymMat) (i j : ℕ) (v : ℚ) (a b : ℕ)
    (h : pidx a b ≠ pidx i j) : mget (mset m i j v) a b = mget m a b := by
  unfold mget mset; simp [h]

/-- A sequence of symmetric writes (the shape of every pmx update loop). -/
def msetFold (m : SymMat) (ws : List ((ℕ × ℕ) × ℚ)) : SymMat :=
  ws.foldl (fun m2 w => mset m2 w.1.1 w.1.2 w.2) m

/-- Canonical key of a write. -/
def wkey (w : (ℕ × ℕ) × ℚ) : ℕ × ℕ := pidx w.1.1 w.1.2

theorem msetFold_nil (m : SymMat) : msetFold m [] = m := rfl

theorem msetFold_cons (m : SymMat) (w : (ℕ × ℕ) × ℚ) (ws : List ((ℕ × ℕ) × ℚ)) :
    msetFold m (w :: ws) = msetFold (mset m w.1.1 w.1.2 w.2) ws := rfl

theorem mget_msetFold_of_not_mem (ws : List ((ℕ × ℕ) × ℚ)) (m : SymMat) (a b : ℕ)
    (h : ∀ w ∈ ws, pidx a b ≠ wkey w) :
    mget (msetFold m ws) a b = mget m a b := by
  induction ws generalizing m with
  | nil => rfl
  | cons w ws ih =>
      rw [msetFold_cons, ih _ (fun w' hw' => h w' (List.mem_cons_of_mem w hw'))]
      exact mget_mset_of_ne _ _ _ _ _ _ (h w (List.mem_cons_self w ws))

theorem mget_msetFold_of_mem (ws : List ((ℕ × ℕ) × ℚ)) (m : SymMat)
    (w0 : (ℕ × ℕ) × ℚ) (hmem : w0 ∈ ws)
    (hdist : ws.Pairwise (fun w w' => wkey w ≠ wkey w')) (a b : ℕ)
    (hk : pidx a b = wkey w0) : mget (msetFold m ws) a b = w0.2 := by
  induction ws generalizing m with
  | nil => simp at hmem
  | cons w ws ih =>
      rcases List.mem_cons.mp hmem with h0 | h0
      · subst h0
        rw [msetFold_cons, mget_msetFold_of_not_mem]
        · show mset m w0.1.1 w0.1.2 w0.2 (pidx a b) = w0.2
          rw [hk]
          simp [wkey, mset]
        · intro w' hw'
          rw [hk]
          exact (List.pairwise_cons.mp hdist).1 w' hw'
      · rw [msetFold_cons]
        exact ih _ h0 (List.pairwise_cons.mp hdist).2

theorem mget_msetFold_prop (Q : ℕ → ℕ → ℚ → Prop) (ws : List ((ℕ × ℕ) × ℚ))
    (m : SymMat) (hm : ∀ a b, Q a b (mget m a b))
    (hws : ∀ w ∈ ws, ∀ a b, pidx a b = wkey w → Q a b w.2) :
    ∀ a b, Q a b (mget (msetFold m ws) a b) := by
  induction ws generalizing m with
  | nil => exact hm
  | cons w ws ih =>
      rw [msetFold_cons]
      refine ih _ ?_ (fun w' hw' => hws w' (List.mem_cons_of_mem w hw'))
      intro a b
      by_cases hk : pidx a b = wkey w
      · have h2 : mget (mset m w.1.1 w.1.2 w.2) a b = w.2 := by
          show mset m w.1.1 w.1.2 w.2 (pidx a b) = w.2
          rw [hk]
          simp [wkey, mset]
        rw [h2]
        exact hws w (List.mem_cons_self w ws) a b hk
      · rw [mget_mset_of_ne _ _ _ _ _ _ hk]
        exact hm a b

/-- Reading every written key back after a distinct-key write sequence
returns the written values. -/
theorem msetFold_reads (ws : List ((ℕ × ℕ) × ℚ)) (m : SymMat)
    (hdist : ws.Pairwise (fun w w' => wkey w ≠ wkey w')) :
    ws.map (fun w => mget (msetFold m ws) w.1.1 w.1.2) = ws.map (·.2) := by
  refine List.map_congr_left ?_
  intro w hw
  exact mget_msetFold_of_mem ws m w hw hdist _ _ rfl

/-! #### pairSum, rowSum and seqIdxPairs facts -/

theorem pairSum_eq_seq_sum (m : SymMat) (l : List ℕ) :
    pairSum m l = ((seqIdxPairs l).map (fun p => mget m p.1 p.2)).sum := by
  induction l with
  | nil => rfl
  | cons i t ih =>
      simp only [pairSum, seqIdxPairs, List.map_append, List.sum_append, List.map_map, ih]
      rfl

theorem pairSum_congr (m m' : SymMat) (l : List ℕ)
    (h : ∀ p ∈ seqIdxPairs l, mget m p.1 p.2 = mget m' p.1 p.2) :
    pairSum m l = pairSum m' l := by
  rw [pairSum_eq_seq_sum, pairSum_eq_seq_sum]
  exact congrArg List.sum (List.map_congr_left h)

theorem pairSum_append_single (m : SymMat) (l : List ℕ) (x : ℕ) :
    pairSum m (l ++ [x]) = pairSum m l + (l.map (fun i => mget m i x)).sum := by
  induction l with
  | nil => simp [pairSum]
  | cons i t ih =>
      have hstep : pairSum m ((i :: t) ++ [x])
          = ((t ++ [x]).map (fun j => mget m i j)).sum + pairSum m (t ++ [x]) := rfl
      have h2 : pairSum m (i :: t) = (t.map (fun j => mget m i j)).sum + pairSum m t := rfl
      rw [hstep, ih, List.map_append, List.sum_append, h2]
      simp only [List.map_cons, List.sum_cons, List.map_nil, List.sum_nil]
      linarith

theorem pairSum_eraseAt (m : SymMat) (l : List ℕ) (n : ℕ) (h : n < l.length) :
    pairSum m l = pairSum m (eraseAt n l)
      + ((eraseAt n l).map (fun j => mget m (l.getD n 0) j)).sum := by
  induction l generalizing n with
  | nil => simp at h
  | cons i t ih =>
      cases n with
      | zero =>
          simp only [eraseAt, List.getD_cons_zero, pairSum]
          ring
      | succ n =>
          have hn : n < t.length := by simpa using Nat.lt_of_succ_lt_succ h
          simp only [eraseAt, List.getD_cons_succ, pairSum, List.map_cons, List.sum_cons]
          rw [ih n hn, sum_map_eraseAt (fun j => mget m i j) t n hn]
          have : mget m (t.getD n 0) i = mget m i (t.getD n 0) := mget_comm _ _ _
          linarith

theorem pairSum_nonneg (m : SymMat) (l : List ℕ) (h : ∀ i j, 0 ≤ mget m i j) :
    0 ≤ pairSum m l := by
  induction l with
  | nil => simp [pairSum]
  | cons i t ih =>
      have : 0 ≤ (t.map (fun j => mget m i j)).sum := by
        refine List.sum_nonneg ?_
        intro x hx
        rcases List.mem_map.mp hx with ⟨j, _, rfl⟩
        exact h i j
      simp only [pairSum]
      linarith

theorem rowSum_append_single (m : SymMat) (i : ℕ) (l : List ℕ) (x : ℕ) :
    rowSum m i (l ++ [x]) = rowSum m i l + (if x = i then 0 else mget m i x) := by
  simp [rowSum]

theorem rowSum_congr (m m' : SymMat) (i : ℕ) (l : List ℕ)
    (h : ∀ j ∈ l, j ≠ i → mget m i j = mget m' i j) :
    rowSum m i l = rowSum m' i l := by
  unfold rowSum
  refine congrArg List.sum (List.map_congr_left ?_)
  intro j hj
  by_cases hji : j = i
  · simp [hji]
  · simp [hji, h j hj hji]

theorem rowSum_eraseAt (m : SymMat) (i : ℕ) (l : List ℕ) (n : ℕ) (h : n < l.length) :
    rowSum m i l = rowSum m i (eraseAt n l)
      + (if l.getD n 0 = i then 0 else mget m i (l.getD n 0)) := by
  unfold rowSum
  exact sum_map_eraseAt (fun j => if j = i then 0 else mget m i j) l n h

theorem mem_seqIdxPairs (l : List ℕ) : ∀ p ∈ seqIdxPairs l, p.1 ∈ l ∧ p.2 ∈ l := by
  induction l with
  | nil => simp [seqIdxPairs]
  | cons i t ih =>
      intro p hp
      rcases List.mem_append.mp hp with h | h
      · rcases List.mem_map.mp h with ⟨j, hj, rfl⟩
        exact ⟨List.mem_cons_self i t, List.mem_cons_of_mem i hj⟩
      · exact ⟨List.mem_cons_of_mem i (ih p h).1, List.mem_cons_of_mem i (ih p h).2⟩

theorem seqIdxPairs_keys_distinct (l : List ℕ) (hnd : l.Nodup) :
    (seqIdxPairs l).Pairwise (fun p q => pidx p.1 p.2 ≠ pidx q.1 q.2) := by
  induction l with
  | nil => simp [seqIdxPairs]
  | cons i t ih =>
      have hint : i ∉ t := (List.nodup_cons.mp hnd).1
      have hndt : t.Nodup := (List.nodup_cons.mp hnd).2
      simp only [seqIdxPairs]
      refine List.pairwise_append.mpr ⟨?_, ih hndt, ?_⟩
      · rw [List.pairwise_map]
        refine List.Pairwise.imp_of_mem ?_ hndt
        intro a b ha hb hab hk
        rcases (pidx_eq_iff i a i b).mp hk with ⟨_, h2⟩ | ⟨h1, h2⟩
        · exact hab h2
        · exact hint (h1 ▸ hb)
      · intro p hp q hq
        rcases List.mem_map.mp hp with ⟨a, ha, rfl⟩
        intro hk
        rcases (pidx_eq_iff i a q.1 q.2).mp hk with ⟨h1, _⟩ | ⟨h1, _⟩
        · exact hint (h1 ▸ (mem_seqIdxPairs t q hq).1)
        · exact hint (h1 ▸ (mem_seqIdxPairs t q hq).2)

theorem seqIdxPairs_ne (l : List ℕ) (hnd : l.Nodup) :
    ∀ p ∈ seqIdxPairs l, p.1 ≠ p.2 := by
  induction l with
  | nil => simp [seqIdxPairs]
  | cons i t ih =>
      intro p hp
      rcases List.mem_append.mp hp with h | h
      · rcases List.mem_map.mp h with ⟨j, hj, rfl⟩
        intro he
        have he2 : i = j := he
        exact (List.nodup_cons.mp hnd).1 (he2 ▸ hj)
      · exact ih (List.nodup_cons.mp hnd).2 p h

/-! #### The free-slot set -/

theorem insertSlot_perm (i : ℕ) (l : List ℕ) (h : i ∉ l) :
    (insertSlot i l).Perm (i :: l) := by
  induction l with
  | nil => simp [insertSlot]
  | cons j t ih =>
      have hij : i ≠ j := fun he => h (he ▸ List.mem_cons_self j t)
      by_cases hlt : i < j
      · simp [insertSlot, hlt]
      · simp only [insertSlot, if_neg hlt, if_neg hij]
        have hit : i ∉ t := fun hm => h (List.mem_cons_of_mem j hm)
        exact ((ih hit).cons j).trans (List.Perm.swap i j t)

/-! #### find_nearest stays in range -/

theorem find_nearest_lt_length (t : List ℚ) (d : ℚ) (h : t ≠ []) :
    find_nearest t d < t.length := by
  have hlb := lowerBound_le_length t d
  have hn : 0 < t.length := List.length_pos.mpr h
  have hlt : ¬ (lowerBound t d = t.length ∧ t.length ≠ 0) → lowerBound t d < t.length := by
    intro hne
    rcases Nat.lt_or_ge (lowerBound t d) t.length with hcase | hcase
    · exact hcase
    · exact absurd ⟨le_antisymm hlb hcase, by omega⟩ hne
  simp only [find_nearest]
  split_ifs with h1 h2
  · omega
  · have := hlt h1; omega
  · exact hlt h1

/-! #### Table erase and insert folds -/

theorem eraseFoldDesc (is : List ℕ) (tbl : List ℚ) (hdesc : is.Pairwise (· > ·))
    (hlt : ∀ i ∈ is, i < tbl.length) :
    ((is.foldl (fun t i => eraseAt i t) tbl : List ℚ) : Multiset ℚ)
        + ((is.map (fun i => tbl.getD i 0) : List ℚ) : Multiset ℚ)
      = (tbl : Multiset ℚ)
    ∧ (tbl.Sorted (· ≤ ·) → (is.foldl (fun t i => eraseAt i t) tbl).Sorted (· ≤ ·))
    ∧ (is.foldl (fun t i => eraseAt i t) tbl).length + is.length = tbl.length := by
  induction is generalizing tbl with
  | nil => simp
  | cons i is ih =>
      have hi : i < tbl.length := hlt i (List.mem_cons_self i is)
      have hlen : (eraseAt i tbl).length = tbl.length - 1 := length_eraseAt i tbl hi
      have hhead := (List.pairwise_cons.mp hdesc).1
      have htail := (List.pairwise_cons.mp hdesc).2
      have hlt' : ∀ j ∈ is, j < (eraseAt i tbl).length := by
        intro j hj
        have := hhead j hj
        omega
      obtain ⟨ihms, ihsort, ihlen⟩ := ih (eraseAt i tbl) htail hlt'
      have hmapeq : is.map (fun j => (eraseAt i tbl).getD j 0)
          = is.map (fun j => tbl.getD j 0) := by
        refine List.map_congr_left ?_
        intro j hj
        exact getD_eraseAt_lt i tbl j 0 (hhead j hj)
      refine ⟨?_, ?_, ?_⟩
      · have hfold : (i :: is).foldl (fun t j => eraseAt j t) tbl
            = is.foldl (fun t j => eraseAt j t) (eraseAt i tbl) := rfl
        rw [hfold]
        have : ((is.foldl (fun t j => eraseAt j t) (eraseAt i tbl) : List ℚ) : Multiset ℚ)
            + ((is.map (fun j => tbl.getD j 0) : List ℚ) : Multiset ℚ)
            = ((eraseAt i tbl : List ℚ) : Multiset ℚ) := by
          rw [← hmapeq]; exact ihms
        calc ((is.foldl (fun t j => eraseAt j t) (eraseAt i tbl) : List ℚ) : Multiset ℚ)
              + (((i :: is).map (fun j => tbl.getD j 0) : List ℚ) : Multiset ℚ)
            = tbl.getD i 0 ::ₘ
                (((is.foldl (fun t j => eraseAt j t) (eraseAt i tbl) : List ℚ) : Multiset ℚ)
                  + ((is.map (fun j => tbl.getD j 0) : List ℚ) : Multiset ℚ)) := by
              simp [Multiset.cons_swap]
          _ = tbl.getD i 0 ::ₘ ((eraseAt i tbl : List ℚ) : Multiset ℚ) := by rw [this]
          _ = (tbl : Multiset ℚ) := (multiset_eraseAt i tbl hi).symm
      · intro hsort
        exact ihsort (sorted_eraseAt i tbl hsort)
      · have hfold : (i :: is).foldl (fun t j => eraseAt j t) tbl
            = is.foldl (fun t j => eraseAt j t) (eraseAt i tbl) := rfl
        rw [hfold]
        simp only [List.length_cons]
        omega

theorem insertPosFold (vals : List ℚ) (tbl : List ℚ) :
    ((vals.foldl (fun t u => if 0 < u then return_back t u else t) tbl : List ℚ) : Multiset ℚ)
      = (tbl : Multiset ℚ) + ((vals.filter (fun u => decide (0 < u)) : List ℚ) : Multiset ℚ)
    ∧ (tbl.Sorted (· ≤ ·) →
        (vals.foldl (fun t u => if 0 < u then return_back t u else t) tbl).Sorted (· ≤ ·)) := by
  induction vals generalizing tbl with
  | nil => simp
  | cons v vs ih =>
      by_cases hv : 0 < v
      · have hfold : (v :: vs).foldl (fun t u => if 0 < u then return_back t u else t) tbl
            = vs.foldl (fun t u => if 0 < u then return_back t u else t) (return_back tbl v) := by
          simp [hv]
        obtain ⟨ihms, ihsort⟩ := ih (return_back tbl v)
        constructor
        · rw [hfold, ihms, return_back, multiset_insertAt]
          rw [List.filter_cons_of_pos (by simpa using hv)]
          simp only [← Multiset.cons_coe, ← Multiset.singleton_add]
          abel
        · intro hsort
          rw [hfold]
          exact ihsort (sorted_return_back tbl v hsort)
      · have hfold : (v :: vs).foldl (fun t u => if 0 < u then return_back t u else t) tbl
            = vs.foldl (fun t u => if 0 < u then return_back t u else t) tbl := by
          simp [hv]
        obtain ⟨ihms, ihsort⟩ := ih tbl
        rw [hfold, List.filter_cons_of_neg (by simpa using hv)]
        exact ⟨ihms, ihsort⟩

/-- Two reads that agree everywhere except at one index where one is a
positive value and the other zero: the positive filters differ by exactly
that value. -/
theorem filter_multiset_update (idl : List ℕ) (f g : ℕ → ℚ) (i0 : ℕ) (v : ℚ)
    (hv : 0 < v) (hmem : i0 ∈ idl) (hnd : idl.Nodup)
    (heq : ∀ i ∈ idl, i ≠ i0 → f i = g i) (hf : f i0 = v) (hg : g i0 = 0) :
    (((idl.map f).filter (fun u => decide (0 < u)) : List ℚ) : Multiset ℚ)
      = v ::ₘ (((idl.map g).filter (fun u => decide (0 < u)) : List ℚ) : Multiset ℚ) := by
  induction idl with
  | nil => simp at hmem
  | cons i t ih =>
      rcases List.mem_cons.mp hmem with h0 | h0
      · have hfi : f i = v := h0 ▸ hf
        have hgi : g i = 0 := h0 ▸ hg
        have htail : ∀ j ∈ t, f j = g j := by
          intro j hj
          have hji : j ≠ i0 :=
            fun he => (List.nodup_cons.mp hnd).1 ((he.trans h0) ▸ hj)
          exact heq j (List.mem_cons_of_mem i hj) hji
        have hmaps : t.map f = t.map g := List.map_congr_left htail
        simp only [List.map_cons, hfi, hgi]
        rw [List.filter_cons_of_pos (by simpa using hv),
            List.filter_cons_of_neg (by simp), hmaps]
        simp
      · have hii0 : i ≠ i0 := fun he => (List.nodup_cons.mp hnd).1 (he ▸ h0)
        have hfg : f i = g i := heq i (List.mem_cons_self i t) hii0
        have ihx := ih h0 (List.nodup_cons.mp hnd).2
            (fun j hj hji => heq j (List.mem_cons_of_mem i hj) hji)
        simp only [List.map_cons]
        by_cases hpos : 0 < f i
        · rw [List.filter_cons_of_pos (by simpa using hpos),
              List.filter_cons_of_pos (by simpa [← hfg] using hpos)]
          simp only [Multiset.cons_coe]
          rw [show ((f i :: (t.map f).filter (fun u => decide (0 < u)) : List ℚ) : Multiset ℚ)
              = f i ::ₘ ((t.map f).filter (fun u => decide (0 < u)) : Multiset ℚ) from rfl]
          rw [ihx, hfg]
          exact Multiset.cons_swap _ _ _
        · rw [List.filter_cons_of_neg (by simpa using hpos),
              List.filter_cons_of_neg (by simpa [← hfg] using hpos)]
          exact ihx

/-- Specification of the modelled cost evaluation: partial costs are one
per atom and non-negative; use records point at distinct available table
positions, one per atom, in increasing atom order. -/
theorem evalAtoms_spec (tol : ℚ) (tbl : List ℚ) :
    ∀ (ds : List ℚ) (avail : List ℕ) (k : ℕ) (ps : List ℚ) (us : List (ℕ × ℕ)),
      avail.Nodup →
      evalAtoms tol tbl ds avail k = some (ps, us) →
      ps.length = ds.length ∧ (∀ c ∈ ps, 0 ≤ c) ∧
      (∀ x ∈ us, x.2 ∈ avail ∧ k ≤ x.1 ∧ x.1 < k + ds.length) ∧
      (us.map (·.2)).Nodup ∧ (us.map (·.1)).Sorted (· < ·) := by
  intro ds
  induction ds with
  | nil =>
      intro avail k ps us hnd heval
      simp only [evalAtoms, Option.some.injEq, Prod.mk.injEq] at heval
      obtain ⟨hps, hus⟩ := heval
      subst hps; subst hus
      simp
  | cons dc ds ih =>
      intro avail k ps us hnd heval
      by_cases hem : avail.isEmpty
      · simp [evalAtoms, hem] at heval
      · have havne : avail ≠ [] := by cases avail <;> simp_all
        simp only [evalAtoms, hem, Bool.false_eq_true, if_false] at heval
        rcases hrec : evalAtoms tol tbl ds
            (if decide (|(avail.map (fun i => tbl.getD i 0)).getD
                  (find_nearest (avail.map (fun i => tbl.getD i 0)) dc) 0 - dc| < tol)
              then eraseAt (find_nearest (avail.map (fun i => tbl.getD i 0)) dc) avail
              else avail) (k + 1) with _ | pu
        · rw [hrec] at heval
          simp at heval
        · rw [hrec] at heval
          obtain ⟨ps', us'⟩ := pu
          simp only [Option.some.injEq, Prod.mk.injEq] at heval
          obtain ⟨hps, hus⟩ := heval
          have hsubne : avail.map (fun i => tbl.getD i 0) ≠ [] := by
            simpa using havne
          have hplt : find_nearest (avail.map (fun i => tbl.getD i 0)) dc < avail.length := by
            have := find_nearest_lt_length (avail.map (fun i => tbl.getD i 0)) dc hsubne
            simpa using this
          have hnd' : (if decide (|(avail.map (fun i => tbl.getD i 0)).getD
                  (find_nearest (avail.map (fun i => tbl.getD i 0)) dc) 0 - dc| < tol)
              then eraseAt (find_nearest (avail.map (fun i => tbl.getD i 0)) dc) avail
              else avail).Nodup := by
            split_ifs
            · exact nodup_eraseAt _ _ hnd
            · exact hnd
          obtain ⟨ih1, ih2, ih3, ih4, ih5⟩ := ih _ (k + 1) ps' us' hnd' hrec
          have hsubset : ∀ x ∈ us', x.2 ∈ avail := by
            intro x hx
            have := (ih3 x hx).1
            split_ifs at this
            · exact mem_of_mem_eraseAt this
            · exact this
          by_cases hused : |(avail.map (fun i => tbl.getD i 0)).getD
              (find_nearest (avail.map (fun i => tbl.getD i 0)) dc) 0 - dc| < tol
          · simp only [hused, decide_True, if_true] at hus hrec
            subst hps; subst hus
            refine ⟨by simp [ih1], ?_, ?_, ?_, ?_⟩
            · intro c hc
              rcases List.mem_cons.mp hc with hc | hc
              · subst hc; exact sq_nonneg _
              · exact ih2 c hc
            · intro x hx
              rcases List.mem_cons.mp hx with hx | hx
              · subst hx
                refine ⟨getD_mem avail _ 0 hplt, le_refl k, by simp only [List.length_cons]; omega⟩
              · obtain ⟨hmem, hk, hub⟩ := ih3 x hx
                exact ⟨hsubset x hx, by omega, by simp only [List.length_cons]; omega⟩
            · simp only [List.map_cons, List.nodup_cons]
              refine ⟨?_, ih4⟩
              intro hmem
              rcases List.mem_map.mp hmem with ⟨x, hx, hx2⟩
              have hx' := (ih3 x hx).1
              simp only [hused, decide_True, if_true] at hx'
              rw [hx2] at hx'
              exact getD_not_mem_eraseAt _ avail 0 hnd hplt hx'
            · simp only [List.map_cons, List.Sorted, List.pairwise_cons]
              refine ⟨?_, ih5⟩
              intro b hb
              rcases List.mem_map.mp hb with ⟨x, hx, hx2⟩
              have := (ih3 x hx).2.1
              omega
          · simp only [hused, decide_False, if_false, Bool.false_eq_true] at hus hrec
            subst hps; subst hus
            refine ⟨by simp [ih1], ?_, ?_, ih4, ih5⟩
            · intro c hc
              rcases List.mem_cons.mp hc with hc | hc
              · subst hc; exact sq_nonneg _
              · exact ih2 c hc
            · intro x hx
              obtain ⟨hmem, hk, hub⟩ := ih3 x hx
              simp only [hused, decide_False, if_false, Bool.false_eq_true] at hmem
              exact ⟨hmem, by omega, by simp only [List.length_cons]; omega⟩


/-! ### Fold bridging lemmas -/

theorem foldl_table_map {β : Type _} (f : β → ℚ) (l : List β) (tbl : List ℚ) :
    l.foldl (fun t b => if 0 < f b then return_back t (f b) else t) tbl
      = (l.map f).foldl (fun t u => if 0 < u then return_back t u else t) tbl := by
  induction l generalizing tbl with
  | nil => rfl
  | cons b t ih => simp only [List.foldl_cons, List.map_cons, ih]

theorem foldl_mset_map {β : Type _} (key : β → ℕ × ℕ) (val : β → ℚ) (l : List β)
    (m : SymMat) :
    l.foldl (fun m2 b => mset m2 (key b).1 (key b).2 (val b)) m
      = msetFold m (l.map (fun b => (key b, val b))) := by
  induction l generalizing m with
  | nil => rfl
  | cons b t ih => simp only [List.foldl_cons, List.map_cons, msetFold_cons, ih]

theorem pidx_row_injective (slot a b : ℕ) (ha : a ≠ slot) (hb : b ≠ slot)
    (h : pidx slot a = pidx slot b) : a = b := by
  rcases (pidx_eq_iff slot a slot b).mp h with ⟨_, h2⟩ | ⟨h1, h2⟩
  · exact h2
  · exact absurd h1.symm hb

/-- Every unordered live pair occurs (canonically) in the sequence
traversal. -/
theorem seqIdxPairs_covers (l : List ℕ) (i j : ℕ) (hi : i ∈ l) (hj : j ∈ l)
    (hij : i ≠ j) : ∃ p ∈ seqIdxPairs l, pidx p.1 p.2 = pidx i j := by
  induction l with
  | nil => simp at hi
  | cons a t ih =>
      rcases List.mem_cons.mp hi with ha | ha
      · subst ha
        have hjt : j ∈ t := by
          rcases List.mem_cons.mp hj with h | h
          · exact absurd h.symm hij
          · exact h
        refine ⟨(i, j), ?_, rfl⟩
        simp only [seqIdxPairs, List.mem_append]
        exact Or.inl (List.mem_map.mpr ⟨j, hjt, rfl⟩)
      · rcases List.mem_cons.mp hj with hb | hb
        · subst hb
          refine ⟨(j, i), ?_, pidx_comm _ _⟩
          simp only [seqIdxPairs, List.mem_append]
          exact Or.inl (List.mem_map.mpr ⟨i, ha, rfl⟩)
        · obtain ⟨p, hp, hpk⟩ := ih ha hb
          refine ⟨p, ?_, hpk⟩
          simp only [seqIdxPairs, List.mem_append]
          exact Or.inr hp

theorem seqPairs_keys {α : Type} (dist : α → α → ℚ) (l : List (AtomM α)) :
    (seqPairs dist l).map (·.1) = seqIdxPairs (l.map (·.pmxidx)) := by
  induction l with
  | nil => rfl
  | cons a t ih =>
      simp only [seqPairs, seqIdxPairs, List.map_append, List.map_map, List.map_cons, ih]
      rfl

/-! ### Well-formedness of a Molecule state -/

/-- The state invariants of a well-formed `Molecule`: the live pair-matrix
indices and the free slots partition an initial segment of ℕ; nonzero
used-distance entries sit exactly on distinct live pairs and are
non-negative (and absent whenever distances are reused); pair costs are
non-negative; the working table is sorted and positive; the badness is
non-negative and bounded by the stored pair-cost sum (badness falls below
it only through the `eps_cost` snaps); each atom's badness is exactly
half its row of pair costs; the molecule respects its capacity. -/
structure WF {α : Type} (s : Mol α) : Prop where
  slots_perm : (molIdxs s ++ s.free_pmx_slots).Perm
      (List.range (s.atoms.length + s.free_pmx_slots.length))
  used_live : ∀ i j, mget s.pmx_used_distances i j ≠ 0 →
      i ≠ j ∧ i ∈ molIdxs s ∧ j ∈ molIdxs s
  used_nonneg : ∀ i j, 0 ≤ mget s.pmx_used_distances i j
  reuse_used_zero : s.distreuse = true → ∀ i j, mget s.pmx_used_distances i j = 0
  cost_nonneg : ∀ i j, 0 ≤ mget s.pmx_partial_costs i j
  tbl_sorted : s.dtable.Sorted (· ≤ ·)
  tbl_pos : ∀ x ∈ s.dtable, 0 < x
  bad_nonneg : 0 ≤ s.badness
  bad_le : s.badness ≤ pairSum s.pmx_partial_costs (molIdxs s)
  abad_eq : ∀ a ∈ s.atoms, 2 * a.abad = rowSum s.pmx_partial_costs a.pmxidx (molIdxs s)
  count_le : s.atoms.length ≤ s.maxAtomCount

theorem length_molIdxs {α : Type} (s : Mol α) : (molIdxs s).length = s.atoms.length := by
  simp [molIdxs]

theorem WF.parts_nodup {α : Type} {s : Mol α} (h : WF s) :
    (molIdxs s).Nodup ∧ s.free_pmx_slots.Nodup ∧
      ∀ i ∈ molIdxs s, i ∉ s.free_pmx_slots := by
  have hnd : (molIdxs s ++ s.free_pmx_slots).Nodup :=
    h.slots_perm.nodup_iff.mpr (List.nodup_range _)
  obtain ⟨h1, h2, h3⟩ := List.nodup_append.mp hnd
  exact ⟨h1, h2, fun i hi hif => h3 hi hif⟩

theorem WF.live_lt {α : Type} {s : Mol α} (h : WF s) :
    ∀ i ∈ molIdxs s, i < s.atoms.length + s.free_pmx_slots.length := by
  intro i hi
  have : i ∈ List.range (s.atoms.length + s.free_pmx_slots.length) :=
    h.slots_perm.mem_iff.mp (List.mem_append.mpr (Or.inl hi))
  simpa using this

/-- The allocated pair-matrix slot is never a live index. -/
theorem slot_fresh {α : Type} (s : Mol α) (h : WF s) :
    (getPairMatrixIndex s).1 ∉ molIdxs s := by
  obtain ⟨hnd1, hnd2, hdisj⟩ := h.parts_nodup
  unfold getPairMatrixIndex
  cases hfs : s.free_pmx_slots with
  | nil =>
      intro hmem
      have := h.live_lt _ hmem
      rw [hfs] at this
      simp at this
  | cons i rest =>
      intro hmem
      exact hdisj _ hmem (by rw [hfs]; exact List.mem_cons_self i rest)

/-! ### Preservation: recalculate -/

theorem molIdxs_recalcCore {α : Type} (s : Mol α) :
    molIdxs (recalcCore s) = molIdxs s := by
  simp [molIdxs, recalcCore, List.map_map, Function.comp]

theorem recalcCore_fields {α : Type} (s : Mol α) :
    (recalcCore s).pmx_partial_costs = s.pmx_partial_costs ∧
    (recalcCore s).pmx_used_distances = s.pmx_used_distances ∧
    (recalcCore s).free_pmx_slots = s.free_pmx_slots ∧
    (recalcCore s).dtable = s.dtable ∧
    (recalcCore s).distreuse = s.distreuse ∧
    (recalcCore s).maxAtomCount = s.maxAtomCount ∧
    (recalcCore s).atoms.length = s.atoms.length ∧
    (recalcCore s).badness = pairSum s.pmx_partial_costs (molIdxs s) := by
  refine ⟨rfl, rfl, rfl, rfl, rfl, rfl, ?_, rfl⟩
  simp [recalcCore]

theorem WF_recalcCore {α : Type} (s : Mol α) (h : WF s) : WF (recalcCore s) := by
  obtain ⟨hc, hu, hf, hd, hr, hm, hlen, hb⟩ := recalcCore_fields s
  refine ⟨?_, ?_, ?_, ?_, ?_, ?_, ?_, ?_, ?_, ?_, ?_⟩
  · rw [molIdxs_recalcCore, hf, hlen]
    exact h.slots_perm
  · rw [hu, molIdxs_recalcCore]
    exact h.used_live
  · rw [hu]; exact h.used_nonneg
  · rw [hu, hr]; exact h.reuse_used_zero
  · rw [hc]; exact h.cost_nonneg
  · rw [hd]; exact h.tbl_sorted
  · rw [hd]; exact h.tbl_pos
  · rw [hb]
    exact pairSum_nonneg _ _ h.cost_nonneg
  · rw [hb, hc, molIdxs_recalcCore]
  · intro a ha
    rw [hc, molIdxs_recalcCore]
    simp only [recalcCore, List.mem_map] at ha
    obtain ⟨a0, _, rfl⟩ := ha
    simp only []
    ring
  · rw [hlen, hm]; exact h.count_le

theorem WF_recalculateM {α : Type} (s s' : Mol α) (h : WF s)
    (hres : recalculateM s = .ok s') : WF s' := by
  unfold recalculateM at hres
  split_ifs at hres
  simp only [Except.ok.injEq] at hres
  exact hres ▸ WF_recalcCore s h

/-! ### Preservation: Clear -/

theorem returnUsed_used_zero {α : Type} (s : Mol α) (h : WF s) :
    ∀ i j, mget (returnUsedDistancesM s).pmx_used_distances i j = 0 := by
  intro i j
  unfold returnUsedDistancesM
  by_cases hdr : s.distreuse
  · simp only [hdr, if_true]
    exact h.reuse_used_zero hdr i j
  · simp only [hdr, Bool.false_eq_true, if_false]
    have hnd := h.parts_nodup.1
    have hbr : (seqIdxPairs (molIdxs s)).foldl
          (fun m p => mset m p.1 p.2 0) s.pmx_used_distances
        = msetFold s.pmx_used_distances
            ((seqIdxPairs (molIdxs s)).map (fun p => (p, (0 : ℚ)))) :=
      foldl_mset_map (fun p => p) (fun _ => 0) _ _
    simp only [hbr]
    by_cases hcov : ∃ p ∈ seqIdxPairs (molIdxs s), pidx p.1 p.2 = pidx i j
    · obtain ⟨p, hp, hpk⟩ := hcov
      have hdist : ((seqIdxPairs (molIdxs s)).map (fun p => (p, (0 : ℚ)))).Pairwise
          (fun w w' => wkey w ≠ wkey w') := by
        rw [List.pairwise_map]
        exact (seqIdxPairs_keys_distinct _ hnd).imp (fun hne => hne)
      exact mget_msetFold_of_mem _ _ (p, 0)
        (List.mem_map.mpr ⟨p, hp, rfl⟩) hdist i j (by simpa [wkey] using hpk.symm)
    · rw [mget_msetFold_of_not_mem]
      · by_contra hne
        obtain ⟨hij, hi, hj⟩ := h.used_live i j hne
        exact hcov (seqIdxPairs_covers _ i j hi hj hij)
      · intro w hw
        rcases List.mem_map.mp hw with ⟨p, hp, rfl⟩
        intro hk
        exact hcov ⟨p, hp, by simpa [wkey] using hk.symm⟩

theorem ClearM_dtable_ms {α : Type} (s : Mol α) (hdr : s.distreuse = false) :
    ((ClearM s).dtable : Multiset ℚ) = (s.dtable : Multiset ℚ) + usedMS s := by
  unfold ClearM returnUsedDistancesM
  simp only [hdr, Bool.false_eq_true, if_false]
  have hperm := List.perm_insertionSort (· ≤ ·)
      (s.dtable ++ ((seqIdxPairs (molIdxs s)).map
        (fun p => mget s.pmx_used_distances p.1 p.2)).filter (fun u => decide (0 < u)))
  unfold usedMS
  rw [Multiset.filter_coe]
  exact (Multiset.coe_eq_coe.mpr hperm).trans (by simp)

theorem WF_ClearM {α : Type} (s : Mol α) (h : WF s) : WF (ClearM s) := by
  have hz := returnUsed_used_zero s h
  have hcost : (ClearM s).pmx_partial_costs = s.pmx_partial_costs := by
    unfold ClearM returnUsedDistancesM
    split_ifs <;> rfl
  have hatoms : (ClearM s).atoms = [] := by
    unfold ClearM; rfl
  have hfree : (ClearM s).free_pmx_slots = [] := by
    unfold ClearM; rfl
  have hbad : (ClearM s).badness = 0 := by
    unfold ClearM; rfl
  have hused : (ClearM s).pmx_used_distances
      = (returnUsedDistancesM s).pmx_used_distances := by
    unfold ClearM; rfl
  have hmi : molIdxs (ClearM s) = [] := by
    simp [molIdxs, hatoms]
  have htbl : (ClearM s).dtable.Sorted (· ≤ ·) ∧ ∀ x ∈ (ClearM s).dtable, 0 < x := by
    unfold ClearM returnUsedDistancesM
    by_cases hdr : s.distreuse
    · simp only [hdr, if_true]
      exact ⟨h.tbl_sorted, h.tbl_pos⟩
    · simp only [hdr, Bool.false_eq_true, if_false]
      constructor
      · exact List.sorted_insertionSort (· ≤ ·) _
      · intro x hx
        have hx' := (List.perm_insertionSort (· ≤ ·) _).mem_iff.mp hx
        rcases List.mem_append.mp hx' with hx2 | hx2
        · exact h.tbl_pos x hx2
        · have := List.of_mem_filter hx2
          simpa using this
  refine ⟨?_, ?_, ?_, ?_, ?_, ?_, ?_, ?_, ?_, ?_, ?_⟩
  · rw [hmi, hfree, hatoms]
    simp
  · intro i j hne
    rw [hused] at hne
    exact absurd (hz i j) hne
  · intro i j
    rw [hused, hz i j]
  · intro _ i j
    rw [hused, hz i j]
  · rw [hcost]; exact h.cost_nonneg
  · exact htbl.1
  · exact htbl.2
  · rw [hbad]
  · rw [hbad, hmi]
    simp [pairSum]
  · rw [hatoms]; simp
  · rw [hatoms]; simp

/-! ### Preservation: reassignPairs -/

theorem reassign_effect {α : Type} (dist : α → α → ℚ) (s s2 : Mol α) (h : WF s)
    (hres : reassignPairsM dist s = .ok s2) :
    WF s2 ∧ molIdxs s2 = molIdxs s ∧ s2.dtable = s.dtable ∧
    s2.pmx_partial_costs = s.pmx_partial_costs ∧
    s2.atoms.length = s.atoms.length ∧ s2.maxAtomCount = s.maxAtomCount ∧
    s2.distreuse = s.distreuse ∧ s2.free_pmx_slots = s.free_pmx_slots ∧
    usedMS s2 = usedMS s ∧
    (s.distreuse = false → s2.badness = pairSum s.pmx_partial_costs (molIdxs s)) := by
  by_cases hdr : s.distreuse
  · unfold reassignPairsM at hres
    simp only [hdr, if_true] at hres
    simp only [Except.ok.injEq] at hres
    subst hres
    exact ⟨h, rfl, rfl, rfl, rfl, rfl, rfl, rfl, rfl, fun hf => absurd hdr (by simp [hf])⟩
  · have hdr' : s.distreuse = false := by simpa using hdr
    have hnd := h.parts_nodup.1
    unfold reassignPairsM at hres
    simp only [hdr', Bool.false_eq_true, if_false] at hres
    have hall : (seqPairs dist s.atoms).all
        (fun p => decide (0 ≤ mget s.pmx_used_distances p.1.1 p.1.2)) = true := by
      rw [List.all_eq_true]
      intro p _
      exact decide_eq_true (h.used_nonneg _ _)
    rw [hall] at hres
    simp only [Bool.not_true, Bool.false_eq_true, if_false] at hres
    -- name the intermediate state and the write list
    set used2 := ((List.insertionSort (fun p q => p.2 ≤ q.2) (seqPairs dist s.atoms)).zip
        (List.insertionSort (fun a b => a ≤ b) ((seqPairs dist s.atoms).map
          (fun p => mget s.pmx_used_distances p.1.1 p.1.2)))).foldl
        (fun m pu => mset m pu.1.1.1 pu.1.1.2 pu.2) s.pmx_used_distances with hused2
    have hrecalc : recalculateM { s with pmx_used_distances := used2, distreuse := false }
        = .ok (recalcCore { s with pmx_used_distances := used2, distreuse := false }) := by
      unfold recalculateM
      rw [if_neg (by simpa using not_lt_of_le h.count_le)]
    rw [hrecalc] at hres
    simp only [] at hres
    by_cases hbc : (recalcCore { s with pmx_used_distances := used2, distreuse := false }).badness < (1 + 1/1000000) * s.badness + 1/1000000
    · rw [if_pos hbc] at hres
      simp only [Except.ok.injEq] at hres
      subst hres
      -- basic field facts
      have hmi : molIdxs (recalcCore { s with pmx_used_distances := used2, distreuse := false }) = molIdxs s := by rw [molIdxs_recalcCore]; rfl
      -- analyse the write list
      have hbr : used2 = msetFold s.pmx_used_distances
          (((List.insertionSort (fun p q => p.2 ≤ q.2) (seqPairs dist s.atoms)).zip
            (List.insertionSort (fun a b => a ≤ b) ((seqPairs dist s.atoms).map
              (fun p => mget s.pmx_used_distances p.1.1 p.1.2)))).map
            (fun pu : ((ℕ × ℕ) × ℚ) × ℚ => (pu.1.1, pu.2))) := by
        rw [hused2]
        exact foldl_mset_map (fun pu : ((ℕ × ℕ) × ℚ) × ℚ => pu.1.1)
          (fun pu : ((ℕ × ℕ) × ℚ) × ℚ => pu.2) _ _
      set sortedP := List.insertionSort (fun p q => p.2 ≤ q.2) (seqPairs dist s.atoms)
        with hsortedP
      set sortedU := List.insertionSort (fun a b => a ≤ b) ((seqPairs dist s.atoms).map
          (fun p => mget s.pmx_used_distances p.1.1 p.1.2)) with hsortedU
      set ws := (sortedP.zip sortedU).map (fun pu => (pu.1.1, pu.2)) with hws
      have hlenP : sortedP.length = (seqPairs dist s.atoms).length :=
        (List.perm_insertionSort _ _).length_eq
      have hlenU : sortedU.length = (seqPairs dist s.atoms).length := by
        rw [hsortedU]
        simp
      have hkeys : ws.map (·.1) = sortedP.map (·.1) := by
        rw [hws, List.map_map]
        have hzip : (sortedP.zip sortedU).map (fun pu => pu.1.1)
            = (sortedP.zip sortedU).map (fun pu => pu.1.1) := rfl
        calc (sortedP.zip sortedU).map ((fun pu => pu.1) ∘ (fun pu => (pu.1.1, pu.2)))
            = (sortedP.zip sortedU).map (fun pu => pu.1.1) := rfl
          _ = ((sortedP.zip sortedU).map Prod.fst).map (fun p => p.1) := by
              rw [List.map_map]; rfl
          _ = sortedP.map (·.1) := by
              rw [List.map_fst_zip sortedP sortedU (by omega)]
      have hkeysperm : (ws.map (·.1)).Perm (seqIdxPairs (molIdxs s)) := by
        rw [hkeys]
        unfold molIdxs
        rw [← seqPairs_keys dist s.atoms, hsortedP]
        exact (List.perm_insertionSort _ _).map _
      have hkeysdist : ws.Pairwise (fun w w' => wkey w ≠ wkey w') := by
        have hseq := seqIdxPairs_keys_distinct (molIdxs s) hnd
        have : (ws.map (·.1)).Pairwise (fun p q => pidx p.1 p.2 ≠ pidx q.1 q.2) := by
          refine (List.Perm.pairwise_iff ?_ hkeysperm).mpr hseq
          intro a b hab
          exact hab.symm
        rw [List.pairwise_map] at this
        exact this
      -- every write value is an old used entry
      have hvals : ∀ w ∈ ws, ∃ p : ℕ × ℕ, w.2 = mget s.pmx_used_distances p.1 p.2 := by
        intro w hw
        rcases List.mem_map.mp hw with ⟨pu, hpu, rfl⟩
        have hu : pu.2 ∈ sortedU := (List.of_mem_zip hpu).2
        have hu2 : pu.2 ∈ (seqPairs dist s.atoms).map
            (fun p => mget s.pmx_used_distances p.1.1 p.1.2) :=
          (List.perm_insertionSort _ _).mem_iff.mp hu
        rcases List.mem_map.mp hu2 with ⟨p, _, hp2⟩
        exact ⟨p.1, hp2.symm⟩
      -- write keys are live pairs
      have hkeylive : ∀ w ∈ ws, w.1.1 ≠ w.1.2 ∧ w.1.1 ∈ molIdxs s ∧ w.1.2 ∈ molIdxs s := by
        intro w hw
        have hk : w.1 ∈ ws.map (·.1) := List.mem_map.mpr ⟨w, hw, rfl⟩
        have hk2 : w.1 ∈ seqIdxPairs (molIdxs s) := hkeysperm.mem_iff.mp hk
        exact ⟨seqIdxPairs_ne _ hnd _ hk2, (mem_seqIdxPairs _ _ hk2).1,
          (mem_seqIdxPairs _ _ hk2).2⟩
      have hrc := recalcCore_fields { s with pmx_used_distances := used2, distreuse := false }
      refine ⟨?_, hmi, hrc.2.2.2.1, hrc.1, hrc.2.2.2.2.2.2.1, hrc.2.2.2.2.2.1,
        hrc.2.2.2.2.1.trans hdr'.symm, hrc.2.2.1, ?_, ?_⟩
      · -- well-formedness of the reassigned state, then recalculate
        refine WF_recalcCore _ ?_
        have hul : ∀ i j, mget used2 i j ≠ 0 →
            i ≠ j ∧ i ∈ molIdxs s ∧ j ∈ molIdxs s := by
          rw [hbr]
          intro i j
          refine mget_msetFold_prop
            (fun a b v => v ≠ 0 → a ≠ b ∧ a ∈ molIdxs s ∧ b ∈ molIdxs s) _ _
            h.used_live ?_ i j
          intro w hw a b hab _
          obtain ⟨hne, h1, h2⟩ := hkeylive w hw
          rcases (pidx_eq_iff a b w.1.1 w.1.2).mp hab with ⟨ha, hb⟩ | ⟨ha, hb⟩
          · exact ⟨ha ▸ hb ▸ hne, ha ▸ h1, hb ▸ h2⟩
          · exact ⟨ha ▸ hb ▸ (Ne.symm hne), ha ▸ h2, hb ▸ h1⟩
        have hun : ∀ i j, 0 ≤ mget used2 i j := by
          rw [hbr]
          refine mget_msetFold_prop (fun _ _ v => 0 ≤ v) _ _ h.used_nonneg ?_
          intro w hw a b _
          obtain ⟨p, hp⟩ := hvals w hw
          rw [hp]
          exact h.used_nonneg _ _
        exact ⟨h.slots_perm, hul, hun, fun hf => absurd hf (by simp [hdr']),
          h.cost_nonneg, h.tbl_sorted, h.tbl_pos, h.bad_nonneg, h.bad_le,
          h.abad_eq, h.count_le⟩
      · -- usedMS is preserved: the writes permute the used values
        unfold usedMS
        rw [hmi]
        have hread : ((seqIdxPairs (molIdxs s)).map
            (fun p => mget (recalcCore { s with pmx_used_distances := used2, distreuse := false }).pmx_used_distances p.1 p.2) : Multiset ℚ)
            = ((seqIdxPairs (molIdxs s)).map
              (fun p => mget s.pmx_used_distances p.1 p.2) : Multiset ℚ) := by
          have hu2 : (recalcCore { s with pmx_used_distances := used2, distreuse := false }).pmx_used_distances = used2 := rfl
          rw [hu2]
          have hmsperm1 : ((seqIdxPairs (molIdxs s)).map
              (fun p => mget used2 p.1 p.2) : Multiset ℚ)
              = ((ws.map (·.1)).map (fun p => mget used2 p.1 p.2) : Multiset ℚ) := by
            exact Multiset.coe_eq_coe.mpr
              (hkeysperm.symm.map (fun p : ℕ × ℕ => mget used2 p.1 p.2))
          have hmsreads : (ws.map (·.1)).map (fun p => mget used2 p.1 p.2)
              = ws.map (·.2) := by
            rw [List.map_map]
            rw [hbr]
            exact msetFold_reads ws s.pmx_used_distances hkeysdist
          have hwvals : ws.map (·.2) = sortedU := by
            rw [hws, List.map_map]
            calc (sortedP.zip sortedU).map ((fun w => w.2) ∘ (fun pu => (pu.1.1, pu.2)))
                = (sortedP.zip sortedU).map Prod.snd := rfl
              _ = sortedU := List.map_snd_zip sortedP sortedU (by omega)
          have huperm : sortedU.Perm ((seqPairs dist s.atoms).map
              (fun p => mget s.pmx_used_distances p.1.1 p.1.2)) :=
            List.perm_insertionSort _ _
          have hkperm2 : ((seqPairs dist s.atoms).map
              (fun p => mget s.pmx_used_distances p.1.1 p.1.2))
              = (seqIdxPairs (molIdxs s)).map
                (fun p => mget s.pmx_used_distances p.1 p.2) := by
            unfold molIdxs
            rw [← seqPairs_keys dist s.atoms, List.map_map]
            rfl
          rw [hmsperm1, hmsreads, hwvals]
          rw [← hkperm2]
          exact Multiset.coe_eq_coe.mpr huperm
        rw [hread]
      · intro _
        exact hrc.2.2.2.2.2.2.2
    · rw [if_neg hbc] at hres
      simp at hres

/-! ### Helpers for the Add and Pop effect lemmas -/

theorem getD_append_length {β : Type _} (l : List β) (x d : β) :
    (l ++ [x]).getD l.length d = x := by
  induction l with
  | nil => rfl
  | cons y t ih => simpa using ih

theorem eraseAt_append_length {β : Type _} (l : List β) (x : β) :
    eraseAt l.length (l ++ [x]) = l := by
  induction l with
  | nil => rfl
  | cons y t ih => simp [eraseAt, ih]

theorem getD_nodup_inj (l : List ℕ) (hnd : l.Nodup) (i j : ℕ)
    (hi : i < l.length) (hj : j < l.length) (h : l.getD i 0 = l.getD j 0) : i = j := by
  induction l generalizing i j with
  | nil => simp at hi
  | cons x t ih =>
      cases i with
      | zero =>
          cases j with
          | zero => rfl
          | succ j =>
              exfalso
              simp only [List.getD_cons_zero, List.getD_cons_succ] at h
              exact (List.nodup_cons.mp hnd).1
                (h ▸ getD_mem t j 0 (by simpa using Nat.lt_of_succ_lt_succ hj))
      | succ i =>
          cases j with
          | zero =>
              exfalso
              simp only [List.getD_cons_zero, List.getD_cons_succ] at h
              exact (List.nodup_cons.mp hnd).1
                (h ▸ getD_mem t i 0 (by simpa using Nat.lt_of_succ_lt_succ hi))
          | succ j =>
              simp only [List.getD_cons_succ] at h
              have := ih (List.nodup_cons.mp hnd).2 i j
                (by simpa using Nat.lt_of_succ_lt_succ hi)
                (by simpa using Nat.lt_of_succ_lt_succ hj) h
              omega

theorem snapBad_nonneg (eps b : ℚ) (heps : 0 ≤ eps) : 0 ≤ snapBad eps b := by
  unfold snapBad
  split_ifs with hb
  · rfl
  · linarith

theorem snapBad_le (eps b c : ℚ) (hb : b ≤ c) (hc : 0 ≤ c) : snapBad eps b ≤ c := by
  unfold snapBad
  split_ifs with h
  · exact hc
  · exact hb

/-- Projecting the stable pair-matrix index through a badness update. -/
theorem molIdxs_map_abad {α : Type} (l : List (AtomM α)) (g : AtomM α → ℚ) :
    (l.map (fun b => { b with abad := g b })).map (·.pmxidx) = l.map (·.pmxidx) := by
  rw [List.map_map]
  rfl

theorem getD_map_pmxidx {α : Type} (l : List (AtomM α)) (n : ℕ) (h : n < l.length) :
    (l.map (·.pmxidx)).getD n 0 = (l.get ⟨n, h⟩).pmxidx := by
  induction l generalizing n with
  | nil => simp at h
  | cons a t ih =>
      cases n with
      | zero => rfl
      | succ n => exact ih n (by simpa using Nat.lt_of_succ_lt_succ h)

/-- The multiset of a symmetric function over the sequence pairs is
invariant under permutation of the index list. -/
theorem seqIdxPairs_map_perm (f : ℕ → ℕ → ℚ) (hsym : ∀ i j, f i j = f j i)
    {l l' : List ℕ} (hp : l.Perm l') :
    (((seqIdxPairs l).map (fun p => f p.1 p.2) : List ℚ) : Multiset ℚ)
      = (((seqIdxPairs l').map (fun p => f p.1 p.2) : List ℚ) : Multiset ℚ) := by
  induction hp with
  | nil => rfl
  | cons x hp ih =>
      rw [Multiset.coe_eq_coe] at ih ⊢
      simp only [seqIdxPairs, List.map_append, List.map_map]
      exact (hp.map _).append ih
  | swap x y l =>
      simp only [seqIdxPairs, List.map_append, List.map_map, List.map_cons]
      rw [hsym y x]
      simp only [← Multiset.cons_coe, ← Multiset.coe_add, ← Multiset.singleton_add]
      abel
  | trans h1 h2 ih1 ih2 => exact ih1.trans ih2

/-- Splitting `usedMS` along a distinguished index. -/
theorem usedMS_cons_split {α : Type} (s : Mol α) (k : ℕ) (rest : List ℕ)
    (hp : (molIdxs s).Perm (k :: rest)) :
    usedMS s
      = Multiset.filter (fun u => 0 < u)
          ((rest.map (fun j => mget s.pmx_used_distances k j) : List ℚ) : Multiset ℚ)
        + Multiset.filter (fun u => 0 < u)
          (((seqIdxPairs rest).map
            (fun p => mget s.pmx_used_distances p.1 p.2) : List ℚ) : Multiset ℚ) := by
  unfold usedMS
  rw [seqIdxPairs_map_perm (fun i j => mget s.pmx_used_distances i j)
    (fun i j => mget_comm _ i j) hp]
  simp only [seqIdxPairs, List.map_append, List.map_map]
  rw [← Multiset.coe_add, Multiset.filter_add]
  rfl

theorem usedMS_eq_zero {α : Type} (s : Mol α)
    (h : ∀ i j, mget s.pmx_used_distances i j = 0) : usedMS s = 0 := by
  unfold usedMS
  rw [Multiset.filter_coe]
  have : ((seqIdxPairs (molIdxs s)).map
      (fun p => mget s.pmx_used_distances p.1 p.2)).filter (fun u => decide (0 < u)) = [] := by
    rw [List.filter_eq_nil]
    intro a ha
    rcases List.mem_map.mp ha with ⟨p, _, rfl⟩
    rw [h p.1 p.2]
    simp
  rw [this]
  rfl

/-! #### Write folds along a single matrix row -/

/-- A fold of single-row writes as a `msetFold`. -/
theorem rowFold_eq_msetFold (slot : ℕ) (ws : List (ℕ × ℚ)) (m : SymMat) :
    ws.foldl (fun m2 w => mset m2 slot w.1 w.2) m
      = msetFold m (ws.map (fun w => ((slot, w.1), w.2))) := by
  induction ws generalizing m with
  | nil => rfl
  | cons w t ih => simp only [List.foldl_cons, List.map_cons, msetFold_cons, ih]

theorem rowWrites_keys_distinct (slot : ℕ) (ws : List (ℕ × ℚ))
    (hnd : (ws.map (·.1)).Nodup) (hs : ∀ w ∈ ws, w.1 ≠ slot) :
    (ws.map (fun w => ((slot, w.1), w.2))).Pairwise (fun w w' => wkey w ≠ wkey w') := by
  rw [List.pairwise_map]
  have hnd2 : ws.Pairwise (fun w w' => w.1 ≠ w'.1) := by
    have := hnd
    rw [List.Nodup, List.pairwise_map] at this
    exact this
  refine List.Pairwise.imp_of_mem ?_ hnd2
  intro w w' hw hw' hne hk
  exact hne (pidx_row_injective slot w.1 w'.1 (hs w hw) (hs w' hw') hk)

/-- Reads of a row-write fold away from the written keys. -/
theorem mget_rowFold_of_ne (slot : ℕ) (ws : List (ℕ × ℚ)) (m : SymMat) (a b : ℕ)
    (h : ∀ w ∈ ws, pidx a b ≠ pidx slot w.1) :
    mget (ws.foldl (fun m2 w => mset m2 slot w.1 w.2) m) a b = mget m a b := by
  rw [rowFold_eq_msetFold]
  refine mget_msetFold_of_not_mem _ _ _ _ ?_
  intro w' hw'
  rcases List.mem_map.mp hw' with ⟨w, hw, rfl⟩
  exact h w hw

/-- Reading every written key back after a distinct-key row-write fold. -/
theorem rowFold_reads (slot : ℕ) (ws : List (ℕ × ℚ)) (m : SymMat)
    (hnd : (ws.map (·.1)).Nodup) (hs : ∀ w ∈ ws, w.1 ≠ slot) :
    ∀ w0 ∈ ws, mget (ws.foldl (fun m2 w => mset m2 slot w.1 w.2) m) slot w0.1 = w0.2 := by
  intro w0 hw0
  rw [rowFold_eq_msetFold]
  exact mget_msetFold_of_mem _ m ((slot, w0.1), w0.2)
    (List.mem_map.mpr ⟨w0, hw0, rfl⟩) (rowWrites_keys_distinct slot ws hnd hs) _ _ rfl

/-- Writing positive values at distinct fresh row keys whose previous
entries are zero: the positive-filtered reads over the row equal exactly
the written values. -/
theorem rowFold_filter (slot : ℕ) (idl : List ℕ) (ws : List (ℕ × ℚ)) (m : SymMat)
    (hnd : idl.Nodup) (hslot : slot ∉ idl)
    (h0 : ∀ j ∈ idl, mget m slot j = 0)
    (hwnd : (ws.map (·.1)).Nodup)
    (hw : ∀ w ∈ ws, w.1 ∈ idl ∧ 0 < w.2) :
    (((idl.map (fun j => mget (ws.foldl (fun m2 w => mset m2 slot w.1 w.2) m) slot j)).filter
        (fun u => decide (0 < u)) : List ℚ) : Multiset ℚ)
      = ((ws.map (·.2) : List ℚ) : Multiset ℚ) := by
  induction ws with
  | nil =>
      simp only [List.foldl_nil, List.map_nil]
      have hflt : (idl.map (fun j => mget m slot j)).filter (fun u => decide (0 < u)) = [] := by
        rw [List.filter_eq_nil]
        intro a ha
        rcases List.mem_map.mp ha with ⟨j, hj, rfl⟩
        rw [h0 j hj]
        simp
      rw [hflt]
  | cons w rest ih =>
      have hw1 : w.1 ∈ idl := (hw w (List.mem_cons_self w rest)).1
      have hv : 0 < w.2 := (hw w (List.mem_cons_self w rest)).2
      have hwrest : ∀ w' ∈ rest, w'.1 ∈ idl ∧ 0 < w'.2 :=
        fun w' hw' => hw w' (List.mem_cons_of_mem w hw')
      simp only [List.map_cons] at hwnd
      have hndrest : (rest.map (·.1)).Nodup := (List.nodup_cons.mp hwnd).2
      have hwnotin : w.1 ∉ rest.map (·.1) := (List.nodup_cons.mp hwnd).1
      have hsl : ∀ w' ∈ rest, w'.1 ≠ slot :=
        fun w' hw' he => hslot (he ▸ (hwrest w' hw').1)
      have hnotkey : ∀ j, j ∈ idl → j ∉ rest.map (·.1) →
          ∀ w' ∈ rest, pidx slot j ≠ pidx slot w'.1 := by
        intro j hj hjn w' hw' hk
        exact hjn (List.mem_map.mpr ⟨w', hw',
          (pidx_row_injective slot w'.1 j (hsl w' hw')
            (fun he => hslot (he ▸ hj)) hk.symm)⟩)
      set m1 := mset m slot w.1 w.2 with hm1
      have hf : mget (rest.foldl (fun m2 w' => mset m2 slot w'.1 w'.2) m1) slot w.1 = w.2 := by
        rw [mget_rowFold_of_ne slot rest m1 slot w.1 (hnotkey w.1 hw1 hwnotin), hm1]
        exact mget_mset_self m slot w.1 w.2
      have hg : mget (rest.foldl (fun m2 w' => mset m2 slot w'.1 w'.2) m) slot w.1 = 0 := by
        rw [mget_rowFold_of_ne slot rest m slot w.1 (hnotkey w.1 hw1 hwnotin)]
        exact h0 w.1 hw1
      have heq : ∀ j ∈ idl, j ≠ w.1 →
          mget (rest.foldl (fun m2 w' => mset m2 slot w'.1 w'.2) m1) slot j
            = mget (rest.foldl (fun m2 w' => mset m2 slot w'.1 w'.2) m) slot j := by
        intro j hj hjw
        by_cases hmem : j ∈ rest.map (·.1)
        · rcases List.mem_map.mp hmem with ⟨w', hw', rfl⟩
          rw [rowFold_reads slot rest m1 hndrest hsl w' hw',
              rowFold_reads slot rest m hndrest hsl w' hw']
        · rw [mget_rowFold_of_ne slot rest m1 slot j (hnotkey j hj hmem),
              mget_rowFold_of_ne slot rest m slot j (hnotkey j hj hmem), hm1]
          refine mget_mset_of_ne m slot w.1 w.2 slot j ?_
          intro hk
          exact hjw (pidx_row_injective slot j w.1
            (fun he => hslot (he ▸ hj)) (fun he => hslot (he ▸ hw1)) hk)
      have hupd := filter_multiset_update idl
        (fun j => mget (rest.foldl (fun m2 w' => mset m2 slot w'.1 w'.2) m1) slot j)
        (fun j => mget (rest.foldl (fun m2 w' => mset m2 slot w'.1 w'.2) m) slot j)
        w.1 w.2 hv hw1 hnd heq hf hg
      simp only [List.foldl_cons, ← hm1]
      rw [hupd, ih hndrest hwrest, List.map_cons, Multiset.cons_coe]

/-- A property preserved by a row-write fold. -/
theorem mget_rowFold_prop (Q : ℕ → ℕ → ℚ → Prop) (slot : ℕ) (ws : List (ℕ × ℚ))
    (m : SymMat) (hm : ∀ a b, Q a b (mget m a b))
    (hws : ∀ w ∈ ws, ∀ a b, pidx a b = pidx slot w.1 → Q a b w.2) :
    ∀ a b, Q a b (mget (ws.foldl (fun m2 w => mset m2 slot w.1 w.2) m) a b) := by
  rw [rowFold_eq_msetFold]
  refine mget_msetFold_prop Q _ m hm ?_
  intro w' hw' a b hk
  rcases List.mem_map.mp hw' with ⟨w, hw, rfl⟩
  exact hws w hw a b hk

/-- Reads at keys that avoid the written row entirely are unchanged. -/
theorem mget_rowFold_off_row (slot : ℕ) (ws : List (ℕ × ℚ)) (m : SymMat) (a b : ℕ)
    (ha : a ≠ slot) (hb : b ≠ slot) :
    mget (ws.foldl (fun m2 w => mset m2 slot w.1 w.2) m) a b = mget m a b := by
  refine mget_rowFold_of_ne slot ws m a b ?_
  intro w _ hk
  rcases (pidx_eq_iff a b slot w.1).mp hk with ⟨h1, _⟩ | ⟨_, h2⟩
  · exact ha h1
  · exact hb h2

/-- A single-row write fold over atoms, zero values, in pair form. -/
theorem foldl_rowZero_map {α : Type} (slot : ℕ) (l : List (AtomM α)) (m : SymMat) :
    l.foldl (fun m2 b => mset m2 slot b.pmxidx 0) m
      = (l.map (fun b => (b.pmxidx, (0 : ℚ)))).foldl (fun m2 w => mset m2 slot w.1 w.2) m := by
  induction l generalizing m with
  | nil => rfl
  | cons b t ih => simp only [List.foldl_cons, List.map_cons, ih]

/-! ### Preservation: Pop -/

theorem PopM_effect {α : Type} (eps : ℚ) (s s2 : Mol α) (aidx : ℕ) (h : WF s)
    (heps : 0 ≤ eps) (hres : PopM eps s aidx = .ok s2) :
    WF s2 ∧ s2.distreuse = s.distreuse ∧ s2.maxAtomCount = s.maxAtomCount ∧
    s2.pmx_partial_costs = s.pmx_partial_costs ∧
    molIdxs s2 = eraseAt aidx (molIdxs s) ∧
    s2.badness = snapBad eps (s.badness
      - (pairSum s.pmx_partial_costs (molIdxs s)
          - pairSum s.pmx_partial_costs (molIdxs s2))) ∧
    usedMS s2 = Multiset.filter (fun u => 0 < u)
      (((seqIdxPairs (molIdxs s2)).map
        (fun p => mget s.pmx_used_distances p.1 p.2) : List ℚ) : Multiset ℚ) ∧
    (s.distreuse = false → (s2.dtable : Multiset ℚ) + usedMS s2
        = (s.dtable : Multiset ℚ) + usedMS s) ∧
    (s.distreuse = true → s2.dtable = s.dtable ∧
        s2.pmx_used_distances = s.pmx_used_distances) := by
  unfold PopM at hres
  by_cases haidx : aidx < s.atoms.length
  case neg =>
    rw [dif_neg haidx] at hres
    exact absurd hres (by simp)
  rw [dif_pos haidx] at hres
  simp only [Except.ok.injEq] at hres
  -- shared abbreviations and facts
  have hnd := h.parts_nodup.1
  have hmil : aidx < (molIdxs s).length := by rw [length_molIdxs]; exact haidx
  set pa := s.atoms.get ⟨aidx, haidx⟩ with hpa
  have hk : (molIdxs s).getD aidx 0 = pa.pmxidx := getD_map_pmxidx s.atoms aidx haidx
  have hkmem : pa.pmxidx ∈ molIdxs s := by
    rw [← hk]
    exact getD_mem _ _ _ hmil
  set rest := eraseAt aidx (molIdxs s) with hrest
  have hknotrest : pa.pmxidx ∉ rest := by
    rw [hrest, ← hk]
    exact getD_not_mem_eraseAt _ _ _ hnd hmil
  have hrestnd : rest.Nodup := nodup_eraseAt _ _ hnd
  have hperm : (molIdxs s).Perm (pa.pmxidx :: rest) := by
    rw [hrest, ← hk]
    exact perm_cons_eraseAt aidx (molIdxs s) 0 hmil
  have hoth : (eraseAt aidx s.atoms).map (·.pmxidx) = rest :=
    map_eraseAt (·.pmxidx) aidx s.atoms
  have hothmem : ∀ j ∈ rest, ∃ b ∈ eraseAt aidx s.atoms, b.pmxidx = j := by
    intro j hj
    rw [← hoth] at hj
    rcases List.mem_map.mp hj with ⟨b, hb, rfl⟩
    exact ⟨b, hb, rfl⟩
  have hrestk : ∀ j ∈ molIdxs s, j ≠ pa.pmxidx → j ∈ rest := by
    intro j hj hne
    rw [hrest]
    exact mem_eraseAt_of_ne aidx (molIdxs s) 0 j hj (by rw [hk]; exact hne)
  -- the updated atom list
  set A2 := (eraseAt aidx s.atoms).map (fun b =>
      { b with abad := b.abad - mget s.pmx_partial_costs pa.pmxidx b.pmxidx / 2 }) with hA2
  have hA2idx : A2.map (·.pmxidx) = rest := by
    rw [hA2, molIdxs_map_abad, hoth]
  have hA2len : A2.length = s.atoms.length - 1 := by
    rw [hA2, List.length_map, length_eraseAt _ _ haidx]
  -- the popped total against the pair sum
  have hpopT : ((eraseAt aidx s.atoms).map
      (fun b => mget s.pmx_partial_costs pa.pmxidx b.pmxidx)).sum
      = (rest.map (fun j => mget s.pmx_partial_costs pa.pmxidx j)).sum := by
    rw [← hoth, List.map_map]
    rfl
  have hps : pairSum s.pmx_partial_costs (molIdxs s)
      = pairSum s.pmx_partial_costs rest
        + (rest.map (fun j => mget s.pmx_partial_costs pa.pmxidx j)).sum := by
    rw [hrest, pairSum_eraseAt s.pmx_partial_costs (molIdxs s) aidx hmil, hk]
  -- atom badness rows after the erase
  have habad : ∀ b ∈ eraseAt aidx s.atoms,
      2 * (b.abad - mget s.pmx_partial_costs pa.pmxidx b.pmxidx / 2)
        = rowSum s.pmx_partial_costs b.pmxidx rest := by
    intro b hb
    have hb2 : b ∈ s.atoms := mem_of_mem_eraseAt hb
    have h1 := h.abad_eq b hb2
    have hbk : b.pmxidx ∈ rest := by
      rw [← hoth]
      exact List.mem_map.mpr ⟨b, hb, rfl⟩
    have hbne : pa.pmxidx ≠ b.pmxidx := fun he => hknotrest (he ▸ hbk)
    have h2 := rowSum_eraseAt s.pmx_partial_costs b.pmxidx (molIdxs s) aidx hmil
    rw [hk, if_neg hbne, mget_comm, ← hrest] at h2
    linarith [h1, h2]
  -- the freed slot
  have hfreenotin : pa.pmxidx ∉ s.free_pmx_slots := h.parts_nodup.2.2 _ hkmem
  have hins := insertSlot_perm pa.pmxidx s.free_pmx_slots hfreenotin
  have hinslen : (insertSlot pa.pmxidx s.free_pmx_slots).length
      = s.free_pmx_slots.length + 1 := by
    rw [hins.length_eq]
    rfl
  have hslots : (rest ++ insertSlot pa.pmxidx s.free_pmx_slots).Perm
      (List.range (s.atoms.length + s.free_pmx_slots.length)) := by
    have h1 : (rest ++ insertSlot pa.pmxidx s.free_pmx_slots).Perm
        (rest ++ (pa.pmxidx :: s.free_pmx_slots)) := (List.Perm.refl _).append hins
    have h2 : (rest ++ (pa.pmxidx :: s.free_pmx_slots)).Perm
        (pa.pmxidx :: (rest ++ s.free_pmx_slots)) := List.perm_middle
    have h3 : (pa.pmxidx :: (rest ++ s.free_pmx_slots)).Perm
        (molIdxs s ++ s.free_pmx_slots) := by
      have := (hperm.symm).append_right s.free_pmx_slots
      simpa using this
    exact ((h1.trans h2).trans h3).trans h.slots_perm
  have hrange : s.atoms.length - 1 + (s.free_pmx_slots.length + 1)
      = s.atoms.length + s.free_pmx_slots.length := by omega
  -- case split on distance reuse
  by_cases hdr : s.distreuse = true
  · -- distances reused: table and used matrix untouched
    simp only [hdr, if_true] at hres
    have hz := h.reuse_used_zero hdr
    have hat : s2.atoms = A2 := by rw [← hres]
    have hcost : s2.pmx_partial_costs = s.pmx_partial_costs := by rw [← hres]
    have huse : s2.pmx_used_distances = s.pmx_used_distances := by rw [← hres]
    have hfree : s2.free_pmx_slots = insertSlot pa.pmxidx s.free_pmx_slots := by
      rw [← hres]
    have htbl : s2.dtable = s.dtable := by rw [← hres]
    have hbadf : s2.badness = snapBad eps (s.badness - ((eraseAt aidx s.atoms).map
        (fun b => mget s.pmx_partial_costs pa.pmxidx b.pmxidx)).sum) := by rw [← hres]
    have hdr2 : s2.distreuse = true := by rw [← hres]
    have hmaxc : s2.maxAtomCount = s.maxAtomCount := by rw [← hres]
    have hmi : molIdxs s2 = rest := by
      unfold molIdxs
      rw [hat, hA2idx]
    have hlen2 : s2.atoms.length = s.atoms.length - 1 := by rw [hat, hA2len]
    refine ⟨⟨?_, ?_, ?_, ?_, ?_, ?_, ?_, ?_, ?_, ?_, ?_⟩,
      hdr2.trans hdr.symm, hmaxc, hcost, hmi, ?_, ?_, ?_, fun _ => ⟨htbl, huse⟩⟩
    · rw [hmi, hfree, hlen2, hinslen, hrange]
      exact hslots
    · intro i j hne
      rw [huse] at hne
      exact absurd (hz i j) hne
    · intro i j
      rw [huse, hz i j]
    · intro _ i j
      rw [huse]
      exact hz i j
    · intro i j
      rw [hcost]
      exact h.cost_nonneg i j
    · rw [htbl]
      exact h.tbl_sorted
    · rw [htbl]
      exact h.tbl_pos
    · rw [hbadf]
      exact snapBad_nonneg _ _ heps
    · rw [hbadf, hcost, hmi]
      refine snapBad_le _ _ _ ?_ (pairSum_nonneg _ _ h.cost_nonneg)
      have hb := h.bad_le
      rw [hps] at hb
      rw [hpopT]
      linarith
    · intro a ha
      rw [hat, hA2] at ha
      rw [hcost, hmi]
      rcases List.mem_map.mp ha with ⟨b, hb, rfl⟩
      exact habad b hb
    · rw [hlen2, hmaxc]
      have := h.count_le
      omega
    · rw [hbadf, hmi]
      congr 1
      rw [hpopT, hps]
      ring
    · unfold usedMS
      rw [hmi, huse]
    · intro hf
      exact absurd hdr (by simp [hf])
  · -- distances not reused: zero the row, return the positive entries
    have hdr' : s.distreuse = false := by simpa using hdr
    simp only [hdr', Bool.false_eq_true, if_false] at hres
    have hat : s2.atoms = A2 := by rw [← hres]
    have hcost : s2.pmx_partial_costs = s.pmx_partial_costs := by rw [← hres]
    have huse : s2.pmx_used_distances = (eraseAt aidx s.atoms).foldl
        (fun m2 b => mset m2 pa.pmxidx b.pmxidx 0) s.pmx_used_distances := by rw [← hres]
    have hfree : s2.free_pmx_slots = insertSlot pa.pmxidx s.free_pmx_slots := by
      rw [← hres]
    have htbl : s2.dtable = (eraseAt aidx s.atoms).foldl
        (fun t b => if 0 < mget s.pmx_used_distances pa.pmxidx b.pmxidx then
          return_back t (mget s.pmx_used_distances pa.pmxidx b.pmxidx) else t)
        s.dtable := by rw [← hres]
    have hbadf : s2.badness = snapBad eps (s.badness - ((eraseAt aidx s.atoms).map
        (fun b => mget s.pmx_partial_costs pa.pmxidx b.pmxidx)).sum) := by rw [← hres]
    have hdr2 : s2.distreuse = false := by rw [← hres]
    have hmaxc : s2.maxAtomCount = s.maxAtomCount := by rw [← hres]
    have hmi : molIdxs s2 = rest := by
      unfold molIdxs
      rw [hat, hA2idx]
    have hlen2 : s2.atoms.length = s.atoms.length - 1 := by rw [hat, hA2len]
    -- the used-row zeroing fold in row-write pair form
    set wsu := (eraseAt aidx s.atoms).map (fun b => (b.pmxidx, (0 : ℚ))) with hwsu
    have hufold : (eraseAt aidx s.atoms).foldl
        (fun m2 b => mset m2 pa.pmxidx b.pmxidx 0) s.pmx_used_distances
        = wsu.foldl (fun m2 w => mset m2 pa.pmxidx w.1 w.2) s.pmx_used_distances := by
      rw [hwsu]
      exact foldl_rowZero_map pa.pmxidx (eraseAt aidx s.atoms) s.pmx_used_distances
    have hwsu1 : wsu.map (·.1) = rest := by
      rw [hwsu, List.map_map, ← hoth]
      rfl
    have hwsund : (wsu.map (·.1)).Nodup := by
      rw [hwsu1]
      exact hrestnd
    have hwsuslot : ∀ w ∈ wsu, w.1 ≠ pa.pmxidx := by
      intro w hw he
      rw [hwsu] at hw
      rcases List.mem_map.mp hw with ⟨b, hb, rfl⟩
      refine hknotrest ?_
      rw [← he, ← hoth]
      exact List.mem_map.mpr ⟨b, hb, rfl⟩
    have hwsumem : ∀ j ∈ rest, (j, (0 : ℚ)) ∈ wsu := by
      intro j hj
      rcases hothmem j hj with ⟨b, hb, rfl⟩
      rw [hwsu]
      exact List.mem_map.mpr ⟨b, hb, rfl⟩
    have hread_off : ∀ i j, i ≠ pa.pmxidx → j ≠ pa.pmxidx →
        mget (wsu.foldl (fun m2 w => mset m2 pa.pmxidx w.1 w.2) s.pmx_used_distances) i j
          = mget s.pmx_used_distances i j := by
      intro i j hi hj
      exact mget_rowFold_off_row pa.pmxidx wsu s.pmx_used_distances i j hi hj
    -- the working-table fold in value form
    have htfold : (eraseAt aidx s.atoms).foldl
        (fun t b => if 0 < mget s.pmx_used_distances pa.pmxidx b.pmxidx then
          return_back t (mget s.pmx_used_distances pa.pmxidx b.pmxidx) else t) s.dtable
        = (((eraseAt aidx s.atoms).map
            (fun b => mget s.pmx_used_distances pa.pmxidx b.pmxidx)).foldl
            (fun t u => if 0 < u then return_back t u else t) s.dtable) :=
      foldl_table_map _ _ _
    have hvals : (eraseAt aidx s.atoms).map
        (fun b => mget s.pmx_used_distances pa.pmxidx b.pmxidx)
        = rest.map (fun j => mget s.pmx_used_distances pa.pmxidx j) := by
      rw [← hoth, List.map_map]
      rfl
    obtain ⟨htms, htsort⟩ := insertPosFold
      (rest.map (fun j => mget s.pmx_used_distances pa.pmxidx j)) s.dtable
    have hu2 : usedMS s2 = Multiset.filter (fun u => 0 < u)
        (((seqIdxPairs rest).map
          (fun p => mget s.pmx_used_distances p.1 p.2) : List ℚ) : Multiset ℚ) := by
      unfold usedMS
      rw [hmi, huse, hufold]
      congr 1
      refine congrArg _ (List.map_congr_left ?_)
      intro p hp
      obtain ⟨hp1, hp2⟩ := mem_seqIdxPairs rest p hp
      exact hread_off p.1 p.2 (fun he => hknotrest (he ▸ hp1))
        (fun he => hknotrest (he ▸ hp2))
    refine ⟨⟨?_, ?_, ?_, ?_, ?_, ?_, ?_, ?_, ?_, ?_, ?_⟩,
      hdr2.trans hdr'.symm, hmaxc, hcost, hmi, ?_, ?_, ?_, ?_⟩
    · rw [hmi, hfree, hlen2, hinslen, hrange]
      exact hslots
    · -- nonzero entries of the zeroed matrix sit on live pairs
      intro i j hne
      rw [huse, hufold] at hne
      by_cases hcol : ∃ w ∈ wsu, pidx i j = pidx pa.pmxidx w.1
      · exfalso
        obtain ⟨w, hw, hcolk⟩ := hcol
        have hwz : w.2 = 0 := by
          rw [hwsu] at hw
          rcases List.mem_map.mp hw with ⟨b, _, rfl⟩
          rfl
        have hrd := mget_msetFold_of_mem (wsu.map (fun w => ((pa.pmxidx, w.1), w.2)))
          s.pmx_used_distances ((pa.pmxidx, w.1), w.2)
          (List.mem_map.mpr ⟨w, hw, rfl⟩)
          (rowWrites_keys_distinct pa.pmxidx wsu hwsund hwsuslot) i j hcolk
        rw [rowFold_eq_msetFold, hrd, hwz] at hne
        exact hne rfl
      · have hr : mget (wsu.foldl (fun m2 w => mset m2 pa.pmxidx w.1 w.2)
            s.pmx_used_distances) i j = mget s.pmx_used_distances i j := by
          refine mget_rowFold_of_ne pa.pmxidx wsu s.pmx_used_distances i j ?_
          intro w hw hk2
          exact hcol ⟨w, hw, hk2⟩
        rw [hr] at hne
        obtain ⟨hij, hi, hj⟩ := h.used_live i j hne
        have hipa : i ≠ pa.pmxidx := by
          intro he
          have hjr : j ∈ rest := hrestk j hj (fun hje => hij (he.trans hje.symm))
          exact hcol ⟨(j, 0), hwsumem j hjr, by rw [he]⟩
        have hjpa : j ≠ pa.pmxidx := by
          intro he
          have hir : i ∈ rest := hrestk i hi (fun hie => hij (hie.trans he.symm))
          exact hcol ⟨(i, 0), hwsumem i hir, by rw [he, pidx_comm]⟩
        rw [hmi]
        exact ⟨hij, hrestk i hi hipa, hrestk j hj hjpa⟩
    · -- entries stay non-negative
      intro i j
      rw [huse, hufold]
      refine mget_rowFold_prop (fun _ _ v => 0 ≤ v) pa.pmxidx wsu s.pmx_used_distances
        h.used_nonneg ?_ i j
      intro w hw a b _
      have hwz : w.2 = 0 := by
        rw [hwsu] at hw
        rcases List.mem_map.mp hw with ⟨b2, _, rfl⟩
        rfl
      rw [hwz]
    · intro hf
      exact absurd hf (by simp [hdr2])
    · intro i j
      rw [hcost]
      exact h.cost_nonneg i j
    · rw [htbl, htfold, hvals]
      exact htsort h.tbl_sorted
    · intro x hx
      rw [htbl, htfold, hvals] at hx
      have hx2 : x ∈ ((((rest.map (fun j => mget s.pmx_used_distances pa.pmxidx j)).foldl
          (fun t u => if 0 < u then return_back t u else t) s.dtable : List ℚ)) : Multiset ℚ) := by
        simpa using hx
      rw [htms] at hx2
      rcases Multiset.mem_add.mp hx2 with hx3 | hx3
      · exact h.tbl_pos x (by simpa using hx3)
      · have hx4 : x ∈ (rest.map (fun j => mget s.pmx_used_distances pa.pmxidx j)).filter
            (fun u => decide (0 < u)) := by simpa using hx3
        simpa using List.of_mem_filter hx4
    · rw [hbadf]
      exact snapBad_nonneg _ _ heps
    · rw [hbadf, hcost, hmi]
      refine snapBad_le _ _ _ ?_ (pairSum_nonneg _ _ h.cost_nonneg)
      have hb := h.bad_le
      rw [hps] at hb
      rw [hpopT]
      linarith
    · intro a ha
      rw [hat, hA2] at ha
      rw [hcost, hmi]
      rcases List.mem_map.mp ha with ⟨b, hb, rfl⟩
      exact habad b hb
    · rw [hlen2, hmaxc]
      have := h.count_le
      omega
    · rw [hbadf, hmi]
      congr 1
      rw [hpopT, hps]
      ring
    · rw [hmi]
      exact hu2
    · -- conservation of the table-plus-used multiset
      intro _
      rw [htbl, htfold, hvals, hu2, usedMS_cons_split s pa.pmxidx rest hperm, htms]
      simp only [Multiset.filter_coe]
      abel
    · intro hf
      exact absurd (hf ▸ hdr') (by simp)

/-! ### Helpers for the Add effect -/

theorem get_append_length {β : Type _} (l : List β) (x : β)
    (h : l.length < (l ++ [x]).length) : (l ++ [x]).get ⟨l.length, h⟩ = x := by
  induction l with
  | nil => rfl
  | cons y t ih => exact ih (by simpa using Nat.lt_of_succ_lt_succ (by simpa using h))

/-- The pair-cost writes of `addNewAtomPairs` as a row-write fold. -/
theorem foldl_costWrite_map {α : Type} (slot : ℕ) (l : List (AtomM α × ℚ)) (m : SymMat) :
    l.foldl (fun m2 bc => mset m2 slot bc.1.pmxidx bc.2) m
      = (l.map (fun bc => (bc.1.pmxidx, bc.2))).foldl (fun m2 w => mset m2 slot w.1 w.2) m := by
  induction l generalizing m with
  | nil => rfl
  | cons b t ih => simp only [List.foldl_cons, List.map_cons, ih]

/-- The used-distance writes of `addNewAtomPairs` as a row-write fold. -/
theorem foldl_useWrite_map (slot : ℕ) (idl : List ℕ) (tbl : List ℚ)
    (us : List (ℕ × ℕ)) (m : SymMat) :
    us.foldl (fun m2 ati => mset m2 slot (idl.getD ati.1 0) (tbl.getD ati.2 0)) m
      = (us.map (fun ati => (idl.getD ati.1 0, tbl.getD ati.2 0))).foldl
          (fun m2 w => mset m2 slot w.1 w.2) m := by
  induction us generalizing m with
  | nil => rfl
  | cons b t ih => simp only [List.foldl_cons, List.map_cons, ih]

/-- Sorting distinct naturals in descending order yields a strictly
descending chain. -/
theorem sorted_desc_pairwise_gt (l : List ℕ) (hnd : l.Nodup) :
    (List.insertionSort (· ≥ ·) l).Pairwise (· > ·) := by
  have hs : (List.insertionSort (· ≥ ·) l).Pairwise (· ≥ ·) :=
    List.sorted_insertionSort _ _
  have hnd2 : (List.insertionSort (· ≥ ·) l).Nodup :=
    (List.perm_insertionSort _ _).nodup_iff.mpr hnd
  have hand := List.Pairwise.and hs hnd2
  refine hand.imp ?_
  intro a b hab
  omega

/-- The stable index projection through a `zipWith` badness update. -/
theorem map_pmxidx_zipWith {α : Type} (l : List (AtomM α)) (ps : List ℚ)
    (hlen : l.length = ps.length) :
    (l.zipWith (fun b c => { b with abad := b.abad + c / 2 }) ps).map (·.pmxidx)
      = l.map (·.pmxidx) := by
  induction l generalizing ps with
  | nil => rfl
  | cons b t ih =>
      cases ps with
      | nil => simp at hlen
      | cons c cs =>
          simp only [List.zipWith_cons_cons, List.map_cons]
          rw [ih cs (by simpa using hlen)]

/-- A `zipWith` over equal-length lists as a map over the zip. -/
theorem zipWith_eq_map_zip {α : Type} (l : List (AtomM α)) (ps : List ℚ) :
    l.zipWith (fun b c => { b with abad := b.abad + c / 2 }) ps
      = (l.zip ps).map (fun bc => { bc.1 with abad := bc.1.abad + bc.2 / 2 }) := by
  induction l generalizing ps with
  | nil => rfl
  | cons b t ih =>
      cases ps with
      | nil => rfl
      | cons c cs =>
          simp only [List.zipWith_cons_cons, List.zip_cons_cons, List.map_cons]
          rw [ih cs]

/-! ### Preservation: addNewAtomPairs -/

theorem addNewAtomPairs_effect {α : Type} (dist : α → α → ℚ) (eps tol : ℚ)
    (s s1 : Mol α) (apos : α) (h : WF s) (heps : 0 ≤ eps)
    (hcap : s.atoms.length < s.maxAtomCount)
    (hres : addNewAtomPairsM dist eps tol s apos = .ok s1) :
    WF s1 ∧ s1.distreuse = s.distreuse ∧ s1.maxAtomCount = s.maxAtomCount ∧
    molIdxs s1 = molIdxs s ++ [(getPairMatrixIndex s).1] ∧
    (∃ A pa, s1.atoms = A ++ [pa] ∧ A.map (·.pmxidx) = molIdxs s ∧
      pa.pmxidx = (getPairMatrixIndex s).1) ∧
    (∃ S : ℚ, 0 ≤ S ∧ s1.badness = snapBad eps (s.badness + S) ∧
      pairSum s1.pmx_partial_costs (molIdxs s1)
        = pairSum s.pmx_partial_costs (molIdxs s) + S ∧
      pairSum s1.pmx_partial_costs (molIdxs s)
        = pairSum s.pmx_partial_costs (molIdxs s)) ∧
    (∀ i j, i ≠ (getPairMatrixIndex s).1 → j ≠ (getPairMatrixIndex s).1 →
      mget s1.pmx_used_distances i j = mget s.pmx_used_distances i j) ∧
    (s.distreuse = false → (s1.dtable : Multiset ℚ) + usedMS s1
        = (s.dtable : Multiset ℚ) + usedMS s) ∧
    (s.distreuse = true → s1.dtable = s.dtable ∧
        s1.pmx_used_distances = s.pmx_used_distances) := by
  unfold addNewAtomPairsM at hres
  simp only [] at hres
  cases heval : evalAtoms tol s.dtable (s.atoms.map (fun b => dist b.pos apos))
      (List.range s.dtable.length) 0 with
  | none =>
      rw [heval] at hres
      exact absurd hres (by simp)
  | some pu =>
      obtain ⟨ps, us⟩ := pu
      rw [heval] at hres
      simp only [] at hres
      simp only [Except.ok.injEq] at hres
      -- abbreviations
      set slot := (getPairMatrixIndex s).1 with hslot
      have hnd := h.parts_nodup.1
      have hfresh : slot ∉ molIdxs s := slot_fresh s h
      -- specification of the cost evaluation
      obtain ⟨hlenps, hpsnn, husmem, husnd, hussorted⟩ :=
        evalAtoms_spec tol s.dtable (s.atoms.map (fun b => dist b.pos apos))
          (List.range s.dtable.length) 0 ps us (List.nodup_range _) heval
      have hlen : ps.length = s.atoms.length := by simpa using hlenps
      have hus2lt : ∀ x ∈ us, x.2 < s.dtable.length := by
        intro x hx
        exact List.mem_range.mp (husmem x hx).1
      have hus1lt : ∀ x ∈ us, x.1 < s.atoms.length := by
        intro x hx
        have := (husmem x hx).2.2
        simpa using this
      have hus1nd : (us.map (·.1)).Nodup :=
        List.Pairwise.imp (fun hab => Nat.ne_of_lt hab) hussorted
      have h0used : ∀ j, mget s.pmx_used_distances slot j = 0 := by
        intro j
        by_contra hne
        exact hfresh (h.used_live slot j hne).2.1
      -- the pair-cost writes
      set Wc := (s.atoms.zip ps).map (fun bc => (bc.1.pmxidx, bc.2)) with hWc
      have hcfold : (s.atoms.zip ps).foldl (fun m bc => mset m slot bc.1.pmxidx bc.2)
          s.pmx_partial_costs
          = Wc.foldl (fun m2 w => mset m2 slot w.1 w.2) s.pmx_partial_costs := by
        rw [hWc]
        exact foldl_costWrite_map slot (s.atoms.zip ps) s.pmx_partial_costs
      set cost1 := Wc.foldl (fun m2 w => mset m2 slot w.1 w.2) s.pmx_partial_costs
        with hcost1
      have hWc1 : Wc.map (·.1) = molIdxs s := by
        rw [hWc, List.map_map]
        have h2 : ((fun w : ℕ × ℚ => w.1) ∘ (fun bc : AtomM α × ℚ => (bc.1.pmxidx, bc.2)))
            = ((fun b : AtomM α => b.pmxidx) ∘ Prod.fst) := rfl
        rw [h2, ← List.map_map, List.map_fst_zip s.atoms ps (by omega)]
        rfl
      have hWcslot : ∀ w ∈ Wc, w.1 ≠ slot := by
        intro w hw he
        apply hfresh
        rw [← he, ← hWc1]
        exact List.mem_map.mpr ⟨w, hw, rfl⟩
      have hWcnd : (Wc.map (·.1)).Nodup := by
        rw [hWc1]
        exact hnd
      have hWc2 : Wc.map (·.2) = ps := by
        rw [hWc, List.map_map]
        have h2 : ((fun w : ℕ × ℚ => w.2) ∘ (fun bc : AtomM α × ℚ => (bc.1.pmxidx, bc.2)))
            = (Prod.snd : AtomM α × ℚ → ℚ) := rfl
        rw [h2, List.map_snd_zip s.atoms ps (by omega)]
      have hreadsW : Wc.map (fun w => mget cost1 slot w.1) = Wc.map (·.2) :=
        List.map_congr_left (fun w hw =>
          rowFold_reads slot Wc s.pmx_partial_costs hWcnd hWcslot w hw)
      have hreads : (molIdxs s).map (fun j => mget cost1 slot j) = ps := by
        calc (molIdxs s).map (fun j => mget cost1 slot j)
            = (Wc.map (·.1)).map (fun j => mget cost1 slot j) := by rw [hWc1]
          _ = Wc.map (fun w => mget cost1 slot w.1) := by rw [List.map_map]; rfl
          _ = Wc.map (·.2) := hreadsW
          _ = ps := hWc2
      have hcost_nn : ∀ i j, 0 ≤ mget cost1 i j := by
        refine mget_rowFold_prop (fun _ _ v => 0 ≤ v) slot Wc s.pmx_partial_costs
          h.cost_nonneg ?_
        intro w hw a b _
        rw [hWc] at hw
        rcases List.mem_map.mp hw with ⟨bc, hbc, rfl⟩
        exact hpsnn _ (List.of_mem_zip hbc).2
      have hcostoff : ∀ p ∈ seqIdxPairs (molIdxs s),
          mget cost1 p.1 p.2 = mget s.pmx_partial_costs p.1 p.2 := by
        intro p hp
        obtain ⟨hp1, hp2⟩ := mem_seqIdxPairs _ p hp
        exact mget_rowFold_off_row slot Wc s.pmx_partial_costs p.1 p.2
          (fun he => hfresh (he ▸ hp1)) (fun he => hfresh (he ▸ hp2))
      have hpair0 : pairSum cost1 (molIdxs s) = pairSum s.pmx_partial_costs (molIdxs s) :=
        pairSum_congr _ _ _ hcostoff
      have hrowslot : rowSum cost1 slot (molIdxs s) = ps.sum := by
        unfold rowSum
        have hmc : (molIdxs s).map (fun j => if j = slot then 0 else mget cost1 slot j)
            = (molIdxs s).map (fun j => mget cost1 slot j) :=
          List.map_congr_left (fun j hj => by
            rw [if_neg (fun he => hfresh (by rw [← he]; exact hj))])
        rw [hmc, hreads]
      have hpair1 : pairSum cost1 (molIdxs s ++ [slot])
          = pairSum s.pmx_partial_costs (molIdxs s) + ps.sum := by
        rw [pairSum_append_single, hpair0]
        have hmm : (molIdxs s).map (fun i => mget cost1 i slot)
            = (molIdxs s).map (fun j => mget cost1 slot j) :=
          List.map_congr_left (fun i _ => mget_comm _ _ _)
        rw [hmm, hreads]
      -- the updated atom list
      set A1 := s.atoms.zipWith (fun b c => { b with abad := b.abad + c / 2 }) ps with hA1
      have hA1idx : A1.map (·.pmxidx) = molIdxs s := by
        rw [hA1, map_pmxidx_zipWith s.atoms ps hlen.symm]
        rfl
      have hA1len : A1.length = s.atoms.length := by
        rw [hA1, List.length_zipWith]
        omega
      set paNew : AtomM α := ⟨apos, slot, ps.sum / 2⟩ with hpaNew
      have hmi1 : (A1 ++ [paNew]).map (·.pmxidx) = molIdxs s ++ [slot] := by
        rw [List.map_append, hA1idx]
        rfl
      -- atom badness rows of the grown molecule
      have habad1 : ∀ a ∈ A1 ++ [paNew],
          2 * a.abad = rowSum cost1 a.pmxidx (molIdxs s ++ [slot]) := by
        intro a ha
        rcases List.mem_append.mp ha with ha | ha
        · rw [hA1, zipWith_eq_map_zip] at ha
          rcases List.mem_map.mp ha with ⟨bc, hbc, rfl⟩
          obtain ⟨hbmem, hcmem⟩ := List.of_mem_zip hbc
          have hbidx : bc.1.pmxidx ∈ molIdxs s := List.mem_map.mpr ⟨bc.1, hbmem, rfl⟩
          have hbne : slot ≠ bc.1.pmxidx := fun he => hfresh (by rw [he]; exact hbidx)
          have hread : mget cost1 slot bc.1.pmxidx = bc.2 :=
            rowFold_reads slot Wc s.pmx_partial_costs hWcnd hWcslot
              (bc.1.pmxidx, bc.2) (by rw [hWc]; exact List.mem_map.mpr ⟨bc, hbc, rfl⟩)
          have hrs : rowSum cost1 bc.1.pmxidx (molIdxs s ++ [slot])
              = rowSum cost1 bc.1.pmxidx (molIdxs s) + mget cost1 bc.1.pmxidx slot := by
            rw [rowSum_append_single, if_neg hbne]
          have hrold : rowSum cost1 bc.1.pmxidx (molIdxs s)
              = rowSum s.pmx_partial_costs bc.1.pmxidx (molIdxs s) := by
            refine rowSum_congr _ _ _ _ ?_
            intro j hj hji
            exact mget_rowFold_off_row slot Wc s.pmx_partial_costs bc.1.pmxidx j
              (fun he => hfresh (he ▸ hbidx)) (fun he => hfresh (he ▸ hj))
          have hb := h.abad_eq bc.1 hbmem
          have hcomm : mget cost1 bc.1.pmxidx slot = mget cost1 slot bc.1.pmxidx :=
            mget_comm _ _ _
          show 2 * (bc.1.abad + bc.2 / 2) = _
          rw [hrs, hrold, hcomm, hread]
          linarith
        · have ha2 : a = paNew := by simpa using ha
          subst ha2
          show 2 * (ps.sum / 2) = rowSum cost1 paNew.pmxidx (molIdxs s ++ [slot])
          have hpidx : paNew.pmxidx = slot := rfl
          rw [hpidx, rowSum_append_single, if_pos rfl, hrowslot]
          ring
      -- the slot bookkeeping
      have hslots1 : ((molIdxs s ++ [slot]) ++ (getPairMatrixIndex s).2).Perm
          (List.range ((s.atoms.length + 1) + (getPairMatrixIndex s).2.length)) := by
        cases hfs : s.free_pmx_slots with
        | nil =>
            have hp := h.slots_perm
            rw [hfs] at hp
            simp only [List.append_nil, List.length_nil, Nat.add_zero] at hp
            have hslotval : slot = s.atoms.length := by
              rw [hslot]
              simp [getPairMatrixIndex, hfs]
            have hfree2 : (getPairMatrixIndex s).2 = [] := by
              simp [getPairMatrixIndex, hfs]
            rw [hfree2, hslotval]
            simp only [List.append_nil, List.length_nil, Nat.add_zero]
            rw [List.range_succ]
            exact hp.append_right [s.atoms.length]
        | cons i rest =>
            have hslotval : slot = i := by
              rw [hslot]
              simp [getPairMatrixIndex, hfs]
            have hfree2 : (getPairMatrixIndex s).2 = rest := by
              simp [getPairMatrixIndex, hfs]
            have hp := h.slots_perm
            rw [hfs] at hp
            rw [hfree2, hslotval]
            have harr : s.atoms.length + 1 + rest.length
                = s.atoms.length + (i :: rest).length := by
              simp only [List.length_cons]
              omega
            rw [harr, List.append_assoc]
            exact hp
      -- dispatch on distance reuse
      by_cases hdr : s.distreuse = true
      · -- distances reused: table and used matrix untouched
        simp only [hdr, if_true] at hres
        have hz := h.reuse_used_zero hdr
        have hat : s1.atoms = A1 ++ [paNew] := by rw [← hres]
        have hcost : s1.pmx_partial_costs = cost1 := by rw [← hres]; exact hcfold
        have huse : s1.pmx_used_distances = s.pmx_used_distances := by rw [← hres]
        have hfree : s1.free_pmx_slots = (getPairMatrixIndex s).2 := by rw [← hres]
        have htbl : s1.dtable = s.dtable := by rw [← hres]
        have hbadf : s1.badness = snapBad eps (s.badness + ps.sum) := by rw [← hres]
        have hdr2 : s1.distreuse = true := by rw [← hres]
        have hmaxc : s1.maxAtomCount = s.maxAtomCount := by rw [← hres]
        have hmi : molIdxs s1 = molIdxs s ++ [slot] := by
          unfold molIdxs
          rw [hat, hmi1]
          rfl
        have hlen1 : s1.atoms.length = s.atoms.length + 1 := by
          rw [hat, List.length_append, hA1len]
          rfl
        refine ⟨⟨?_, ?_, ?_, ?_, ?_, ?_, ?_, ?_, ?_, ?_, ?_⟩,
          hdr2.trans hdr.symm, hmaxc, hmi, ⟨A1, paNew, hat, hA1idx, rfl⟩,
          ⟨ps.sum, ?_, ?_, ?_, ?_⟩, ?_, ?_, fun _ => ⟨htbl, huse⟩⟩
        · rw [hmi, hfree, hlen1]
          exact hslots1
        · intro i j hne
          rw [huse] at hne
          exact absurd (hz i j) hne
        · intro i j
          rw [huse, hz i j]
        · intro _ i j
          rw [huse]
          exact hz i j
        · intro i j
          rw [hcost]
          exact hcost_nn i j
        · rw [htbl]
          exact h.tbl_sorted
        · rw [htbl]
          exact h.tbl_pos
        · rw [hbadf]
          exact snapBad_nonneg _ _ heps
        · rw [hbadf, hcost, hmi, hpair1]
          refine snapBad_le _ _ _ ?_ ?_
          · have := h.bad_le
            linarith
          · have h1 := pairSum_nonneg s.pmx_partial_costs (molIdxs s) h.cost_nonneg
            have h2 : 0 ≤ ps.sum := List.sum_nonneg hpsnn
            linarith
        · intro a ha
          rw [hat] at ha
          rw [hcost, hmi]
          exact habad1 a ha
        · rw [hlen1, hmaxc]
          omega
        · exact List.sum_nonneg hpsnn
        · rw [hbadf]
        · rw [hcost, hmi]
          exact hpair1
        · rw [hcost]
          exact hpair0
        · intro i j _ _
          rw [huse]
        · intro hf
          exact absurd hdr (by simp [hf])
      · -- distances not reused
        have hdr' : s.distreuse = false := by simpa using hdr
        simp only [hdr', Bool.false_eq_true, if_false] at hres
        have hat : s1.atoms = A1 ++ [paNew] := by rw [← hres]
        have hcost : s1.pmx_partial_costs = cost1 := by rw [← hres]; exact hcfold
        have huse : s1.pmx_used_distances = us.foldl (fun m ati =>
            mset m slot ((molIdxs s).getD ati.1 0) (s.dtable.getD ati.2 0))
            s.pmx_used_distances := by rw [← hres]
        have hfree : s1.free_pmx_slots = (getPairMatrixIndex s).2 := by rw [← hres]
        have htbl : s1.dtable = (List.insertionSort (· ≥ ·) (us.map (·.2))).foldl
            (fun t i => eraseAt i t) s.dtable := by rw [← hres]
        have hbadf : s1.badness = snapBad eps (s.badness + ps.sum) := by rw [← hres]
        have hdr2 : s1.distreuse = false := by rw [← hres]
        have hmaxc : s1.maxAtomCount = s.maxAtomCount := by rw [← hres]
        have hmi : molIdxs s1 = molIdxs s ++ [slot] := by
          unfold molIdxs
          rw [hat, hmi1]
          rfl
        have hlen1 : s1.atoms.length = s.atoms.length + 1 := by
          rw [hat, List.length_append, hA1len]
          rfl
        -- the used-distance writes
        set Wu := us.map (fun ati =>
            ((molIdxs s).getD ati.1 0, s.dtable.getD ati.2 0)) with hWu
        have hufold : us.foldl (fun m ati =>
            mset m slot ((molIdxs s).getD ati.1 0) (s.dtable.getD ati.2 0))
            s.pmx_used_distances
            = Wu.foldl (fun m2 w => mset m2 slot w.1 w.2) s.pmx_used_distances := by
          rw [hWu]
          exact foldl_useWrite_map slot (molIdxs s) s.dtable us s.pmx_used_distances
        have hWund : (Wu.map (·.1)).Nodup := by
          have hmm : Wu.map (·.1)
              = (us.map (·.1)).map (fun i => (molIdxs s).getD i 0) := by
            rw [hWu, List.map_map, List.map_map]
            rfl
          rw [hmm]
          refine List.Nodup.map_on ?_ hus1nd
          intro x hx y hy hxy
          rcases List.mem_map.mp hx with ⟨a, ha, rfl⟩
          rcases List.mem_map.mp hy with ⟨b, hb, rfl⟩
          exact getD_nodup_inj (molIdxs s) hnd a.1 b.1
            (by rw [length_molIdxs]; exact hus1lt a ha)
            (by rw [length_molIdxs]; exact hus1lt b hb) hxy
        have hWumem : ∀ w ∈ Wu, w.1 ∈ molIdxs s ∧ 0 < w.2 := by
          intro w hw
          rw [hWu] at hw
          rcases List.mem_map.mp hw with ⟨ati, hati, rfl⟩
          constructor
          · exact getD_mem _ _ _ (by rw [length_molIdxs]; exact hus1lt ati hati)
          · exact h.tbl_pos _ (getD_mem _ _ _ (hus2lt ati hati))
        have hWuslot : ∀ w ∈ Wu, w.1 ≠ slot := by
          intro w hw he
          exact hfresh (he ▸ (hWumem w hw).1)
        set used1 := Wu.foldl (fun m2 w => mset m2 slot w.1 w.2) s.pmx_used_distances
          with hused1
        have hWu2 : Wu.map (·.2) = us.map (fun ati => s.dtable.getD ati.2 0) := by
          rw [hWu, List.map_map]
          rfl
        have hfilter : (((List.map (fun j => mget used1 slot j) (molIdxs s)).filter
            (fun u => decide (0 < u)) : List ℚ) : Multiset ℚ)
            = ((us.map (fun ati => s.dtable.getD ati.2 0) : List ℚ) : Multiset ℚ) := by
          rw [← hWu2, hused1]
          exact rowFold_filter slot (molIdxs s) Wu s.pmx_used_distances hnd hfresh
            (fun j _ => h0used j) hWund hWumem
        have huseoff : ∀ i j, i ≠ slot → j ≠ slot →
            mget used1 i j = mget s.pmx_used_distances i j := by
          intro i j hi hj
          exact mget_rowFold_off_row slot Wu s.pmx_used_distances i j hi hj
        -- usedMS of the grown molecule
        have hpermS : (molIdxs s1).Perm (slot :: molIdxs s) := by
          rw [hmi]
          exact List.perm_append_singleton _ _
        have husedsplit := usedMS_cons_split s1 slot (molIdxs s) hpermS
        have husedMS : usedMS s1
            = ((us.map (fun ati => s.dtable.getD ati.2 0) : List ℚ) : Multiset ℚ)
              + usedMS s := by
          rw [husedsplit]
          have h1 : Multiset.filter (fun u => 0 < u)
              (((molIdxs s).map (fun j => mget s1.pmx_used_distances slot j) : List ℚ)
                : Multiset ℚ)
              = ((us.map (fun ati => s.dtable.getD ati.2 0) : List ℚ) : Multiset ℚ) := by
            rw [Multiset.filter_coe]
            rw [huse, hufold]
            exact hfilter
          have h2 : Multiset.filter (fun u => 0 < u)
              (((seqIdxPairs (molIdxs s)).map
                (fun p => mget s1.pmx_used_distances p.1 p.2) : List ℚ) : Multiset ℚ)
              = usedMS s := by
            unfold usedMS
            congr 1
            refine congrArg _ (List.map_congr_left ?_)
            intro p hp
            obtain ⟨hp1, hp2⟩ := mem_seqIdxPairs _ p hp
            rw [huse, hufold]
            exact huseoff p.1 p.2 (fun he => hfresh (he ▸ hp1))
              (fun he => hfresh (he ▸ hp2))
          rw [h1, h2]
        -- the erase fold on the working table
        set sortedIdx := List.insertionSort (· ≥ ·) (us.map (·.2)) with hsid
        have hdesc : sortedIdx.Pairwise (· > ·) := by
          rw [hsid]
          exact sorted_desc_pairwise_gt (us.map (·.2)) husnd
        have hsublt : ∀ i ∈ sortedIdx, i < s.dtable.length := by
          intro i hi
          rw [hsid] at hi
          have hi2 : i ∈ us.map (·.2) := (List.perm_insertionSort _ _).mem_iff.mp hi
          rcases List.mem_map.mp hi2 with ⟨ati, hati, rfl⟩
          exact hus2lt ati hati
        obtain ⟨hems, hesort, helen⟩ := eraseFoldDesc sortedIdx s.dtable hdesc hsublt
        have heq2 : ((sortedIdx.map (fun i => s.dtable.getD i 0) : List ℚ) : Multiset ℚ)
            = ((us.map (fun ati => s.dtable.getD ati.2 0) : List ℚ) : Multiset ℚ) := by
          have hp2 : sortedIdx.Perm (us.map (·.2)) := by
            rw [hsid]
            exact List.perm_insertionSort _ _
          refine (Multiset.coe_eq_coe.mpr (hp2.map _)).trans ?_
          rw [List.map_map]
          rfl
        refine ⟨⟨?_, ?_, ?_, ?_, ?_, ?_, ?_, ?_, ?_, ?_, ?_⟩,
          hdr2.trans hdr'.symm, hmaxc, hmi, ⟨A1, paNew, hat, hA1idx, rfl⟩,
          ⟨ps.sum, ?_, ?_, ?_, ?_⟩, ?_, ?_, ?_⟩
        · rw [hmi, hfree, hlen1]
          exact hslots1
        · intro i j hne
          rw [huse, hufold] at hne
          rw [hmi]
          refine mget_rowFold_prop (fun a b v => v ≠ 0 →
            a ≠ b ∧ a ∈ molIdxs s ++ [slot] ∧ b ∈ molIdxs s ++ [slot])
            slot Wu s.pmx_used_distances ?_ ?_ i j hne
          · intro a b hab
            obtain ⟨h1, h2, h3⟩ := h.used_live a b hab
            exact ⟨h1, List.mem_append.mpr (Or.inl h2), List.mem_append.mpr (Or.inl h3)⟩
          · intro w hw a b hk _
            obtain ⟨hw1, _⟩ := hWumem w hw
            have hslotmem : slot ∈ molIdxs s ++ [slot] :=
              List.mem_append.mpr (Or.inr (by simp))
            have hw1mem : w.1 ∈ molIdxs s ++ [slot] := List.mem_append.mpr (Or.inl hw1)
            rcases (pidx_eq_iff a b slot w.1).mp hk with ⟨ha2, hb2⟩ | ⟨ha2, hb2⟩
            · subst ha2; subst hb2
              exact ⟨fun he => hfresh (he ▸ hw1), hslotmem, hw1mem⟩
            · subst ha2; subst hb2
              exact ⟨fun he => hfresh (he.symm ▸ hw1), hw1mem, hslotmem⟩
        · intro i j
          rw [huse, hufold]
          refine mget_rowFold_prop (fun _ _ v => 0 ≤ v) slot Wu s.pmx_used_distances
            h.used_nonneg ?_ i j
          intro w hw a b _
          exact le_of_lt (hWumem w hw).2
        · intro hf
          exact absurd hf (by simp [hdr2])
        · intro i j
          rw [hcost]
          exact hcost_nn i j
        · rw [htbl]
          exact hesort h.tbl_sorted
        · intro x hx
          rw [htbl] at hx
          have hx2 : x ∈ ((s.dtable : List ℚ) : Multiset ℚ) := by
            rw [← hems]
            exact Multiset.mem_add.mpr (Or.inl (by simpa using hx))
          exact h.tbl_pos x (by simpa using hx2)
        · rw [hbadf]
          exact snapBad_nonneg _ _ heps
        · rw [hbadf, hcost, hmi, hpair1]
          refine snapBad_le _ _ _ ?_ ?_
          · have := h.bad_le
            linarith
          · have h1 := pairSum_nonneg s.pmx_partial_costs (molIdxs s) h.cost_nonneg
            have h2 : 0 ≤ ps.sum := List.sum_nonneg hpsnn
            linarith
        · intro a ha
          rw [hat] at ha
          rw [hcost, hmi]
          exact habad1 a ha
        · rw [hlen1, hmaxc]
          omega
        · exact List.sum_nonneg hpsnn
        · rw [hbadf]
        · rw [hcost, hmi]
          exact hpair1
        · rw [hcost]
          exact hpair0
        · intro i j hi hj
          rw [huse, hufold]
          exact huseoff i j hi hj
        · intro _
          rw [husedMS, htbl]
          calc ((sortedIdx.foldl (fun t i => eraseAt i t) s.dtable : List ℚ) : Multiset ℚ)
              + (((us.map (fun ati => s.dtable.getD ati.2 0) : List ℚ) : Multiset ℚ)
                + usedMS s)
              = (((sortedIdx.foldl (fun t i => eraseAt i t) s.dtable : List ℚ) : Multiset ℚ)
                + ((sortedIdx.map (fun i => s.dtable.getD i 0) : List ℚ) : Multiset ℚ))
                + usedMS s := by rw [heq2]; abel
            _ = ((s.dtable : List ℚ) : Multiset ℚ) + usedMS s := by rw [hems]
        · intro hf
          exact absurd (hf ▸ hdr') (by simp)

/-! ### Preservation: Add, one public step, and operation sequences -/

theorem AddM_effect {α : Type} (dist : α → α → ℚ) (eps tol : ℚ)
    (s s1 : Mol α) (apos : α) (h : WF s) (heps : 0 ≤ eps)
    (hres : AddM dist eps tol s apos = .ok s1) :
    WF s1 ∧ s1.distreuse = s.distreuse ∧ s1.maxAtomCount = s.maxAtomCount ∧
    (s.distreuse = false → (s1.dtable : Multiset ℚ) + usedMS s1
        = (s.dtable : Multiset ℚ) + usedMS s) := by
  unfold AddM at hres
  by_cases hcapeq : s.atoms.length = s.maxAtomCount
  · rw [if_pos hcapeq] at hres
    exact absurd hres (by simp)
  rw [if_neg hcapeq] at hres
  have hcap : s.atoms.length < s.maxAtomCount := lt_of_le_of_ne h.count_le hcapeq
  cases hadd : addNewAtomPairsM dist eps tol s apos with
  | error e =>
      rw [hadd] at hres
      exact absurd hres (by simp)
  | ok s0 =>
      rw [hadd] at hres
      simp only [] at hres
      obtain ⟨hWF0, hdr0, hmax0, _, _, _, _, hcons0, _⟩ :=
        addNewAtomPairs_effect dist eps tol s s0 apos h heps hcap hadd
      by_cases hfull : s0.maxAtomCount ≤ s0.atoms.length
      · rw [if_pos hfull] at hres
        obtain ⟨hWF1, hmi1, htbl1, hcost1, hlen1, hmax1, hdr1, hfree1, husedms1, hb1⟩ :=
          reassign_effect dist s0 s1 hWF0 hres
        refine ⟨hWF1, hdr1.trans hdr0, hmax1.trans hmax0, ?_⟩
        intro hf
        rw [htbl1, husedms1]
        exact hcons0 hf
      · rw [if_neg hfull] at hres
        simp only [Except.ok.injEq] at hres
        subst hres
        exact ⟨hWF0, hdr0, hmax0, hcons0⟩

theorem stepOp_effect {α : Type} (dist : α → α → ℚ) (eps tol : ℚ) (s : Mol α)
    (op : MolOp α) (h : WF s) (heps : 0 ≤ eps) :
    WF (stepOp dist eps tol s op) ∧
    (stepOp dist eps tol s op).distreuse = s.distreuse ∧
    (s.distreuse = false →
      ((stepOp dist eps tol s op).dtable : Multiset ℚ)
          + usedMS (stepOp dist eps tol s op)
        = (s.dtable : Multiset ℚ) + usedMS s) := by
  cases op with
  | add a =>
      cases hadd : AddM dist eps tol s a with
      | error e =>
          have hstep : stepOp dist eps tol s (.add a) = s := by
            simp only [stepOp, hadd]
          rw [hstep]
          exact ⟨h, rfl, fun _ => rfl⟩
      | ok s1 =>
          simp only [stepOp, hadd]
          obtain ⟨h1, h2, _, h4⟩ := AddM_effect dist eps tol s s1 a h heps hadd
          exact ⟨h1, h2, h4⟩
  | pop i =>
      cases hpop : PopM eps s i with
      | error e =>
          have hstep : stepOp dist eps tol s (.pop i) = s := by
            simp only [stepOp, hpop]
          rw [hstep]
          exact ⟨h, rfl, fun _ => rfl⟩
      | ok s1 =>
          simp only [stepOp, hpop]
          obtain ⟨h1, h2, _, _, _, _, _, h8, _⟩ := PopM_effect eps s s1 i h heps hpop
          exact ⟨h1, h2, h8⟩
  | clear =>
      simp only [stepOp]
      refine ⟨WF_ClearM s h, ?_, ?_⟩
      · show (ClearM s).distreuse = s.distreuse
        unfold ClearM returnUsedDistancesM
        split_ifs <;> rfl
      · intro hf
        have hz : usedMS (ClearM s) = 0 := by
          refine usedMS_eq_zero _ ?_
          intro i j
          show mget (returnUsedDistancesM s).pmx_used_distances i j = 0
          exact returnUsed_used_zero s h i j
        rw [ClearM_dtable_ms s hf, hz, add_zero]
  | recalc =>
      cases hrec : recalculateM s with
      | error e =>
          have hstep : stepOp dist eps tol s .recalc = s := by
            simp only [stepOp, hrec]
          rw [hstep]
          exact ⟨h, rfl, fun _ => rfl⟩
      | ok s1 =>
          simp only [stepOp, hrec]
          have hWF := WF_recalculateM s s1 h hrec
          have hs1 : s1 = recalcCore s := by
            unfold recalculateM at hrec
            rw [if_neg (by simpa using not_lt_of_le h.count_le)] at hrec
            simpa using hrec.symm
          subst hs1
          obtain ⟨hc, hu, hf2, hd, hr, hm, hlen, hb⟩ := recalcCore_fields s
          refine ⟨hWF, hr, ?_⟩
          intro _
          have husame : usedMS (recalcCore s) = usedMS s := by
            unfold usedMS
            rw [molIdxs_recalcCore, hu]
          rw [hd, husame]

/-- The freshly constructed molecule is well-formed whenever the target
distances are positive. -/
theorem WF_mkMol {α : Type} (T : List ℚ) (maxc : ℕ) (hT : ∀ x ∈ T, 0 < x) :
    WF (mkMol T maxc : Mol α) := by
  refine ⟨?_, ?_, ?_, ?_, ?_, ?_, ?_, ?_, ?_, ?_, ?_⟩
  · show (([] : List ℕ) ++ ([] : List ℕ)).Perm (List.range (0 + 0))
    simp
  · intro i j hne
    exact absurd rfl hne
  · intro i j
    exact le_refl 0
  · intro _ i j
    rfl
  · intro i j
    exact le_refl 0
  · exact List.sorted_insertionSort _ _
  · intro x hx
    exact hT x ((List.perm_insertionSort _ _).mem_iff.mp hx)
  · exact le_refl 0
  · show (0 : ℚ) ≤ pairSum _ (molIdxs (mkMol T maxc : Mol α))
    simp [molIdxs, mkMol, pairSum]
  · intro a ha
    exact absurd ha (by simp [mkMol])
  · show (0 : ℕ) ≤ maxc
    exact Nat.zero_le maxc

theorem runOps_effect {α : Type} (dist : α → α → ℚ) (eps tol : ℚ) (heps : 0 ≤ eps)
    (ops : List (MolOp α)) (s : Mol α) (h : WF s) :
    WF (runOps dist eps tol s ops) ∧
    (runOps dist eps tol s ops).distreuse = s.distreuse ∧
    (s.distreuse = false →
      ((runOps dist eps tol s ops).dtable : Multiset ℚ)
        + usedMS (runOps dist eps tol s ops)
        = (s.dtable : Multiset ℚ) + usedMS s) := by
  induction ops generalizing s with
  | nil => exact ⟨h, rfl, fun _ => rfl⟩
  | cons op ops ih =>
      obtain ⟨h1, h2, h3⟩ := stepOp_effect dist eps tol s op h heps
      obtain ⟨g1, g2, g3⟩ := ih (stepOp dist eps tol s op) h1
      simp only [runOps]
      refine ⟨g1, g2.trans h2, ?_⟩
      intro hf
      have hf2 : (stepOp dist eps tol s op).distreuse = false := h2.trans hf
      rw [g3 hf2, h3 hf]

/-! ### Concrete traces (positions on the z axis) -/

/-- `R3::distance` for atoms constrained to the z axis: positions are a
single rational coordinate. -/
def qdist (x y : ℚ) : ℚ := |x - y|

/-- A molecule driven by three `Add`s from the six-distance target table
`{1, 2, 3, 9, 10, 12}` with `eps_cost = 1/1000` and `tol_dd = 1000`. -/
def exC1 : Mol ℚ :=
  runOps qdist (1/1000) 1000 (mkMol [1, 2, 3, 9, 10, 12] 4)
    [.add 0, .add (103/100), .add (501/50)]

/-- A two-atom molecule one `Add` below its capacity of 3, built from the
target table `{1, 6, 10}`. -/
def exC3 : Mol ℚ :=
  runOps qdist (1/1000) 1000 (mkMol [1, 6, 10] 3) [.add 0, .add (17/2)]

/-- A two-atom molecule one `Add` below its capacity of 3, built from the
target table `{1, 9, 10}`; the two snaps leave badness at 0 while the
stored pair costs sum to 7/4000. -/
def exC4 : Mol ℚ :=
  runOps qdist (1/1000) 1000 (mkMol [1, 9, 10] 3) [.add 0, .add (103/100)]

/-! ### The distance-table heap of Molecule copies (claim C8) -/

/-- The allocations behind the `_distance_table` shared pointers: a store
of `DistanceTable` contents addressed by allocation index. -/
abbrev HStore := List (List ℚ)

/-- The table-referencing part of a `Molecule`: which allocation its
`_distance_table` points at, and its `distreuse` flag. -/
structure MolRef where
  tref : ℕ
  distreuse : Bool

/-- `Molecule::operator=` restricted to the distance table
(src/Molecule.cpp lines 92-124): the pointer is shared when the source
reuses distances, otherwise `setDistanceTable` (lines 147-150) allocates
a fresh copy of the source's table.  Returns the possibly grown store
and the assignee's reference. -/
def molAssign (st : HStore) (src : MolRef) : HStore × MolRef :=
  if src.distreuse then (st, src)
  else (st ++ [st.getD src.tref []], ⟨st.length, src.distreuse⟩)

/-- The two table mutations performed by the public operations: the
descending erasures of consumed distances in `Molecule::addNewAtomPairs`
and the `return_back`s of `Molecule::removeAtomPairs`. -/
inductive TblOp where
  | add (idxs : List ℕ)
  | pop (vals : List ℚ)

def applyTblOp : TblOp → List ℚ → List ℚ
  | .add idxs, t => (List.insertionSort (· ≥ ·) idxs).foldl (fun t2 i => eraseAt i t2) t
  | .pop vals, t => vals.foldl (fun t2 u => if 0 < u then return_back t2 u else t2) t

/-- One `Add`/`Pop` acting on the store through a molecule's table
reference; in the source both mutations are guarded by
`if (!distreuse)`, so a reusing molecule never writes its table. -/
def hTableStep (st : HStore) (m : MolRef) (op : TblOp) : HStore :=
  if m.distreuse then st
  else st.set m.tref (applyTblOp op (st.getD m.tref []))

def hTableSteps (st : HStore) (m : MolRef) : List TblOp → HStore
  | [] => st
  | op :: ops => hTableSteps (hTableStep st m op) m ops

theorem getD_set_ne {β : Type _} (l : List β) (i k : ℕ) (x : β) (d : β)
    (h : k ≠ i) : (l.set i x).getD k d = l.getD k d := by
  induction l generalizing i k with
  | nil => rfl
  | cons y t ih =>
      cases i with
      | zero =>
          cases k with
          | zero => exact absurd rfl h
          | succ k => rfl
      | succ i =>
          cases k with
          | zero => rfl
          | succ k => exact ih i k (by omega)

theorem hTableSteps_reuse (st : HStore) (m : MolRef) (hm : m.distreuse = true)
    (ops : List TblOp) : hTableSteps st m ops = st := by
  induction ops generalizing st with
  | nil => rfl
  | cons op ops ih =>
      show hTableSteps (hTableStep st m op) m ops = st
      have hstep : hTableStep st m op = st := by
        unfold hTableStep
        rw [hm]
        simp
      rw [hstep]
      exact ih st

/-- The table operations only ever write the molecule's own allocation. -/
theorem hTableSteps_getD_ne (ops : List TblOp) (st : HStore) (m : MolRef) (k : ℕ)
    (hk : k ≠ m.tref) :
    (hTableSteps st m ops).getD k [] = st.getD k [] := by
  induction ops generalizing st with
  | nil => rfl
  | cons op ops ih =>
      show (hTableSteps (hTableStep st m op) m ops).getD k [] = st.getD k []
      rw [ih (hTableStep st m op)]
      unfold hTableStep
      split_ifs
      · rfl
      · exact getD_set_ne st m.tref k _ [] hk

theorem getD_append_lt {β : Type _} (l l2 : List β) (n : ℕ) (d : β)
    (h : n < l.length) : (l ++ l2).getD n d = l.getD n d := by
  induction l generalizing n with
  | nil => simp at h
  | cons y t ih =>
      cases n with
      | zero => rfl
      | succ n => exact ih n (by simpa using Nat.lt_of_succ_lt_succ h)

/-! ### Claims C1 to C4 and C8 -/

/-- C1 (amended): after every public operation (`Add`, `Pop`, `Clear`,
`recalculate`) on a well-formed molecule, every stored pair cost
`pmx_partial_costs[i,j]` is non-negative, each atom's badness is exactly
half the sum of its row of pair costs, and the aggregate badness lies
between 0 and Σ pmx_partial_costs.  The claimed two-sided eps_cost bound
`|Σ pmx_partial_costs − badness| ≤ eps_cost` is refuted by
`c1_counterexample`: each `eps_cost` snap forfeits up to `eps_cost` of
badness while the stored costs keep their full values, so the gap
accumulates across operations past any single `eps_cost`. -/
theorem c1_invariants {α : Type} (dist : α → α → ℚ) (eps tol : ℚ) (s : Mol α)
    (op : MolOp α) (h : WF s) (heps : 0 ≤ eps) :
    (∀ i j, 0 ≤ mget (stepOp dist eps tol s op).pmx_partial_costs i j) ∧
    (∀ a ∈ (stepOp dist eps tol s op).atoms,
      2 * a.abad = rowSum (stepOp dist eps tol s op).pmx_partial_costs a.pmxidx
        (molIdxs (stepOp dist eps tol s op))) ∧
    0 ≤ (stepOp dist eps tol s op).badness ∧
    (stepOp dist eps tol s op).badness
      ≤ pairSum (stepOp dist eps tol s op).pmx_partial_costs
          (molIdxs (stepOp dist eps tol s op)) := by
  obtain ⟨h1, _, _⟩ := stepOp_effect dist eps tol s op h heps
  exact ⟨h1.cost_nonneg, h1.abad_eq, h1.bad_nonneg, h1.bad_le⟩

/-- C1 witness: the invariants instantiated on an `Add` applied to a fresh
one-distance molecule. -/
theorem c1_witness :
    (∀ i j, 0 ≤ mget (stepOp qdist (1/1000) 1000 (mkMol [(2:ℚ)] 1)
        (MolOp.add 0)).pmx_partial_costs i j) ∧
    (∀ a ∈ (stepOp qdist (1/1000) 1000 (mkMol [(2:ℚ)] 1) (MolOp.add 0)).atoms,
      2 * a.abad = rowSum (stepOp qdist (1/1000) 1000 (mkMol [(2:ℚ)] 1)
        (MolOp.add 0)).pmx_partial_costs a.pmxidx
        (molIdxs (stepOp qdist (1/1000) 1000 (mkMol [(2:ℚ)] 1) (MolOp.add 0)))) ∧
    0 ≤ (stepOp qdist (1/1000) 1000 (mkMol [(2:ℚ)] 1) (MolOp.add 0)).badness ∧
    (stepOp qdist (1/1000) 1000 (mkMol [(2:ℚ)] 1) (MolOp.add 0)).badness
      ≤ pairSum (stepOp qdist (1/1000) 1000 (mkMol [(2:ℚ)] 1)
          (MolOp.add 0)).pmx_partial_costs
          (molIdxs (stepOp qdist (1/1000) 1000 (mkMol [(2:ℚ)] 1) (MolOp.add 0))) :=
  c1_invariants qdist (1/1000) 1000 (mkMol [(2:ℚ)] 1) (MolOp.add 0)
    (WF_mkMol _ _ (by intro x hx; rw [List.mem_singleton] at hx; rw [hx]; norm_num))
    (by norm_num)

/-- C1 counterexample: with `eps_cost = 1/1000`, after three successful
`Add`s from the table `{1, 2, 3, 9, 10, 12}` two snaps have zeroed the
badness while the stored pair costs sum to 7/5000, so
`|Σ pmx_partial_costs − badness| ≤ eps_cost` fails. -/
theorem c1_counterexample :
    pairSum exC1.pmx_partial_costs (molIdxs exC1) - exC1.badness = 7/5000 ∧
    ¬ (|pairSum exC1.pmx_partial_costs (molIdxs exC1) - exC1.badness| ≤ 1/1000) := by
  norm_num [exC1, runOps, stepOp, AddM, addNewAtomPairsM, reassignPairsM, recalculateM,
    recalcCore, evalAtoms, find_nearest, lowerBound, eraseAt, insertAt, getPairMatrixIndex,
    molIdxs, mget, mset, pidx, snapBad, penalty, qdist, seqPairs, seqIdxPairs, pairSum,
    rowSum, mkMol, List.insertionSort, List.orderedInsert, return_back, insertSlot,
    abs_sub_comm, abs_of_nonneg, abs_of_nonpos]

/-- C2: on a molecule freshly built from a target table of positive
distances (distance reuse off), every sequence of public operations
preserves the multiset union of the working distance table and the
positive `pmx_used_distances` entries over live atom pairs: it always
equals the original target table. -/
theorem c2_conservation {α : Type} (dist : α → α → ℚ) (eps tol : ℚ)
    (heps : 0 ≤ eps) (T : List ℚ) (hT : ∀ x ∈ T, 0 < x) (maxc : ℕ)
    (ops : List (MolOp α)) :
    ((runOps dist eps tol (mkMol T maxc) ops).dtable : Multiset ℚ)
      + usedMS (runOps dist eps tol (mkMol T maxc) ops)
      = (T : Multiset ℚ) := by
  obtain ⟨_, _, h3⟩ := runOps_effect dist eps tol heps ops (mkMol T maxc)
    (WF_mkMol T maxc hT)
  rw [h3 rfl]
  have hu : usedMS (mkMol T maxc : Mol α) = 0 :=
    usedMS_eq_zero _ (fun i j => rfl)
  rw [hu, add_zero]
  exact Multiset.coe_eq_coe.mpr (List.perm_insertionSort _ _)

/-- C2 witness: conservation instantiated on one `Add` from the table
`{2}`. -/
theorem c2_witness :
    ((runOps qdist (1/1000) 1000 (mkMol [(2:ℚ)] 1) [MolOp.add 0]).dtable : Multiset ℚ)
      + usedMS (runOps qdist (1/1000) 1000 (mkMol [(2:ℚ)] 1) [MolOp.add 0])
      = (([(2:ℚ)] : List ℚ) : Multiset ℚ) :=
  c2_conservation qdist (1/1000) 1000 (by norm_num) [(2:ℚ)]
    (by intro x hx; rw [List.mem_singleton] at hx; rw [hx]; norm_num) 1 [MolOp.add 0]

/-- C3 (amended): when the `Add` leaves the molecule strictly below its
capacity (so `Molecule::Add` performs no `reassignPairs`), adding an atom
and popping that same atom restores the working distance table exactly as
a multiset, and restores the badness within `eps_cost`.  At capacity the
table-restore clause of the original claim fails (`c3_counterexample`):
`reassignPairs` re-pairs the used distances by rank, so the pop returns a
permuted selection of distances. -/
theorem c3_add_pop {α : Type} (dist : α → α → ℚ) (eps tol : ℚ) (s s1 s2 : Mol α)
    (apos : α) (h : WF s) (hdr : s.distreuse = false) (heps : 0 < eps)
    (hbelow : s.atoms.length + 1 < s.maxAtomCount)
    (hadd : AddM dist eps tol s apos = .ok s1)
    (hpop : PopM eps s1 s.atoms.length = .ok s2) :
    (s2.dtable : Multiset ℚ) = (s.dtable : Multiset ℚ) ∧
    |s2.badness - s.badness| < eps := by
  have heps' : 0 ≤ eps := le_of_lt heps
  unfold AddM at hadd
  rw [if_neg (by omega)] at hadd
  cases haddc : addNewAtomPairsM dist eps tol s apos with
  | error e =>
      rw [haddc] at hadd
      exact absurd hadd (by simp)
  | ok s0 =>
      rw [haddc] at hadd
      simp only [] at hadd
      obtain ⟨hWF0, hdr0, hmax0, hmi0, _, ⟨S, hS, hbad0, hpairs1, hpairs0⟩, huseoff0,
        hcons0, _⟩ := addNewAtomPairs_effect dist eps tol s s0 apos h heps'
          (by omega) haddc
      have hlen0 : s0.atoms.length = s.atoms.length + 1 := by
        have hle := congrArg List.length hmi0
        rw [length_molIdxs, List.length_append, length_molIdxs] at hle
        simpa using hle
      rw [if_neg (by rw [hmax0, hlen0]; omega)] at hadd
      simp only [Except.ok.injEq] at hadd
      subst hadd
      have hdr1 : s0.distreuse = false := hdr0.trans hdr
      obtain ⟨hWF2, hdr2, hmax2, hcost2, hmi2, hbad2, hums2, hcons2, _⟩ :=
        PopM_effect eps s0 s2 s.atoms.length hWF0 heps' hpop
      have hmi2x : molIdxs s2 = molIdxs s := by
        rw [hmi2, hmi0, ← length_molIdxs s, eraseAt_append_length]
      have hfresh := slot_fresh s h
      have hums : usedMS s2 = usedMS s := by
        rw [hums2, hmi2x]
        unfold usedMS
        congr 1
        refine congrArg _ (List.map_congr_left ?_)
        intro p hp
        obtain ⟨hp1, hp2⟩ := mem_seqIdxPairs _ p hp
        exact huseoff0 p.1 p.2 (fun he => hfresh (by rw [← he]; exact hp1))
          (fun he => hfresh (by rw [← he]; exact hp2))
      constructor
      · have e1 := hcons0 hdr
        have e2 := hcons2 hdr1
        rw [hums] at e2
        exact add_right_cancel (e2.trans e1)
      · have harg : s0.badness
            - (pairSum s0.pmx_partial_costs (molIdxs s0)
              - pairSum s0.pmx_partial_costs (molIdxs s2)) = s0.badness - S := by
          rw [hmi2x, hpairs1, hpairs0]
          ring
        rw [hbad2, harg, hbad0]
        have hb0 : 0 ≤ s.badness := h.bad_nonneg
        unfold snapBad
        split_ifs with h1 h2 h3
        · exact abs_lt.mpr ⟨by linarith, by linarith⟩
        · exact abs_lt.mpr ⟨by linarith, by linarith⟩
        · exact abs_lt.mpr ⟨by linarith, by linarith⟩
        · exact abs_lt.mpr ⟨by linarith, by linarith⟩

/-- C3 witness: add-then-pop on an empty molecule with table `{2}` and
room to spare restores the table and the badness. -/
theorem c3_witness :
    ∃ s1 s2 : Mol ℚ,
      AddM qdist (1/1000) 1000 (mkMol [(2:ℚ)] 3) 0 = Except.ok s1 ∧
      PopM (1/1000) s1 0 = Except.ok s2 ∧
      (s2.dtable : Multiset ℚ) = ((mkMol [(2:ℚ)] 3 : Mol ℚ).dtable : Multiset ℚ) ∧
      |s2.badness - (mkMol [(2:ℚ)] 3 : Mol ℚ).badness| < 1/1000 := by
  cases hadd : AddM qdist (1/1000) 1000 (mkMol [(2:ℚ)] 3) 0 with
  | error e =>
      exfalso
      have h2 := hadd
      norm_num [AddM, addNewAtomPairsM, evalAtoms, mkMol,
        getPairMatrixIndex, find_nearest, lowerBound, List.insertionSort,
        List.orderedInsert, snapBad, qdist] at h2
      exact absurd h2 (by simp)
  | ok s1 =>
      have hm : ∀ x ∈ [(2:ℚ)], 0 < x := by
        intro x hx
        rw [List.mem_singleton] at hx
        rw [hx]
        norm_num
      cases hpop : PopM (1/1000) s1 0 with
      | error e =>
          exfalso
          have h2 := hadd
          norm_num [AddM, addNewAtomPairsM, evalAtoms, mkMol, getPairMatrixIndex,
            find_nearest, lowerBound, List.insertionSort, List.orderedInsert,
            snapBad, qdist] at h2
          have hlen : s1.atoms.length = 1 := by
            rw [← h2]
            simp
          unfold PopM at hpop
          rw [dif_pos (by omega)] at hpop
          exact absurd hpop (by simp)
      | ok s2 =>
          obtain ⟨ht, hb⟩ := c3_add_pop qdist (1/1000) 1000 (mkMol [(2:ℚ)] 3) s1 s2 0
            (WF_mkMol _ _ hm) rfl (by norm_num) (by norm_num [mkMol]) hadd hpop
          exact ⟨s1, s2, rfl, hpop, ht, hb⟩

/-- C3 counterexample: a two-atom molecule (capacity 3, reuse off, working
table `[1, 6]`) for which the capacity-reaching `Add` runs
`reassignPairs`; popping the freshly added atom then leaves the working
table `[1, 10]`, which is not the prior multiset `{1, 6}`. -/
theorem c3_counterexample :
    exC3.atoms.length = 2 ∧ exC3.maxAtomCount = 3 ∧ exC3.distreuse = false ∧
    exC3.dtable = [1, 6] ∧
    (match AddM qdist (1/1000) 1000 exC3 (47/5) with
      | .ok s1 =>
          match PopM (1/1000) s1 2 with
          | .ok s2 => some s2.dtable
          | .error _ => none
      | .error _ => none) = some [1, 10] ∧
    ((([1, 10] : List ℚ) : Multiset ℚ) ≠ (([1, 6] : List ℚ) : Multiset ℚ)) := by
  refine ⟨?_, ?_, ?_, ?_, ?_, ?_⟩
  · norm_num [exC3, runOps, stepOp, AddM, addNewAtomPairsM, reassignPairsM, recalculateM,
      recalcCore, evalAtoms, find_nearest, lowerBound, eraseAt, insertAt,
      getPairMatrixIndex, molIdxs, mget, mset, pidx, snapBad, penalty, qdist, seqPairs,
      seqIdxPairs, pairSum, rowSum, mkMol, List.insertionSort, List.orderedInsert,
      return_back, insertSlot, abs_sub_comm, abs_of_nonneg, abs_of_nonpos]
  · norm_num [exC3, runOps, stepOp, AddM, addNewAtomPairsM, reassignPairsM, recalculateM,
      recalcCore, evalAtoms, find_nearest, lowerBound, eraseAt, insertAt,
      getPairMatrixIndex, molIdxs, mget, mset, pidx, snapBad, penalty, qdist, seqPairs,
      seqIdxPairs, pairSum, rowSum, mkMol, List.insertionSort, List.orderedInsert,
      return_back, insertSlot, abs_sub_comm, abs_of_nonneg, abs_of_nonpos]
  · norm_num [exC3, runOps, stepOp, AddM, addNewAtomPairsM, reassignPairsM, recalculateM,
      recalcCore, evalAtoms, find_nearest, lowerBound, eraseAt, insertAt,
      getPairMatrixIndex, molIdxs, mget, mset, pidx, snapBad, penalty, qdist, seqPairs,
      seqIdxPairs, pairSum, rowSum, mkMol, List.insertionSort, List.orderedInsert,
      return_back, insertSlot, abs_sub_comm, abs_of_nonneg, abs_of_nonpos]
  · norm_num [exC3, runOps, stepOp, AddM, addNewAtomPairsM, reassignPairsM, recalculateM,
      recalcCore, evalAtoms, find_nearest, lowerBound, eraseAt, insertAt,
      getPairMatrixIndex, molIdxs, mget, mset, pidx, snapBad, penalty, qdist, seqPairs,
      seqIdxPairs, pairSum, rowSum, mkMol, List.insertionSort, List.orderedInsert,
      return_back, insertSlot, abs_sub_comm, abs_of_nonneg, abs_of_nonpos]
  · norm_num [exC3, runOps, stepOp, AddM, addNewAtomPairsM, reassignPairsM, recalculateM,
      recalcCore, evalAtoms, find_nearest, lowerBound, eraseAt, insertAt,
      getPairMatrixIndex, molIdxs, mget, mset, pidx, snapBad, penalty, qdist, seqPairs,
      seqIdxPairs, pairSum, rowSum, mkMol, List.insertionSort, List.orderedInsert,
      return_back, insertSlot, PopM, abs_sub_comm, abs_of_nonneg, abs_of_nonpos]
  · intro hms
    have := Multiset.coe_eq_coe.mp hms
    have hmem : (10 : ℚ) ∈ ([1, 6] : List ℚ) := this.mem_iff.mp (by norm_num)
    rcases List.mem_cons.mp hmem with h10 | h10
    · norm_num at h10
    · rcases List.mem_cons.mp h10 with h10 | h10
      · norm_num at h10
      · simp at h10

/-- C4 (amended): for a non-reusing well-formed molecule at capacity, the
closing assertion of `reassignPairs` holds exactly when the stored
pair-cost sum is below `(1 + 1e-6)·badness + 1e-6`; because recalculation
re-sums the stored costs, the assertion compares the pair-cost sum with
the snapped badness, and it fails once the accumulated `eps_cost` snap
slack reaches the 1e-6 tolerance (see `c4_counterexample`). -/
theorem c4_assert_iff {α : Type} (dist : α → α → ℚ) (s : Mol α) (h : WF s)
    (hdr : s.distreuse = false) (hcap : s.atoms.length = s.maxAtomCount) :
    (∃ s2, reassignPairsM dist s = .ok s2) ↔
      pairSum s.pmx_partial_costs (molIdxs s)
        < (1 + 1/1000000) * s.badness + 1/1000000 := by
  unfold reassignPairsM
  simp only [hdr, Bool.false_eq_true, if_false]
  have hall : ((seqPairs dist s.atoms).all
      (fun p => decide (0 ≤ mget s.pmx_used_distances p.1.1 p.1.2))) = true := by
    rw [List.all_eq_true]
    intro p _
    exact decide_eq_true (h.used_nonneg _ _)
  rw [hall]
  simp only [Bool.not_true, Bool.false_eq_true, if_false]
  set used2 := ((List.insertionSort (fun p q => p.2 ≤ q.2) (seqPairs dist s.atoms)).zip
      (List.insertionSort (fun a b => a ≤ b) ((seqPairs dist s.atoms).map
        (fun p => mget s.pmx_used_distances p.1.1 p.1.2)))).foldl
      (fun m pu => mset m pu.1.1.1 pu.1.1.2 pu.2) s.pmx_used_distances with hused2
  have hrecalc : recalculateM { s with pmx_used_distances := used2, distreuse := false }
      = .ok (recalcCore { s with pmx_used_distances := used2, distreuse := false }) := by
    unfold recalculateM
    rw [if_neg (by simpa using not_lt_of_le h.count_le)]
  rw [hrecalc]
  simp only []
  have hbadval : (recalcCore { s with pmx_used_distances := used2, distreuse := false }).badness
      = pairSum s.pmx_partial_costs (molIdxs s) :=
    (recalcCore_fields { s with pmx_used_distances := used2, distreuse := false }).2.2.2.2.2.2.2
  constructor
  · rintro ⟨s2, hs2⟩
    by_cases hbc : (recalcCore { s with pmx_used_distances := used2, distreuse := false }).badness < (1 + 1/1000000) * s.badness + 1/1000000
    · rwa [hbadval] at hbc
    · rw [if_neg hbc] at hs2
      exact absurd hs2 (by simp)
  · intro hlt
    refine ⟨recalcCore { s with pmx_used_distances := used2, distreuse := false }, ?_⟩
    rw [if_pos (by rw [hbadval]; exact hlt)]

/-- C4 witness: the characterization instantiated on an empty molecule at
its (zero) capacity, where the assertion holds. -/
theorem c4_witness :
    ∃ s2, reassignPairsM qdist (mkMol [(2:ℚ)] 0) = Except.ok s2 :=
  (c4_assert_iff qdist (mkMol [(2:ℚ)] 0)
      (WF_mkMol _ _ (by intro x hx; rw [List.mem_singleton] at hx; rw [hx]; norm_num))
      rfl rfl).mpr
    (by norm_num [mkMol, molIdxs, pairSum])

/-- C4 counterexample: on the reachable two-atom molecule `exC4` the
capacity-reaching `addNewAtomPairs` succeeds with the molecule full and
not reusing distances, yet `reassignPairs` ends in the assertion failure:
the snap slack (badness 0 against pair-cost sum above 1e-6) breaks
`Badness() < (1 + 1e-6)·orgbadness + 1e-6`; consequently the public
`Molecule::Add` aborts. -/
theorem c4_counterexample :
    (match addNewAtomPairsM qdist (1/1000) 1000 exC4 (501/50) with
      | .ok s3 => some (s3.atoms.length, s3.maxAtomCount, s3.distreuse,
          reassignPairsM qdist s3)
      | .error _ => none)
      = some (3, 3, false, Except.error LigaErr.assertViolation) ∧
    AddM qdist (1/1000) 1000 exC4 (501/50) = .error LigaErr.assertViolation := by
  constructor
  · norm_num [exC4, runOps, stepOp, AddM, addNewAtomPairsM, reassignPairsM, recalculateM,
      recalcCore, evalAtoms, find_nearest, lowerBound, eraseAt, insertAt,
      getPairMatrixIndex, molIdxs, mget, mset, pidx, snapBad, penalty, qdist, seqPairs,
      seqIdxPairs, pairSum, rowSum, mkMol, List.insertionSort, List.orderedInsert,
      return_back, insertSlot, abs_sub_comm, abs_of_nonneg, abs_of_nonpos]
  · norm_num [exC4, runOps, stepOp, AddM, addNewAtomPairsM, reassignPairsM, recalculateM,
      recalcCore, evalAtoms, find_nearest, lowerBound, eraseAt, insertAt,
      getPairMatrixIndex, molIdxs, mget, mset, pidx, snapBad, penalty, qdist, seqPairs,
      seqIdxPairs, pairSum, rowSum, mkMol, List.insertionSort, List.orderedInsert,
      return_back, insertSlot, abs_sub_comm, abs_of_nonneg, abs_of_nonpos]

/-- C8: assigning a molecule (`Molecule::operator=`) shares the distance
table allocation only when the source reuses distances, in which case
neither molecule's `Add`/`Pop` ever writes the table; otherwise a fresh
allocation is made.  Either way, any sequence of `Add`/`Pop` table
operations on the copy leaves the original's table contents unchanged,
and operations on the original leave the copy's contents unchanged. -/
theorem c8_copy_independence (st : HStore) (M : MolRef) (hM : M.tref < st.length)
    (ops : List TblOp) :
    (hTableSteps (molAssign st M).1 (molAssign st M).2 ops).getD M.tref []
        = st.getD M.tref [] ∧
    (hTableSteps (molAssign st M).1 M ops).getD (molAssign st M).2.tref []
        = (molAssign st M).1.getD (molAssign st M).2.tref [] := by
  by_cases hdr : M.distreuse = true
  · have hassign : molAssign st M = (st, M) := by
      unfold molAssign
      rw [hdr]
      simp
    rw [hassign]
    exact ⟨by rw [hTableSteps_reuse st M hdr ops],
      by rw [hTableSteps_reuse st M hdr ops]⟩
  · have hdr' : M.distreuse = false := by simpa using hdr
    have hassign : molAssign st M
        = (st ++ [st.getD M.tref []], ⟨st.length, M.distreuse⟩) := by
      unfold molAssign
      rw [hdr']
      simp
    rw [hassign]
    constructor
    · rw [hTableSteps_getD_ne ops _ _ M.tref (by show M.tref ≠ st.length; omega)]
      exact getD_append_lt st [st.getD M.tref []] M.tref [] hM
    · rw [hTableSteps_getD_ne ops _ M st.length (by omega)]

/-- C8 witness: a non-reusing one-table store; an erase run on the copy
does not touch the original's allocation, and vice versa. -/
theorem c8_witness :
    (hTableSteps (molAssign [[(1:ℚ), 2]] ⟨0, false⟩).1
        (molAssign [[(1:ℚ), 2]] ⟨0, false⟩).2 [TblOp.add [0]]).getD
          (MolRef.tref ⟨0, false⟩) []
        = ([[(1:ℚ), 2]] : HStore).getD (MolRef.tref ⟨0, false⟩) [] ∧
    (hTableSteps (molAssign [[(1:ℚ), 2]] ⟨0, false⟩).1 ⟨0, false⟩
        [TblOp.add [0]]).getD (molAssign [[(1:ℚ), 2]] ⟨0, false⟩).2.tref []
        = (molAssign [[(1:ℚ), 2]] ⟨0, false⟩).1.getD
            (molAssign [[(1:ℚ), 2]] ⟨0, false⟩).2.tref [] :=
  c8_copy_independence [[(1:ℚ), 2]] ⟨0, false⟩ (by norm_num) [TblOp.add [0]]

end Liga